import Mathlib

/-!
# greetme-go: a verification development of `main.go`

The program is one Go file with two functions, `greet` and `main`.  Both are
embedded below together with the parts of the Go standard library they call:

* `unicode/utf8`: `DecodeRuneInString`, `DecodeLastRuneInString`, `AppendRune`;
* `unicode`: `IsSpace`, `ToUpper` (with the upper-case column of the case table);
* `strings`: `TrimSpace` (and `TrimFunc`, `TrimLeftFunc`, `TrimRightFunc`,
  `indexFunc`, `lastIndexFunc`), `ToUpper`, `Map`.

A Go `string` is an immutable sequence of bytes, not necessarily valid UTF-8
(the name is whatever bytes arrive on standard input).  It is modelled as a
`List Nat`, one number per byte.  A real string has every byte below 256; no
definition needs that bound (a larger number is treated like an invalid
byte), so the theorems carry no such hypothesis.  A `rune` is Go's `int32`
code point, modelled as an `Int` (where Go writes `rune`, `Int` stands below);
all values that occur stay far inside the 32-bit range.  The masks and shifts
of the UTF-8 coder are written with `%`, `/` and `*`, which agree with them on
the ranges where they are used.

The loops of the library that run over a string take a `fuel` argument that
bounds their iterations; each is called with enough fuel for the loop to end
on its own (`rangeFrom_fuel`, `lastIndexFuncLoop_fuel`, `toLoop_eq_toScan`).
-/

namespace GreetMe

/-- A Go string: its bytes. -/
abbrev GoString := List Nat

/-! ## `unicode/utf8` -/

namespace utf8

def RuneError : Int := 0xFFFD
def RuneSelf : Nat := 0x80
def MaxRune : Int := 0x10FFFF
def UTFMax : Nat := 4

def surrogateMin : Int := 0xD800
def surrogateMax : Int := 0xDFFF

def rune1Max : Int := 0x7F
def rune2Max : Int := 0x7FF
def rune3Max : Int := 0xFFFF

def locb : Nat := 0x80
def hicb : Nat := 0xBF

def xx : Nat := 0xF1
def as : Nat := 0xF0
def s1 : Nat := 0x02
def s2 : Nat := 0x13
def s3 : Nat := 0x03
def s4 : Nat := 0x23
def s5 : Nat := 0x34
def s6 : Nat := 0x04
def s7 : Nat := 0x44

/-- The table `first`: information about the first byte of a UTF-8 sequence. -/
def first (b : Nat) : Nat :=
  if b < 0x80 then as
  else if b < 0xC2 then xx
  else if b < 0xE0 then s1
  else if b = 0xE0 then s2
  else if b < 0xED then s3
  else if b = 0xED then s4
  else if b < 0xF0 then s3
  else if b = 0xF0 then s5
  else if b < 0xF4 then s6
  else if b = 0xF4 then s7
  else xx

/-- The table `acceptRanges`: the range allowed for the second byte. -/
def acceptRanges (i : Nat) : Nat × Nat :=
  match i with
  | 0 => (locb, hicb)
  | 1 => (0xA0, hicb)
  | 2 => (locb, 0x9F)
  | 3 => (0x90, hicb)
  | 4 => (locb, 0x8F)
  | _ => (0, 0)

/-- The function `utf8.DecodeRuneInString`: the first rune of `s` and its width
in bytes; `(RuneError, 0)` for the empty string and `(RuneError, 1)` for an
invalid encoding. -/
def DecodeRuneInString (s : GoString) : Int × Nat :=
  match s with
  | [] => (RuneError, 0)
  | s0 :: _ =>
    let x := first s0
    if x ≥ as then
      (if x = xx then RuneError else (s0 : Int), 1)
    else
      let sz := x % 8
      let accept := acceptRanges (x / 16)
      if s.length < sz then (RuneError, 1)
      else
        let b1 := s.getD 1 0
        if b1 < accept.1 ∨ accept.2 < b1 then (RuneError, 1)
        else if sz ≤ 2 then (((s0 % 32) * 64 + b1 % 64 : Nat), 2)
        else
          let b2 := s.getD 2 0
          if b2 < locb ∨ hicb < b2 then (RuneError, 1)
          else if sz ≤ 3 then (((s0 % 16) * 4096 + (b1 % 64) * 64 + b2 % 64 : Nat), 3)
          else
            let b3 := s.getD 3 0
            if b3 < locb ∨ hicb < b3 then (RuneError, 1)
            else (((s0 % 8) * 262144 + (b1 % 64) * 4096 + (b2 % 64) * 64 + b3 % 64 : Nat), 4)

/-- The function `utf8.RuneStart`: `b` is not a continuation byte, that is,
`b&0xC0 != 0x80`; for a byte this says that `b` is outside `0x80..0xBF`. -/
def RuneStart (b : Nat) : Bool := !(decide (0x80 ≤ b) && decide (b ≤ 0xBF))

/-- The backward scan of `DecodeLastRuneInString`: starting below `start`, step
down to the first index not below `lim` that holds a start byte; the Go loop
`for start--; start >= lim; start--` leaves `lim - 1` when there is none, which
the caller resets to `lim`, the value returned here. -/
def scanBack (s : GoString) (lim : Nat) : Nat → Nat
  | 0 => lim
  | start + 1 =>
    if start < lim then lim
    else if RuneStart (s.getD start 0) then start
    else scanBack s lim start

/-- The function `utf8.DecodeLastRuneInString`: the last rune of `s` and its
width (`end_` is Go's `end`). -/
def DecodeLastRuneInString (s : GoString) : Int × Nat :=
  let end_ := s.length
  if end_ = 0 then (RuneError, 0)
  else
    let start := end_ - 1
    let r := s.getD start 0
    if r < RuneSelf then ((r : Int), 1)
    else
      let lim := end_ - UTFMax
      let start := scanBack s lim start
      let (r, size) := DecodeRuneInString (s.drop start)
      if start + size ≠ end_ then (RuneError, 1)
      else (r, size)

/-- The function `utf8.AppendRune` on an empty buffer (what
`strings.Builder.WriteRune` appends): the UTF-8 encoding of `r`, or that of
`RuneError` when `r` is negative, a surrogate or above `MaxRune`. -/
def AppendRune (r : Int) : GoString :=
  if 0 ≤ r ∧ r ≤ rune1Max then [r.toNat]
  else if 0 ≤ r ∧ r ≤ rune2Max then
    [0xC0 + r.toNat / 64, 0x80 + r.toNat % 64]
  else if r < 0 ∨ r > MaxRune ∨ (surrogateMin ≤ r ∧ r ≤ surrogateMax) then
    [0xEF, 0xBF, 0xBD]
  else if r ≤ rune3Max then
    [0xE0 + r.toNat / 4096, 0x80 + r.toNat / 64 % 64, 0x80 + r.toNat % 64]
  else
    [0xF0 + r.toNat / 262144, 0x80 + r.toNat / 4096 % 64, 0x80 + r.toNat / 64 % 64,
      0x80 + r.toNat % 64]

end utf8

/-- The bytes of a string literal of the source file: Go source text is UTF-8,
and a literal denotes the UTF-8 encoding of the characters written between the
quotes. -/
def lit (s : String) : GoString :=
  (s.toList.map fun c => utf8.AppendRune (c.toNat : Int)).flatten

/-! ## `unicode` -/

namespace unicode

def MaxRune : Int := 0x10FFFF
def MaxASCII : Int := 0x7F
def MaxLatin1 : Int := 0xFF

/-- The type `unicode.Range16`: the code points `Lo, Lo + Stride, ..., Hi`. -/
structure Range16 where
  Lo : Int
  Hi : Int
  Stride : Int
deriving DecidableEq, Repr

/-- The 16-bit ranges of the table `unicode.White_Space`; its `LatinOffset` is 2
and it has no 32-bit ranges. -/
def White_Space_R16 : List Range16 :=
  [⟨0x0009, 0x000d, 1⟩, ⟨0x0020, 0x0085, 101⟩, ⟨0x00a0, 0x1680, 5600⟩, ⟨0x2000, 0x200a, 1⟩,
   ⟨0x2028, 0x2029, 1⟩, ⟨0x202f, 0x205f, 48⟩, ⟨0x3000, 0x3000, 1⟩]

def White_Space_LatinOffset : Nat := 2

/-- The linear branch of `unicode.is16`, the one taken for a table of at most
`linearMax = 18` ranges. -/
def is16 (r : Int) : List Range16 → Bool
  | [] => false
  | range_ :: rest =>
    if r < range_.Lo then false
    else if r ≤ range_.Hi then
      range_.Stride = 1 ∨ (r - range_.Lo) % range_.Stride = 0
    else is16 r rest

/-- The function `unicode.isExcludingLatin` for the table `White_Space`: a
negative rune is never in the table (the comparison is made on `uint32(r)`),
and the table has no 32-bit part. -/
def isExcludingLatin_White_Space (r : Int) : Bool :=
  let r16 := White_Space_R16
  let off := White_Space_LatinOffset
  match r16.getLast? with
  | some last =>
    if r16.length > off ∧ 0 ≤ r ∧ r ≤ last.Hi then is16 r (r16.drop off) else false
  | none => false

/-- The function `unicode.IsSpace`. -/
def IsSpace (r : Int) : Bool :=
  if 0 ≤ r ∧ r ≤ MaxLatin1 then
    r = 0x09 ∨ r = 0x0A ∨ r = 0x0B ∨ r = 0x0C ∨ r = 0x0D ∨ r = 0x20 ∨ r = 0x85 ∨ r = 0xA0
  else isExcludingLatin_White_Space r

/-- The constant `unicode.UpperLower`: the delta that marks an alternating
upper/lower sequence. -/
def UpperLower : Int := MaxRune + 1

/-- The type `unicode.CaseRange`, reduced to the component `Delta[UpperCase]`,
the only one `ToUpper` reads. -/
structure CaseRange where
  Lo : Int
  Hi : Int
  Delta : Int
deriving DecidableEq, Repr

/-- The table `unicode.CaseRanges`, upper-case column.  Go generates the table
from the simple case mappings of the Unicode Character Database; the entries
below are the simple upper-case mappings of UnicodeData.txt, version 14.0.0
(version 15.0.0 adds no case mapping), in increasing order.  Ranges whose
upper-case delta is zero are left out: for them `to` returns its argument, as it
does for a rune in no range; the ASCII letters are left out as well, `ToUpper`
handles them before it consults the table. -/
def CaseRanges : List CaseRange :=
  CaseRange.mk 0x00B5 0x00B5 743 ::
  CaseRange.mk 0x00E0 0x00F6 (-32) ::
  CaseRange.mk 0x00F8 0x00FE (-32) ::
  CaseRange.mk 0x00FF 0x00FF 121 ::
  CaseRange.mk 0x0100 0x012F UpperLower ::
  CaseRange.mk 0x0131 0x0131 (-232) ::
  CaseRange.mk 0x0132 0x0137 UpperLower ::
  CaseRange.mk 0x0139 0x0148 UpperLower ::
  CaseRange.mk 0x014A 0x0177 UpperLower ::
  CaseRange.mk 0x0179 0x017E UpperLower ::
  CaseRange.mk 0x017F 0x017F (-300) ::
  CaseRange.mk 0x0180 0x0180 195 ::
  CaseRange.mk 0x0182 0x0185 UpperLower ::
  CaseRange.mk 0x0188 0x0188 (-1) ::
  CaseRange.mk 0x018C 0x018C (-1) ::
  CaseRange.mk 0x0192 0x0192 (-1) ::
  CaseRange.mk 0x0195 0x0195 97 ::
  CaseRange.mk 0x0199 0x0199 (-1) ::
  CaseRange.mk 0x019A 0x019A 163 ::
  CaseRange.mk 0x019E 0x019E 130 ::
  CaseRange.mk 0x01A0 0x01A5 UpperLower ::
  CaseRange.mk 0x01A8 0x01A8 (-1) ::
  CaseRange.mk 0x01AD 0x01AD (-1) ::
  CaseRange.mk 0x01B0 0x01B0 (-1) ::
  CaseRange.mk 0x01B3 0x01B6 UpperLower ::
  CaseRange.mk 0x01B9 0x01B9 (-1) ::
  CaseRange.mk 0x01BD 0x01BD (-1) ::
  CaseRange.mk 0x01BF 0x01BF 56 ::
  CaseRange.mk 0x01C5 0x01C5 (-1) ::
  CaseRange.mk 0x01C6 0x01C6 (-2) ::
  CaseRange.mk 0x01C8 0x01C8 (-1) ::
  CaseRange.mk 0x01C9 0x01C9 (-2) ::
  CaseRange.mk 0x01CB 0x01CB (-1) ::
  CaseRange.mk 0x01CC 0x01CC (-2) ::
  CaseRange.mk 0x01CD 0x01DC UpperLower ::
  CaseRange.mk 0x01DD 0x01DD (-79) ::
  CaseRange.mk 0x01DE 0x01EF UpperLower ::
  CaseRange.mk 0x01F2 0x01F2 (-1) ::
  CaseRange.mk 0x01F3 0x01F3 (-2) ::
  CaseRange.mk 0x01F5 0x01F5 (-1) ::
  CaseRange.mk 0x01F8 0x021F UpperLower ::
  CaseRange.mk 0x0222 0x0233 UpperLower ::
  CaseRange.mk 0x023C 0x023C (-1) ::
  CaseRange.mk 0x023F 0x0240 10815 ::
  CaseRange.mk 0x0242 0x0242 (-1) ::
  CaseRange.mk 0x0246 0x024F UpperLower ::
  CaseRange.mk 0x0250 0x0250 10783 ::
  CaseRange.mk 0x0251 0x0251 10780 ::
  CaseRange.mk 0x0252 0x0252 10782 ::
  CaseRange.mk 0x0253 0x0253 (-210) ::
  CaseRange.mk 0x0254 0x0254 (-206) ::
  CaseRange.mk 0x0256 0x0257 (-205) ::
  CaseRange.mk 0x0259 0x0259 (-202) ::
  CaseRange.mk 0x025B 0x025B (-203) ::
  CaseRange.mk 0x025C 0x025C 42319 ::
  CaseRange.mk 0x0260 0x0260 (-205) ::
  CaseRange.mk 0x0261 0x0261 42315 ::
  CaseRange.mk 0x0263 0x0263 (-207) ::
  CaseRange.mk 0x0265 0x0265 42280 ::
  CaseRange.mk 0x0266 0x0266 42308 ::
  CaseRange.mk 0x0268 0x0268 (-209) ::
  CaseRange.mk 0x0269 0x0269 (-211) ::
  CaseRange.mk 0x026A 0x026A 42308 ::
  CaseRange.mk 0x026B 0x026B 10743 ::
  CaseRange.mk 0x026C 0x026C 42305 ::
  CaseRange.mk 0x026F 0x026F (-211) ::
  CaseRange.mk 0x0271 0x0271 10749 ::
  CaseRange.mk 0x0272 0x0272 (-213) ::
  CaseRange.mk 0x0275 0x0275 (-214) ::
  CaseRange.mk 0x027D 0x027D 10727 ::
  CaseRange.mk 0x0280 0x0280 (-218) ::
  CaseRange.mk 0x0282 0x0282 42307 ::
  CaseRange.mk 0x0283 0x0283 (-218) ::
  CaseRange.mk 0x0287 0x0287 42282 ::
  CaseRange.mk 0x0288 0x0288 (-218) ::
  CaseRange.mk 0x0289 0x0289 (-69) ::
  CaseRange.mk 0x028A 0x028B (-217) ::
  CaseRange.mk 0x028C 0x028C (-71) ::
  CaseRange.mk 0x0292 0x0292 (-219) ::
  CaseRange.mk 0x029D 0x029D 42261 ::
  CaseRange.mk 0x029E 0x029E 42258 ::
  CaseRange.mk 0x0345 0x0345 84 ::
  CaseRange.mk 0x0370 0x0373 UpperLower ::
  CaseRange.mk 0x0377 0x0377 (-1) ::
  CaseRange.mk 0x037B 0x037D 130 ::
  CaseRange.mk 0x03AC 0x03AC (-38) ::
  CaseRange.mk 0x03AD 0x03AF (-37) ::
  CaseRange.mk 0x03B1 0x03C1 (-32) ::
  CaseRange.mk 0x03C2 0x03C2 (-31) ::
  CaseRange.mk 0x03C3 0x03CB (-32) ::
  CaseRange.mk 0x03CC 0x03CC (-64) ::
  CaseRange.mk 0x03CD 0x03CE (-63) ::
  CaseRange.mk 0x03D0 0x03D0 (-62) ::
  CaseRange.mk 0x03D1 0x03D1 (-57) ::
  CaseRange.mk 0x03D5 0x03D5 (-47) ::
  CaseRange.mk 0x03D6 0x03D6 (-54) ::
  CaseRange.mk 0x03D7 0x03D7 (-8) ::
  CaseRange.mk 0x03D8 0x03EF UpperLower ::
  CaseRange.mk 0x03F0 0x03F0 (-86) ::
  CaseRange.mk 0x03F1 0x03F1 (-80) ::
  CaseRange.mk 0x03F2 0x03F2 7 ::
  CaseRange.mk 0x03F3 0x03F3 (-116) ::
  CaseRange.mk 0x03F5 0x03F5 (-96) ::
  CaseRange.mk 0x03F8 0x03F8 (-1) ::
  CaseRange.mk 0x03FB 0x03FB (-1) ::
  CaseRange.mk 0x0430 0x044F (-32) ::
  CaseRange.mk 0x0450 0x045F (-80) ::
  CaseRange.mk 0x0460 0x0481 UpperLower ::
  CaseRange.mk 0x048A 0x04BF UpperLower ::
  CaseRange.mk 0x04C1 0x04CE UpperLower ::
  CaseRange.mk 0x04CF 0x04CF (-15) ::
  CaseRange.mk 0x04D0 0x052F UpperLower ::
  CaseRange.mk 0x0561 0x0586 (-48) ::
  CaseRange.mk 0x10D0 0x10FA 3008 ::
  CaseRange.mk 0x10FD 0x10FF 3008 ::
  CaseRange.mk 0x13F8 0x13FD (-8) ::
  CaseRange.mk 0x1C80 0x1C80 (-6254) ::
  CaseRange.mk 0x1C81 0x1C81 (-6253) ::
  CaseRange.mk 0x1C82 0x1C82 (-6244) ::
  CaseRange.mk 0x1C83 0x1C84 (-6242) ::
  CaseRange.mk 0x1C85 0x1C85 (-6243) ::
  CaseRange.mk 0x1C86 0x1C86 (-6236) ::
  CaseRange.mk 0x1C87 0x1C87 (-6181) ::
  CaseRange.mk 0x1C88 0x1C88 35266 ::
  CaseRange.mk 0x1D79 0x1D79 35332 ::
  CaseRange.mk 0x1D7D 0x1D7D 3814 ::
  CaseRange.mk 0x1D8E 0x1D8E 35384 ::
  CaseRange.mk 0x1E00 0x1E95 UpperLower ::
  CaseRange.mk 0x1E9B 0x1E9B (-59) ::
  CaseRange.mk 0x1EA0 0x1EFF UpperLower ::
  CaseRange.mk 0x1F00 0x1F07 8 ::
  CaseRange.mk 0x1F10 0x1F15 8 ::
  CaseRange.mk 0x1F20 0x1F27 8 ::
  CaseRange.mk 0x1F30 0x1F37 8 ::
  CaseRange.mk 0x1F40 0x1F45 8 ::
  CaseRange.mk 0x1F51 0x1F51 8 ::
  CaseRange.mk 0x1F53 0x1F53 8 ::
  CaseRange.mk 0x1F55 0x1F55 8 ::
  CaseRange.mk 0x1F57 0x1F57 8 ::
  CaseRange.mk 0x1F60 0x1F67 8 ::
  CaseRange.mk 0x1F70 0x1F71 74 ::
  CaseRange.mk 0x1F72 0x1F75 86 ::
  CaseRange.mk 0x1F76 0x1F77 100 ::
  CaseRange.mk 0x1F78 0x1F79 128 ::
  CaseRange.mk 0x1F7A 0x1F7B 112 ::
  CaseRange.mk 0x1F7C 0x1F7D 126 ::
  CaseRange.mk 0x1F80 0x1F87 8 ::
  CaseRange.mk 0x1F90 0x1F97 8 ::
  CaseRange.mk 0x1FA0 0x1FA7 8 ::
  CaseRange.mk 0x1FB0 0x1FB1 8 ::
  CaseRange.mk 0x1FB3 0x1FB3 9 ::
  CaseRange.mk 0x1FBE 0x1FBE (-7205) ::
  CaseRange.mk 0x1FC3 0x1FC3 9 ::
  CaseRange.mk 0x1FD0 0x1FD1 8 ::
  CaseRange.mk 0x1FE0 0x1FE1 8 ::
  CaseRange.mk 0x1FE5 0x1FE5 7 ::
  CaseRange.mk 0x1FF3 0x1FF3 9 ::
  CaseRange.mk 0x214E 0x214E (-28) ::
  CaseRange.mk 0x2170 0x217F (-16) ::
  CaseRange.mk 0x2184 0x2184 (-1) ::
  CaseRange.mk 0x24D0 0x24E9 (-26) ::
  CaseRange.mk 0x2C30 0x2C5F (-48) ::
  CaseRange.mk 0x2C61 0x2C61 (-1) ::
  CaseRange.mk 0x2C65 0x2C65 (-10795) ::
  CaseRange.mk 0x2C66 0x2C66 (-10792) ::
  CaseRange.mk 0x2C67 0x2C6C UpperLower ::
  CaseRange.mk 0x2C73 0x2C73 (-1) ::
  CaseRange.mk 0x2C76 0x2C76 (-1) ::
  CaseRange.mk 0x2C80 0x2CE3 UpperLower ::
  CaseRange.mk 0x2CEB 0x2CEE UpperLower ::
  CaseRange.mk 0x2CF3 0x2CF3 (-1) ::
  CaseRange.mk 0x2D00 0x2D25 (-7264) ::
  CaseRange.mk 0x2D27 0x2D27 (-7264) ::
  CaseRange.mk 0x2D2D 0x2D2D (-7264) ::
  CaseRange.mk 0xA640 0xA66D UpperLower ::
  CaseRange.mk 0xA680 0xA69B UpperLower ::
  CaseRange.mk 0xA722 0xA72F UpperLower ::
  CaseRange.mk 0xA732 0xA76F UpperLower ::
  CaseRange.mk 0xA779 0xA77C UpperLower ::
  CaseRange.mk 0xA77E 0xA787 UpperLower ::
  CaseRange.mk 0xA78C 0xA78C (-1) ::
  CaseRange.mk 0xA790 0xA793 UpperLower ::
  CaseRange.mk 0xA794 0xA794 48 ::
  CaseRange.mk 0xA796 0xA7A9 UpperLower ::
  CaseRange.mk 0xA7B4 0xA7C3 UpperLower ::
  CaseRange.mk 0xA7C7 0xA7CA UpperLower ::
  CaseRange.mk 0xA7D1 0xA7D1 (-1) ::
  CaseRange.mk 0xA7D6 0xA7D9 UpperLower ::
  CaseRange.mk 0xA7F6 0xA7F6 (-1) ::
  CaseRange.mk 0xAB53 0xAB53 (-928) ::
  CaseRange.mk 0xAB70 0xABBF (-38864) ::
  CaseRange.mk 0xFF41 0xFF5A (-32) ::
  CaseRange.mk 0x10428 0x1044F (-40) ::
  CaseRange.mk 0x104D8 0x104FB (-40) ::
  CaseRange.mk 0x10597 0x105A1 (-39) ::
  CaseRange.mk 0x105A3 0x105B1 (-39) ::
  CaseRange.mk 0x105B3 0x105B9 (-39) ::
  CaseRange.mk 0x105BB 0x105BC (-39) ::
  CaseRange.mk 0x10CC0 0x10CF2 (-64) ::
  CaseRange.mk 0x118C0 0x118DF (-32) ::
  CaseRange.mk 0x16E60 0x16E7F (-32) ::
  CaseRange.mk 0x1E922 0x1E943 (-34) ::
  []

/-- The loop of `unicode.to` for `_case = UpperCase`: the binary search for a
range that contains `r` among those with index from `lo` up to, not including,
`hi`.  Every iteration that goes on makes `hi - lo` smaller, so `fuel = hi - lo`
iterations are enough. -/
def toLoop (r : Int) (caseRange : List CaseRange) : Nat → Nat → Nat → Int × Bool
  | 0, _, _ => (r, false)
  | fuel + 1, lo, hi =>
    if lo < hi then
      let m := (lo + hi) / 2
      match caseRange[m]? with
      | none => (r, false)
      | some cr =>
        if cr.Lo ≤ r ∧ r ≤ cr.Hi then
          let delta := cr.Delta
          if delta > MaxRune then (cr.Lo + (r - cr.Lo) / 2 * 2, true)
          else (r + delta, true)
        else if r < cr.Lo then toLoop r caseRange fuel lo m
        else toLoop r caseRange fuel (m + 1) hi
    else (r, false)

/-- The function `unicode.to` for `_case = UpperCase` (named `to_` here, `to`
being reserved): the image of `r`, and whether a range of the table holds `r`. -/
def to_ (r : Int) (caseRange : List CaseRange) : Int × Bool :=
  toLoop r caseRange caseRange.length 0 caseRange.length

/-- The first range of a table that holds `r`, applied to `r`: what `to_` computes
on a sorted table of disjoint ranges (`to_eq_toScan`), found by a scan from the
front. -/
def toScan (r : Int) : List CaseRange → Int × Bool
  | [] => (r, false)
  | cr :: rest =>
    if cr.Lo ≤ r ∧ r ≤ cr.Hi then
      let delta := cr.Delta
      if delta > MaxRune then (cr.Lo + (r - cr.Lo) / 2 * 2, true)
      else (r + delta, true)
    else toScan r rest

/-- The function `unicode.To` for `_case = UpperCase`. -/
def To (r : Int) : Int := (to_ r CaseRanges).1

/-- The function `unicode.ToUpper`. -/
def ToUpper (r : Int) : Int :=
  if r ≤ MaxASCII then
    if 0x61 ≤ r ∧ r ≤ 0x7A then r - (0x61 - 0x41) else r
  else To r

end unicode

/-! ## The `for i, r := range s` loop over a string -/

/-- The iterations of `for i, r := range s` from byte offset `i` on: each one
decodes a rune as `utf8.DecodeRuneInString` does and steps over its width (one
byte for an invalid encoding, which yields `RuneError`).  Every iteration
consumes at least one byte, so `fuel = len(s)` iterations are enough
(`rangeFrom_fuel`). -/
def rangeFrom : Nat → Nat → GoString → List (Nat × Int)
  | 0, _, _ => []
  | fuel + 1, i, s =>
    match s with
    | [] => []
    | _ :: _ =>
      let (r, w) := utf8.DecodeRuneInString s
      (i, r) :: rangeFrom fuel (i + w) (s.drop w)

/-- The pairs `(i, r)` that `for i, r := range s` goes through. -/
def rangeString (s : GoString) : List (Nat × Int) := rangeFrom s.length 0 s

/-! ## `strings` -/

namespace strings

/-- The table `asciiSpace`. -/
def asciiSpace (c : Nat) : Bool :=
  c = 0x09 ∨ c = 0x0A ∨ c = 0x0B ∨ c = 0x0C ∨ c = 0x0D ∨ c = 0x20

/-- The function `strings.indexFunc`: the offset of the first rune on which `f`
gives `truth`, or -1. -/
def indexFunc (s : GoString) (f : Int → Bool) (truth : Bool) : Int :=
  match (rangeString s).find? (fun p => f p.2 == truth) with
  | some p => (p.1 : Int)
  | none => -1

/-- The loop of `strings.lastIndexFunc`, entered with the offset `i`; each
iteration takes at least one byte off, so `fuel = len(s)` is enough. -/
def lastIndexFuncLoop (s : GoString) (f : Int → Bool) (truth : Bool) : Nat → Nat → Int
  | 0, _ => -1
  | fuel + 1, i =>
    if i > 0 then
      let (r, size) := utf8.DecodeLastRuneInString (s.take i)
      let i := i - size
      if f r == truth then (i : Int) else lastIndexFuncLoop s f truth fuel i
    else -1

/-- The function `strings.lastIndexFunc`. -/
def lastIndexFunc (s : GoString) (f : Int → Bool) (truth : Bool) : Int :=
  lastIndexFuncLoop s f truth s.length s.length

/-- The function `strings.TrimLeftFunc`. -/
def TrimLeftFunc (s : GoString) (f : Int → Bool) : GoString :=
  let i := indexFunc s f false
  if i = -1 then [] else s.drop i.toNat

/-- The function `strings.TrimRightFunc`. -/
def TrimRightFunc (s : GoString) (f : Int → Bool) : GoString :=
  let i := lastIndexFunc s f false
  let i :=
    if i ≥ 0 ∧ s.getD i.toNat 0 ≥ utf8.RuneSelf then
      i + ((utf8.DecodeRuneInString (s.drop i.toNat)).2 : Int)
    else i + 1
  s.take i.toNat

/-- The function `strings.TrimFunc`. -/
def TrimFunc (s : GoString) (f : Int → Bool) : GoString :=
  TrimRightFunc (TrimLeftFunc s f) f

/-- The second loop of `strings.TrimSpace`, over the bytes from the end; the
argument is `s[start:stop]` reversed, so its head is the byte `s[stop-1]`. -/
def trimSpaceStop : List Nat → GoString
  | [] => []
  | c :: rev =>
    if c ≥ utf8.RuneSelf then TrimRightFunc (c :: rev).reverse unicode.IsSpace
    else if asciiSpace c = false then (c :: rev).reverse
    else trimSpaceStop rev

/-- The function `strings.TrimSpace`: the first loop walks over leading ASCII
white space (the argument is `s[start:]`), hands over to `TrimFunc` at the first
non-ASCII byte, and otherwise leaves the end to the second loop. -/
def TrimSpace : GoString → GoString
  | [] => []
  | c :: rest =>
    if c ≥ utf8.RuneSelf then TrimFunc (c :: rest) unicode.IsSpace
    else if asciiSpace c = false then trimSpaceStop (c :: rest).reverse
    else TrimSpace rest

/-- The function `utf8.RuneLen`. -/
def RuneLen (r : Int) : Int :=
  if r < 0 then -1
  else if r ≤ utf8.rune1Max then 1
  else if r ≤ utf8.rune2Max then 2
  else if utf8.surrogateMin ≤ r ∧ r ≤ utf8.surrogateMax then -1
  else if r ≤ utf8.rune3Max then 3
  else if r ≤ utf8.MaxRune then 4
  else -1

/-- The first loop of `strings.Map`: it runs over the runes that the mapping
leaves unchanged and stops at the first one that is changed or is an invalid
byte; the result is the offset `i` of that rune, its image `r` and its `width`,
or `none` when the loop runs to the end. -/
def mapFirst (mapping : Int → Int) (s : GoString) :
    List (Nat × Int) → Option (Nat × Int × Int)
  | [] => none
  | (i, c) :: rest =>
    let r := mapping c
    if r = c ∧ c ≠ utf8.RuneError then mapFirst mapping s rest
    else if c = utf8.RuneError then
      let (c, width) := utf8.DecodeRuneInString (s.drop i)
      if width ≠ 1 ∧ r = c then mapFirst mapping s rest
      else some (i, r, (width : Int))
    else some (i, r, RuneLen c)

/-- The body of the second loop of `strings.Map`: what one rune adds to the
builder. -/
def mapWrite (mapping : Int → Int) (c : Int) : GoString :=
  let r := mapping c
  if r ≥ 0 then
    if r < utf8.RuneSelf then [r.toNat] else utf8.AppendRune r
  else []

/-- The function `strings.Map`. -/
def Map (mapping : Int → Int) (s : GoString) : GoString :=
  match mapFirst mapping s (rangeString s) with
  | none => s
  | some (i, r, width) =>
    let b := s.take i ++ (if r ≥ 0 then utf8.AppendRune r else [])
    let s := s.drop ((i : Int) + width).toNat
    b ++ ((rangeString s).map fun p => mapWrite mapping p.2).flatten

/-- The function `strings.ToUpper`. -/
def ToUpper (s : GoString) : GoString :=
  let isASCII := s.all fun c => c < utf8.RuneSelf
  let hasLower := s.any fun c => 0x61 ≤ c ∧ c ≤ 0x7A
  if isASCII then
    if !hasLower then s
    else s.map fun c => if 0x61 ≤ c ∧ c ≤ 0x7A then c - (0x61 - 0x41) else c
  else Map unicode.ToUpper s

end strings

/-! ## `main.go` -/

/-- The function `greet` of `main.go`. -/
def greet (name : GoString) (shout : Bool) : GoString :=
  let name := strings.TrimSpace name
  let name := if name = [] then lit "stranger" else name
  let msg := lit "Hello, " ++ name ++ lit "! Welcome to Go ðŸŽ‰"
  let msg := if shout then strings.ToUpper msg else msg
  msg

/-- The function `fmt.Print` for one string operand: the operand itself. -/
def fmt.Print (a : GoString) : GoString := a

/-- The function `fmt.Println`: the operands separated by one space, then a
newline.  An operand of type `error` is printed as its `Error()` text, which is
what the operand stands for here. -/
def fmt.Println (a : List GoString) : GoString :=
  (a.intersperse (lit " ")).flatten ++ lit "\n"

/-- What `main` does with the outside world, in the order it does it: a write to
standard output, or the `ReadString` call on standard input. -/
inductive Event where
  | write (text : GoString)
  | read
deriving DecidableEq, Repr

/-- The function `main` of `main.go`, as the trace of its input and output.
What the run gets from outside is passed in: `shout`, the value of the `--shout`
flag after `flag.Parse`; `rd = (name, err)`, the two results of
`reader.ReadString` (`err = none` for a nil error, otherwise the text of
`err.Error()`); `now`, the text of `time.Now().Format(time.RFC1123)`. -/
def main (shout : Bool) (rd : GoString × Option GoString) (now : GoString) : List Event :=
  let out := [Event.write (fmt.Print (lit "Enter your name: "))]
  let out := out ++ [Event.read]
  let (name, err) := rd
  match err with
  | some e => out ++ [Event.write (fmt.Println [lit "Error reading input:", e])]
  | none =>
    let out := out ++ [Event.write (fmt.Println [greet name shout])]
    out ++ [Event.write (fmt.Println [lit "Generated at:", now])]

/-- The bytes written to standard output during a trace, in order. -/
def stdout : List Event → GoString
  | [] => []
  | Event.write text :: rest => text ++ stdout rest
  | Event.read :: rest => stdout rest

/-- The texts of the writes of a trace. -/
def writes : List Event → List GoString
  | [] => []
  | Event.write text :: rest => text :: writes rest
  | Event.read :: rest => writes rest

/-- The number of reads of a trace. -/
def reads : List Event → Nat
  | [] => 0
  | Event.write _ :: rest => reads rest
  | Event.read :: rest => reads rest + 1

/-! ## Vocabulary of the properties -/

/-- The runes of `s`, as `for _, r := range s` yields them. -/
def runes (s : GoString) : List Int := (rangeString s).map Prod.snd

/-- The UTF-8 encoding of a sequence of runes. -/
def encodeRunes (rs : List Int) : GoString := (rs.map utf8.AppendRune).flatten

/-- A rune that has a UTF-8 encoding of its own: a code point up to `MaxRune`
outside the surrogate range (`utf8.ValidRune`). -/
def ValidRune (r : Int) : Bool :=
  (0 ≤ r ∧ r < utf8.surrogateMin) ∨ (utf8.surrogateMax < r ∧ r ≤ utf8.MaxRune)

/-- The string consists of white space only: each of its runes is one that
`unicode.IsSpace` accepts (an invalid byte decodes to `RuneError`, which is
not).  The empty string is included. -/
def isWhitespaceOnly (s : GoString) : Bool := (runes s).all unicode.IsSpace

/-- The lower bound that `acceptRanges` sets for the second byte of a sequence
whose first byte is `b0`. -/
def lo2 (b0 : Nat) : Nat := if b0 = 0xE0 then 0xA0 else if b0 = 0xF0 then 0x90 else 0x80

/-- The upper bound that `acceptRanges` sets for the second byte of a sequence
whose first byte is `b0`. -/
def hi2 (b0 : Nat) : Nat := if b0 = 0xED then 0x9F else if b0 = 0xF4 then 0x8F else 0xBF

/-- What the ASCII branch of `strings.ToUpper` does to one byte. -/
def upperByte (c : Nat) : Nat := if 0x61 ≤ c ∧ c ≤ 0x7A then c - (0x61 - 0x41) else c

/-! ## Checks on the case table -/

/-- The code points that `unicode.IsSpace` accepts. -/
def unicode.spaces : List Int :=
  [0x09, 0x0A, 0x0B, 0x0C, 0x0D, 0x20, 0x85, 0xA0, 0x1680, 0x2000, 0x2001, 0x2002, 0x2003,
   0x2004, 0x2005, 0x2006, 0x2007, 0x2008, 0x2009, 0x200A, 0x2028, 0x2029, 0x202F, 0x205F, 0x3000]

/-- The ranges are in increasing order and disjoint. -/
def unicode.sortedRanges : List unicode.CaseRange → Bool
  | [] => true
  | [cr] => cr.Lo ≤ cr.Hi
  | cr :: next :: rest => cr.Lo ≤ cr.Hi && cr.Hi < next.Lo && unicode.sortedRanges (next :: rest)

/-- A lower bound of the upper-case images of the runes of a range. -/
def unicode.imgLo (cr : unicode.CaseRange) : Int :=
  if cr.Delta > unicode.MaxRune then cr.Lo else cr.Lo + cr.Delta

/-- An upper bound of the upper-case images of the runes of a range. -/
def unicode.imgHi (cr : unicode.CaseRange) : Int :=
  if cr.Delta > unicode.MaxRune then cr.Hi else cr.Hi + cr.Delta

/-- The images of the runes of `cr` are left alone by the range `next`: either no
image lies in `next`, or `next` maps each image to itself. -/
def unicode.fixedBy (cr next : unicode.CaseRange) : Bool :=
  unicode.imgHi cr < next.Lo || next.Hi < unicode.imgLo cr ||
    (List.range (cr.Hi - cr.Lo + 1).toNat).all fun k =>
      (unicode.toScan (unicode.toScan (cr.Lo + k) [cr]).1 [next]).1 ==
        (unicode.toScan (cr.Lo + k) [cr]).1

/-- The check made of every case range `cr` of the table `tbl`: its runes are
above ASCII; their images are valid runes, none of them a lower-case ASCII
letter; neither the runes nor the images are white space; every range of the
table leaves the images alone. -/
def unicode.rangeOK (tbl : List unicode.CaseRange) (cr : unicode.CaseRange) : Bool :=
  decide (unicode.MaxASCII < cr.Lo)
  && (decide (0 ≤ unicode.imgLo cr ∧ unicode.imgHi cr < utf8.surrogateMin)
      || decide (utf8.surrogateMax < unicode.imgLo cr ∧ unicode.imgHi cr ≤ utf8.MaxRune))
  && decide (unicode.imgHi cr < 0x61 ∨ 0x7A < unicode.imgLo cr)
  && unicode.spaces.all (fun sp =>
      decide ((sp < cr.Lo ∨ cr.Hi < sp) ∧ (sp < unicode.imgLo cr ∨ unicode.imgHi cr < sp)))
  && tbl.all (unicode.fixedBy cr)

open utf8

/-! ## UTF-8: decoding and encoding -/

theorem first_ascii {b : Nat} (h : b < 0x80) : first b = 0xF0 := by
  unfold first; rw [if_pos h]; rfl

theorem first_bad {b : Nat} (h : (0x80 ≤ b ∧ b < 0xC2) ∨ 0xF5 ≤ b) : first b = 0xF1 := by
  unfold first
  rcases h with h | h
  · rw [if_neg (by omega), if_pos (by omega)]; rfl
  · iterate 10 rw [if_neg (by omega)]
    rfl

theorem first_two {b : Nat} (h : 0xC2 ≤ b ∧ b < 0xE0) : first b = 0x02 := by
  unfold first
  rw [if_neg (by omega), if_neg (by omega), if_pos (by omega)]; rfl

theorem first_E0 : first 0xE0 = 0x13 := by decide
theorem first_ED : first 0xED = 0x23 := by decide
theorem first_F0 : first 0xF0 = 0x34 := by decide
theorem first_F4 : first 0xF4 = 0x44 := by decide

theorem first_three {b : Nat} (h : 0xE0 < b ∧ b < 0xF0) (h' : b ≠ 0xED) : first b = 0x03 := by
  unfold first
  by_cases h5 : b < 0xED
  · rw [if_neg (by omega), if_neg (by omega), if_neg (by omega), if_neg (by omega),
      if_pos (by omega)]; rfl
  · rw [if_neg (by omega), if_neg (by omega), if_neg (by omega), if_neg (by omega),
      if_neg (by omega), if_neg (by omega), if_pos (by omega)]; rfl

theorem first_four {b : Nat} (h : 0xF0 < b ∧ b < 0xF4) : first b = 0x04 := by
  unfold first
  iterate 8 rw [if_neg (by omega)]
  rw [if_pos (by omega)]; rfl

theorem Decode_ascii (b0 : Nat) (t : GoString) (h : b0 < 0x80) :
    DecodeRuneInString (b0 :: t) = ((b0 : Int), 1) := by
  simp [DecodeRuneInString, first_ascii h, as, xx]

theorem Decode_bad_first (b0 : Nat) (t : GoString) (h : (0x80 ≤ b0 ∧ b0 < 0xC2) ∨ 0xF5 ≤ b0) :
    DecodeRuneInString (b0 :: t) = (RuneError, 1) := by
  simp [DecodeRuneInString, first_bad h, as, xx]

theorem Decode_two (b0 : Nat) (t : GoString) (h : 0xC2 ≤ b0 ∧ b0 < 0xE0) :
    DecodeRuneInString (b0 :: t) =
      match t with
      | b1 :: _ =>
        if 0x80 ≤ b1 ∧ b1 ≤ 0xBF then (((b0 % 32) * 64 + b1 % 64 : Nat), 2) else (RuneError, 1)
      | [] => (RuneError, 1) := by
  rcases t with _ | ⟨b1, t⟩
  · simp [DecodeRuneInString, first_two h, as, xx]
  · simp only [DecodeRuneInString, first_two h, as, xx, acceptRanges, locb, hicb]
    by_cases hb : 0x80 ≤ b1 ∧ b1 ≤ 0xBF
    · have h1 : ¬ (b1 < 0x80 ∨ 0xBF < b1) := by omega
      simp [hb, h1]
    · have h1 : (b1 < 0x80 ∨ 0xBF < b1) := by omega
      simp [hb, h1]

theorem Decode_three_aux (b0 b1 b2 : Nat) (t : GoString) (x lo hi : Nat)
    (hf : first b0 = x) (hx : x < 0xF0) (hsz : x % 8 = 3) (ha : acceptRanges (x / 16) = (lo, hi)) :
    DecodeRuneInString (b0 :: b1 :: b2 :: t) =
      if lo ≤ b1 ∧ b1 ≤ hi ∧ 0x80 ≤ b2 ∧ b2 ≤ 0xBF then
        ((((b0 % 16) * 4096 + (b1 % 64) * 64 + b2 % 64 : Nat) : Int), 3)
      else (RuneError, 1) := by
  simp only [DecodeRuneInString, hf, as, ha, hsz, locb, hicb]
  rw [if_neg (by omega)]
  simp only [List.length_cons, List.getD_cons_succ, List.getD_cons_zero]
  rw [if_neg (by omega)]
  by_cases h1 : b1 < lo ∨ hi < b1
  · rw [if_pos h1, if_neg (by omega)]
  · rw [if_neg h1, if_neg (by omega)]
    by_cases h2 : b2 < 0x80 ∨ 0xBF < b2
    · rw [if_pos h2, if_neg (by omega)]
    · rw [if_neg h2, if_pos (by omega), if_pos (by omega)]

theorem Decode_three (b0 : Nat) (t : GoString) (h : 0xE0 ≤ b0 ∧ b0 < 0xF0) :
    DecodeRuneInString (b0 :: t) =
      match t with
      | b1 :: b2 :: _ =>
        if lo2 b0 ≤ b1 ∧ b1 ≤ hi2 b0 ∧ 0x80 ≤ b2 ∧ b2 ≤ 0xBF then
          (((b0 % 16) * 4096 + (b1 % 64) * 64 + b2 % 64 : Nat), 3)
        else (RuneError, 1)
      | _ => (RuneError, 1) := by
  have hf : first b0 = 0x13 ∨ first b0 = 0x23 ∨ first b0 = 0x03 := by
    by_cases h1 : b0 = 0xE0
    · subst h1; exact Or.inl first_E0
    · by_cases h2 : b0 = 0xED
      · subst h2; exact Or.inr (Or.inl first_ED)
      · exact Or.inr (Or.inr (first_three (by omega) h2))
  rcases t with _ | ⟨b1, _ | ⟨b2, t⟩⟩
  · rcases hf with hf | hf | hf <;> simp [DecodeRuneInString, hf, as, xx]
  · rcases hf with hf | hf | hf <;>
      simp [DecodeRuneInString, hf, as, xx]
  · by_cases h1 : b0 = 0xE0
    · subst h1
      exact Decode_three_aux _ _ _ _ _ _ _ first_E0 (by decide) (by decide) rfl
    · by_cases h2 : b0 = 0xED
      · subst h2
        exact Decode_three_aux _ _ _ _ _ _ _ first_ED (by decide) (by decide) rfl
      · have hl : lo2 b0 = 0x80 := by
          unfold lo2; rw [if_neg h1, if_neg (by omega)]
        have hh : hi2 b0 = 0xBF := by
          unfold hi2; rw [if_neg h2, if_neg (by omega)]
        simp only [hl, hh]
        exact Decode_three_aux _ _ _ _ _ _ _ (first_three (by omega) h2) (by decide) (by decide) rfl

theorem Decode_four_aux (b0 b1 b2 b3 : Nat) (t : GoString) (x lo hi : Nat)
    (hf : first b0 = x) (hx : x < 0xF0) (hsz : x % 8 = 4) (ha : acceptRanges (x / 16) = (lo, hi)) :
    DecodeRuneInString (b0 :: b1 :: b2 :: b3 :: t) =
      if lo ≤ b1 ∧ b1 ≤ hi ∧ 0x80 ≤ b2 ∧ b2 ≤ 0xBF ∧ 0x80 ≤ b3 ∧ b3 ≤ 0xBF then
        ((((b0 % 8) * 262144 + (b1 % 64) * 4096 + (b2 % 64) * 64 + b3 % 64 : Nat) : Int), 4)
      else (RuneError, 1) := by
  simp only [DecodeRuneInString, hf, as, ha, hsz, locb, hicb]
  rw [if_neg (by omega)]
  simp only [List.length_cons, List.getD_cons_succ, List.getD_cons_zero]
  rw [if_neg (by omega)]
  by_cases h1 : b1 < lo ∨ hi < b1
  · rw [if_pos h1, if_neg (by omega)]
  · rw [if_neg h1, if_neg (by omega)]
    by_cases h2 : b2 < 0x80 ∨ 0xBF < b2
    · rw [if_pos h2, if_neg (by omega)]
    · rw [if_neg h2, if_neg (by omega)]
      by_cases h3 : b3 < 0x80 ∨ 0xBF < b3
      · rw [if_pos h3, if_neg (by omega)]
      · rw [if_neg h3, if_pos (by omega)]

theorem Decode_four (b0 : Nat) (t : GoString) (h : 0xF0 ≤ b0 ∧ b0 < 0xF5) :
    DecodeRuneInString (b0 :: t) =
      match t with
      | b1 :: b2 :: b3 :: _ =>
        if lo2 b0 ≤ b1 ∧ b1 ≤ hi2 b0 ∧ 0x80 ≤ b2 ∧ b2 ≤ 0xBF ∧ 0x80 ≤ b3 ∧ b3 ≤ 0xBF then
          (((b0 % 8) * 262144 + (b1 % 64) * 4096 + (b2 % 64) * 64 + b3 % 64 : Nat), 4)
        else (RuneError, 1)
      | _ => (RuneError, 1) := by
  have hf : first b0 = 0x34 ∨ first b0 = 0x44 ∨ first b0 = 0x04 := by
    by_cases h1 : b0 = 0xF0
    · subst h1; exact Or.inl first_F0
    · by_cases h2 : b0 = 0xF4
      · subst h2; exact Or.inr (Or.inl first_F4)
      · exact Or.inr (Or.inr (first_four (by omega)))
  rcases t with _ | ⟨b1, _ | ⟨b2, _ | ⟨b3, t⟩⟩⟩
  · rcases hf with hf | hf | hf <;> simp [DecodeRuneInString, hf, as, xx]
  · rcases hf with hf | hf | hf <;> simp [DecodeRuneInString, hf, as, xx]
  · rcases hf with hf | hf | hf <;> simp [DecodeRuneInString, hf, as, xx]
  · by_cases h1 : b0 = 0xF0
    · subst h1
      exact Decode_four_aux _ _ _ _ _ _ _ _ first_F0 (by decide) (by decide) rfl
    · by_cases h2 : b0 = 0xF4
      · subst h2
        exact Decode_four_aux _ _ _ _ _ _ _ _ first_F4 (by decide) (by decide) rfl
      · have hl : lo2 b0 = 0x80 := by
          unfold lo2; rw [if_neg (by omega), if_neg h1]
        have hh : hi2 b0 = 0xBF := by
          unfold hi2; rw [if_neg (by omega), if_neg h2]
        simp only [hl, hh]
        exact Decode_four_aux _ _ _ _ _ _ _ _ (first_four (by omega)) (by decide) (by decide) rfl

theorem AppendRune_one {r : Int} (h : 0 ≤ r ∧ r ≤ 0x7F) : AppendRune r = [r.toNat] := by
  unfold AppendRune rune1Max
  rw [if_pos h]

theorem AppendRune_two {r : Int} (h : 0x80 ≤ r ∧ r ≤ 0x7FF) :
    AppendRune r = [0xC0 + r.toNat / 64, 0x80 + r.toNat % 64] := by
  unfold AppendRune rune1Max rune2Max
  rw [if_neg (by omega), if_pos (by omega)]

theorem AppendRune_three {r : Int} (h : 0x800 ≤ r ∧ r ≤ 0xFFFF)
    (hs : ¬ (0xD800 ≤ r ∧ r ≤ 0xDFFF)) :
    AppendRune r = [0xE0 + r.toNat / 4096, 0x80 + r.toNat / 64 % 64, 0x80 + r.toNat % 64] := by
  unfold AppendRune rune1Max rune2Max rune3Max MaxRune surrogateMin surrogateMax
  rw [if_neg (by omega), if_neg (by omega), if_neg (by omega), if_pos (by omega)]

theorem AppendRune_four {r : Int} (h : 0x10000 ≤ r ∧ r ≤ 0x10FFFF) :
    AppendRune r = [0xF0 + r.toNat / 262144, 0x80 + r.toNat / 4096 % 64,
      0x80 + r.toNat / 64 % 64, 0x80 + r.toNat % 64] := by
  unfold AppendRune rune1Max rune2Max rune3Max MaxRune surrogateMin surrogateMax
  rw [if_neg (by omega), if_neg (by omega), if_neg (by omega), if_neg (by omega)]

theorem AppendRune_invalid {r : Int} (h : r < 0 ∨ 0x10FFFF < r ∨ (0xD800 ≤ r ∧ r ≤ 0xDFFF)) :
    AppendRune r = [0xEF, 0xBF, 0xBD] := by
  unfold AppendRune rune1Max rune2Max rune3Max MaxRune surrogateMin surrogateMax
  rw [if_neg (by omega), if_neg (by omega), if_pos (by omega)]

theorem ValidRune_iff (r : Int) :
    ValidRune r = true ↔ (0 ≤ r ∧ r < 0xD800) ∨ (0xDFFF < r ∧ r ≤ 0x10FFFF) := by
  simp [ValidRune, surrogateMin, surrogateMax, MaxRune]

/-- What `DecodeRuneInString` can return on a non-empty string: an ASCII byte,
`(RuneError, 1)` for an invalid encoding, or the value of a well-formed two-,
three- or four-byte sequence. -/
theorem Decode_outcome (b0 : Nat) (t : GoString) :
    (b0 < 0x80 ∧ DecodeRuneInString (b0 :: t) = ((b0 : Int), 1))
    ∨ DecodeRuneInString (b0 :: t) = (RuneError, 1)
    ∨ (∃ b1 t', t = b1 :: t' ∧ 0xC2 ≤ b0 ∧ b0 < 0xE0 ∧ 0x80 ≤ b1 ∧ b1 ≤ 0xBF ∧
        DecodeRuneInString (b0 :: t) = ((((b0 % 32) * 64 + b1 % 64 : Nat) : Int), 2))
    ∨ (∃ b1 b2 t', t = b1 :: b2 :: t' ∧ 0xE0 ≤ b0 ∧ b0 < 0xF0 ∧ lo2 b0 ≤ b1 ∧ b1 ≤ hi2 b0 ∧
        0x80 ≤ b2 ∧ b2 ≤ 0xBF ∧
        DecodeRuneInString (b0 :: t) =
          ((((b0 % 16) * 4096 + (b1 % 64) * 64 + b2 % 64 : Nat) : Int), 3))
    ∨ (∃ b1 b2 b3 t', t = b1 :: b2 :: b3 :: t' ∧ 0xF0 ≤ b0 ∧ b0 < 0xF5 ∧ lo2 b0 ≤ b1 ∧
        b1 ≤ hi2 b0 ∧ 0x80 ≤ b2 ∧ b2 ≤ 0xBF ∧ 0x80 ≤ b3 ∧ b3 ≤ 0xBF ∧
        DecodeRuneInString (b0 :: t) =
          ((((b0 % 8) * 262144 + (b1 % 64) * 4096 + (b2 % 64) * 64 + b3 % 64 : Nat) : Int), 4)) := by
  by_cases h1 : b0 < 0x80
  · exact Or.inl ⟨h1, Decode_ascii b0 t h1⟩
  by_cases h2 : b0 < 0xC2 ∨ 0xF5 ≤ b0
  · exact Or.inr (Or.inl (Decode_bad_first b0 t (by omega)))
  by_cases h3 : b0 < 0xE0
  · rw [Decode_two b0 t (by omega)]
    rcases t with _ | ⟨b1, t'⟩
    · exact Or.inr (Or.inl rfl)
    · by_cases hb : 0x80 ≤ b1 ∧ b1 ≤ 0xBF
      · refine Or.inr (Or.inr (Or.inl ⟨b1, t', rfl, by omega, h3, hb.1, hb.2, ?_⟩))
        simp only [hb, and_self, if_true]
      · refine Or.inr (Or.inl ?_)
        simp only [hb, if_false]
  by_cases h4 : b0 < 0xF0
  · rw [Decode_three b0 t (by omega)]
    rcases t with _ | ⟨b1, _ | ⟨b2, t'⟩⟩
    · exact Or.inr (Or.inl rfl)
    · exact Or.inr (Or.inl rfl)
    · by_cases hb : lo2 b0 ≤ b1 ∧ b1 ≤ hi2 b0 ∧ 0x80 ≤ b2 ∧ b2 ≤ 0xBF
      · refine Or.inr (Or.inr (Or.inr (Or.inl
          ⟨b1, b2, t', rfl, by omega, h4, hb.1, hb.2.1, hb.2.2.1, hb.2.2.2, ?_⟩)))
        simp only [hb, and_self, if_true]
      · refine Or.inr (Or.inl ?_)
        simp only [hb, if_false]
  · rw [Decode_four b0 t (by omega)]
    rcases t with _ | ⟨b1, _ | ⟨b2, _ | ⟨b3, t'⟩⟩⟩
    · exact Or.inr (Or.inl rfl)
    · exact Or.inr (Or.inl rfl)
    · exact Or.inr (Or.inl rfl)
    · by_cases hb : lo2 b0 ≤ b1 ∧ b1 ≤ hi2 b0 ∧ 0x80 ≤ b2 ∧ b2 ≤ 0xBF ∧ 0x80 ≤ b3 ∧ b3 ≤ 0xBF
      · refine Or.inr (Or.inr (Or.inr (Or.inr
          ⟨b1, b2, b3, t', rfl, by omega, by omega, hb.1, hb.2.1, hb.2.2.1, hb.2.2.2.1,
            hb.2.2.2.2.1, hb.2.2.2.2.2, ?_⟩)))
        simp only [hb, and_self, if_true]
      · refine Or.inr (Or.inl ?_)
        simp only [hb, if_false]

theorem lo2_hi2_bounds {b0 b1 : Nat} (h1 : lo2 b0 ≤ b1) (h2 : b1 ≤ hi2 b0) :
    0x80 ≤ b1 ∧ b1 ≤ 0xBF ∧ (b0 = 0xE0 → 0xA0 ≤ b1) ∧ (b0 = 0xF0 → 0x90 ≤ b1) ∧
      (b0 = 0xED → b1 ≤ 0x9F) ∧ (b0 = 0xF4 → b1 ≤ 0x8F) := by
  unfold lo2 at h1
  unfold hi2 at h2
  by_cases e1 : b0 = 0xE0
  · subst e1; simp at h1 h2; omega
  by_cases e2 : b0 = 0xF0
  · subst e2; simp at h1 h2; omega
  by_cases e3 : b0 = 0xED
  · subst e3; simp at h1 h2; omega
  by_cases e4 : b0 = 0xF4
  · subst e4; simp at h1 h2; omega
  rw [if_neg e1, if_neg e2] at h1
  rw [if_neg e3, if_neg e4] at h2
  omega

theorem Decode_width (b0 : Nat) (t : GoString) :
    1 ≤ (DecodeRuneInString (b0 :: t)).2 ∧ (DecodeRuneInString (b0 :: t)).2 ≤ (b0 :: t).length := by
  rcases Decode_outcome b0 t with ⟨_, h⟩ | h | ⟨b1, t', rfl, _, _, _, _, h⟩ |
    ⟨b1, b2, t', rfl, _, _, _, _, _, _, h⟩ | ⟨b1, b2, b3, t', rfl, _, _, _, _, _, _, _, _, h⟩ <;>
  · rw [h]; simp

/-- Every rune that `DecodeRuneInString` returns is a valid code point. -/
theorem Decode_ValidRune (s : GoString) : ValidRune (DecodeRuneInString s).1 = true := by
  rw [ValidRune_iff]
  rcases s with _ | ⟨b0, t⟩
  · simp [DecodeRuneInString, RuneError]
  rcases Decode_outcome b0 t with ⟨_, h⟩ | h | ⟨b1, t', rfl, _, _, _, _, h⟩ |
    ⟨b1, b2, t', rfl, _, _, hl, hh, _, _, h⟩ | ⟨b1, b2, b3, t', rfl, _, _, hl, hh, _, _, _, _, h⟩
  · rw [h]; simp only; omega
  · rw [h]; simp [RuneError]
  · rw [h]; simp only; omega
  · rw [h]; simp only
    have := lo2_hi2_bounds hl hh
    omega
  · rw [h]; simp only
    have := lo2_hi2_bounds hl hh
    omega

/-- A well-formed sequence is the encoding `AppendRune` gives its rune. -/
theorem AppendRune_Decode (s : GoString) (hs : s ≠ [])
    (hv : DecodeRuneInString s ≠ (RuneError, 1)) :
    AppendRune (DecodeRuneInString s).1 = s.take (DecodeRuneInString s).2 := by
  rcases s with _ | ⟨b0, t⟩
  · exact absurd rfl hs
  rcases Decode_outcome b0 t with ⟨_, h⟩ | h | ⟨b1, t', rfl, _, _, _, _, h⟩ |
    ⟨b1, b2, t', rfl, _, _, hl, hh, _, _, h⟩ | ⟨b1, b2, b3, t', rfl, _, _, hl, hh, _, _, _, _, h⟩
  · rw [h]; simp only
    rw [AppendRune_one (by omega)]
    simp
  · exact absurd h hv
  · rw [h]; simp only
    rw [AppendRune_two (by omega)]
    simp only [Int.toNat_ofNat, List.take_succ_cons, List.take_zero, List.cons.injEq, and_true]
    omega
  · rw [h]; simp only
    have := lo2_hi2_bounds hl hh
    rw [AppendRune_three (by omega) (by omega)]
    simp only [Int.toNat_ofNat, List.take_succ_cons, List.take_zero, List.cons.injEq, and_true]
    omega
  · rw [h]; simp only
    have := lo2_hi2_bounds hl hh
    rw [AppendRune_four (by omega)]
    simp only [Int.toNat_ofNat, List.take_succ_cons, List.take_zero, List.cons.injEq, and_true]
    omega

/-- The width `DecodeRuneInString` returns for a well-formed sequence is the
`RuneLen` of its rune. -/
theorem RuneLen_Decode (s : GoString) (hs : s ≠ [])
    (hv : DecodeRuneInString s ≠ (RuneError, 1)) :
    strings.RuneLen (DecodeRuneInString s).1 = ((DecodeRuneInString s).2 : Int) := by
  rcases s with _ | ⟨b0, t⟩
  · exact absurd rfl hs
  unfold strings.RuneLen rune1Max rune2Max rune3Max MaxRune surrogateMin surrogateMax
  rcases Decode_outcome b0 t with ⟨_, h⟩ | h | ⟨b1, t', rfl, _, _, _, _, h⟩ |
    ⟨b1, b2, t', rfl, _, _, hl, hh, _, _, h⟩ | ⟨b1, b2, b3, t', rfl, _, _, hl, hh, _, _, _, _, h⟩
  · rw [h]; simp only
    rw [if_neg (by omega), if_pos (by omega)]; rfl
  · exact absurd h hv
  · rw [h]; simp only
    rw [if_neg (by omega), if_neg (by omega), if_pos (by omega)]; rfl
  · rw [h]; simp only
    have := lo2_hi2_bounds hl hh
    rw [if_neg (by omega), if_neg (by omega), if_neg (by omega), if_neg (by omega),
      if_pos (by omega)]; rfl
  · rw [h]; simp only
    have := lo2_hi2_bounds hl hh
    rw [if_neg (by omega), if_neg (by omega), if_neg (by omega), if_neg (by omega),
      if_neg (by omega), if_pos (by omega)]; rfl

/-- Decoding inverts encoding: the encoding of a valid rune, followed by
anything, decodes to that rune and the length of the encoding. -/
theorem Decode_AppendRune (r : Int) (t : GoString) (hr : ValidRune r = true) :
    DecodeRuneInString (AppendRune r ++ t) = (r, (AppendRune r).length) := by
  rw [ValidRune_iff] at hr
  obtain ⟨n, rfl⟩ := Int.eq_ofNat_of_zero_le (show 0 ≤ r by omega)
  by_cases h1 : n ≤ 0x7F
  · rw [AppendRune_one (by omega)]
    simp only [Int.toNat_ofNat, List.singleton_append, List.length_singleton]
    exact Decode_ascii n t (by omega)
  by_cases h2 : n ≤ 0x7FF
  · rw [AppendRune_two (by omega)]
    simp only [Int.toNat_ofNat, List.cons_append, List.nil_append, List.length_cons,
      List.length_nil]
    rw [Decode_two _ _ (by omega)]
    simp only
    rw [if_pos (by omega)]
    simp only [Prod.mk.injEq, and_true, Nat.cast_inj]
    omega
  by_cases h3 : n ≤ 0xFFFF
  · rw [AppendRune_three (by omega) (by omega)]
    simp only [Int.toNat_ofNat, List.cons_append, List.nil_append, List.length_cons,
      List.length_nil]
    rw [Decode_three _ _ (by omega)]
    simp only
    have hl : lo2 (0xE0 + n / 4096) ≤ 0x80 + n / 64 % 64 := by
      unfold lo2
      by_cases e : n / 4096 = 0
      · rw [if_pos (by omega)]; omega
      · rw [if_neg (by omega), if_neg (by omega)]; omega
    have hh : 0x80 + n / 64 % 64 ≤ hi2 (0xE0 + n / 4096) := by
      unfold hi2
      by_cases e : n / 4096 = 13
      · rw [if_pos (by omega)]; omega
      · rw [if_neg (by omega), if_neg (by omega)]; omega
    rw [if_pos ⟨hl, hh, by omega, by omega⟩]
    simp only [Prod.mk.injEq, and_true, Nat.cast_inj]
    omega
  · rw [AppendRune_four (by omega)]
    simp only [Int.toNat_ofNat, List.cons_append, List.nil_append, List.length_cons,
      List.length_nil]
    rw [Decode_four _ _ (by omega)]
    simp only
    have hl : lo2 (0xF0 + n / 262144) ≤ 0x80 + n / 4096 % 64 := by
      unfold lo2
      by_cases e : n / 262144 = 0
      · rw [if_neg (by omega), if_pos (by omega)]; omega
      · rw [if_neg (by omega), if_neg (by omega)]; omega
    have hh : 0x80 + n / 4096 % 64 ≤ hi2 (0xF0 + n / 262144) := by
      unfold hi2
      by_cases e : n / 262144 = 4
      · rw [if_neg (by omega), if_pos (by omega)]; omega
      · rw [if_neg (by omega), if_neg (by omega)]; omega
    rw [if_pos ⟨hl, hh, by omega, by omega, by omega, by omega⟩]
    simp only [Prod.mk.injEq, and_true, Nat.cast_inj]
    omega

/-! ## The runes of a string -/

theorem rangeFrom_nil (fuel i : Nat) : rangeFrom fuel i [] = [] := by
  cases fuel <;> rfl

theorem rangeFrom_cons (fuel i b0 : Nat) (t : GoString) :
    rangeFrom (fuel + 1) i (b0 :: t) =
      (i, (DecodeRuneInString (b0 :: t)).1) ::
        rangeFrom fuel (i + (DecodeRuneInString (b0 :: t)).2)
          ((b0 :: t).drop (DecodeRuneInString (b0 :: t)).2) := by
  rfl

theorem length_drop_Decode (b0 : Nat) (t : GoString) :
    ((b0 :: t).drop (DecodeRuneInString (b0 :: t)).2).length ≤ t.length := by
  have := Decode_width b0 t
  simp only [List.length_drop, List.length_cons]
  omega

/-- The iterations of a `range` loop do not depend on the fuel, once there is as
much of it as the string has bytes. -/
theorem rangeFrom_fuel (fuel₁ fuel₂ i : Nat) (s : GoString)
    (h₁ : s.length ≤ fuel₁) (h₂ : s.length ≤ fuel₂) :
    rangeFrom fuel₁ i s = rangeFrom fuel₂ i s := by
  induction fuel₁ generalizing fuel₂ i s with
  | zero =>
    have : s = [] := List.eq_nil_of_length_eq_zero (by omega)
    subst this
    rw [rangeFrom_nil, rangeFrom_nil]
  | succ n ih =>
    rcases s with _ | ⟨b0, t⟩
    · rw [rangeFrom_nil, rangeFrom_nil]
    · obtain ⟨m, rfl⟩ : ∃ m, fuel₂ = m + 1 := ⟨fuel₂ - 1, by simp at h₂; omega⟩
      rw [rangeFrom_cons, rangeFrom_cons]
      simp only [List.cons.injEq, true_and]
      have hl := length_drop_Decode b0 t
      simp only [List.length_cons] at h₁ h₂
      exact ih _ _ _ (by omega) (by omega)

/-- The runes a `range` loop yields do not depend on the fuel, once there is as
much of it as the string has bytes, nor on the offset the loop starts from. -/
theorem rangeFrom_snd (fuel₁ fuel₂ i j : Nat) (s : GoString)
    (h₁ : s.length ≤ fuel₁) (h₂ : s.length ≤ fuel₂) :
    (rangeFrom fuel₁ i s).map Prod.snd = (rangeFrom fuel₂ j s).map Prod.snd := by
  induction fuel₁ generalizing fuel₂ i j s with
  | zero =>
    have : s = [] := List.eq_nil_of_length_eq_zero (by omega)
    subst this
    rw [rangeFrom_nil, rangeFrom_nil]
  | succ n ih =>
    rcases s with _ | ⟨b0, t⟩
    · rw [rangeFrom_nil, rangeFrom_nil]
    · obtain ⟨m, rfl⟩ : ∃ m, fuel₂ = m + 1 := ⟨fuel₂ - 1, by simp at h₂; omega⟩
      rw [rangeFrom_cons, rangeFrom_cons]
      simp only [List.map_cons, List.cons.injEq, true_and]
      have hl := length_drop_Decode b0 t
      simp only [List.length_cons] at h₁ h₂
      exact ih _ _ _ _ (by omega) (by omega)

theorem runes_nil : runes [] = [] := rfl

theorem runes_cons (b0 : Nat) (t : GoString) :
    runes (b0 :: t) = (DecodeRuneInString (b0 :: t)).1 ::
      runes ((b0 :: t).drop (DecodeRuneInString (b0 :: t)).2) := by
  unfold runes rangeString
  rw [List.length_cons, rangeFrom_cons]
  simp only [List.map_cons, List.cons.injEq, true_and]
  exact rangeFrom_snd _ _ _ _ _ (length_drop_Decode b0 t) (le_refl _)

theorem runes_of_rangeFrom (fuel i : Nat) (s : GoString) (h : s.length ≤ fuel) :
    (rangeFrom fuel i s).map Prod.snd = runes s :=
  rangeFrom_snd _ _ _ _ _ h (le_refl _)

theorem AppendRune_ne_nil (r : Int) : AppendRune r ≠ [] := by
  unfold AppendRune
  repeat' split
  all_goals simp

theorem AppendRune_length_pos (r : Int) : 0 < (AppendRune r).length :=
  List.length_pos.mpr (AppendRune_ne_nil r)

/-- The runes of an encoded rune followed by `t`: the rune, then the runes of
`t`. -/
theorem runes_AppendRune_append (r : Int) (t : GoString) (hr : ValidRune r = true) :
    runes (AppendRune r ++ t) = r :: runes t := by
  have hd := Decode_AppendRune r t hr
  rcases hs : AppendRune r ++ t with _ | ⟨b0, u⟩
  · exact absurd (List.append_eq_nil.mp hs).1 (AppendRune_ne_nil r)
  · rw [runes_cons, ← hs, hd]
    simp

/-- Decoding inverts encoding on strings: the runes of the encoding of valid
runes, followed by `t`, are those runes followed by the runes of `t`. -/
theorem runes_encodeRunes_append (rs : List Int) (t : GoString)
    (h : ∀ r ∈ rs, ValidRune r = true) :
    runes (encodeRunes rs ++ t) = rs ++ runes t := by
  induction rs with
  | nil => rfl
  | cons r rs ih =>
    have : encodeRunes (r :: rs) ++ t = AppendRune r ++ (encodeRunes rs ++ t) := by
      simp [encodeRunes]
    rw [this, runes_AppendRune_append r _ (h r (List.mem_cons_self _ _)),
      ih (fun r' hr' => h r' (List.mem_cons_of_mem _ hr'))]
    rfl

theorem runes_encodeRunes (rs : List Int) (h : ∀ r ∈ rs, ValidRune r = true) :
    runes (encodeRunes rs) = rs := by
  have := runes_encodeRunes_append rs [] h
  simpa [runes_nil] using this

/-- Induction along the decoding of a string: a property that holds for the
empty string, and for a string whenever it holds for what follows its first
rune, holds for every string. -/
theorem decode_induction {P : GoString → Prop} (hnil : P [])
    (hcons : ∀ b0 t, P ((b0 :: t).drop (DecodeRuneInString (b0 :: t)).2) → P (b0 :: t))
    (s : GoString) : P s := by
  have key : ∀ n, ∀ s : GoString, s.length ≤ n → P s := by
    intro n
    induction n with
    | zero =>
      intro s hs
      have : s = [] := List.eq_nil_of_length_eq_zero (by omega)
      subst this
      exact hnil
    | succ n ih =>
      intro s hs
      rcases s with _ | ⟨b0, t⟩
      · exact hnil
      · have hl := length_drop_Decode b0 t
        simp only [List.length_cons] at hs
        exact hcons b0 t (ih _ (by omega))
  exact key s.length s (le_refl _)

/-- Every rune of a string is a valid code point. -/
theorem runes_valid (s : GoString) : ∀ r ∈ runes s, ValidRune r = true := by
  induction s using decode_induction with
  | hnil => simp [runes_nil]
  | hcons b0 t ih =>
    rw [runes_cons]
    intro r hr
    rcases List.mem_cons.mp hr with rfl | hr
    · exact Decode_ValidRune _
    · exact ih r hr

/-! ## The case table and `unicode.IsSpace` -/

set_option maxRecDepth 100000 in
/-- The case table is sorted and its ranges are disjoint. -/
theorem CaseRanges_sorted : unicode.sortedRanges unicode.CaseRanges = true := by decide

set_option maxRecDepth 100000 in
/-- Every range of the case table passes the check `rangeOK`. -/
theorem CaseRanges_ok :
    unicode.CaseRanges.all (unicode.rangeOK unicode.CaseRanges) = true := by
  decide!

theorem mem_spaces_iff (r : Int) :
    r ∈ unicode.spaces ↔ (0x09 ≤ r ∧ r ≤ 0x0D) ∨ r = 0x20 ∨ r = 0x85 ∨ r = 0xA0 ∨ r = 0x1680 ∨
      (0x2000 ≤ r ∧ r ≤ 0x200A) ∨ r = 0x2028 ∨ r = 0x2029 ∨ r = 0x202F ∨ r = 0x205F ∨
      r = 0x3000 := by
  simp only [unicode.spaces, List.mem_cons, List.mem_singleton, List.not_mem_nil, or_false]
  omega

theorem is16_step (r : Int) (range_ : unicode.Range16) (rest : List unicode.Range16)
    (hr : range_.Lo ≤ range_.Hi) :
    unicode.is16 r (range_ :: rest) = true ↔
      (range_.Lo ≤ r ∧ r ≤ range_.Hi ∧ (range_.Stride = 1 ∨ (r - range_.Lo) % range_.Stride = 0))
      ∨ (range_.Hi < r ∧ unicode.is16 r rest = true) := by
  rw [unicode.is16]
  by_cases a : r < range_.Lo
  · rw [if_pos a]
    constructor
    · intro h; exact absurd h (by simp)
    · rintro (⟨h, _⟩ | ⟨h, _⟩) <;> omega
  · rw [if_neg a]
    by_cases b : r ≤ range_.Hi
    · rw [if_pos b]
      simp only [decide_eq_true_eq]
      constructor
      · intro h; exact Or.inl ⟨by omega, b, h⟩
      · rintro (⟨_, _, h⟩ | ⟨h, _⟩)
        · exact h
        · omega
    · rw [if_neg b]
      constructor
      · intro h; exact Or.inr ⟨by omega, h⟩
      · rintro (⟨_, h, _⟩ | ⟨_, h⟩)
        · omega
        · exact h

/-- The function `unicode.IsSpace` accepts exactly the 25 code points of `spaces`. -/
theorem IsSpace_iff (r : Int) : unicode.IsSpace r = true ↔ r ∈ unicode.spaces := by
  rw [mem_spaces_iff]
  unfold unicode.IsSpace unicode.MaxLatin1
  by_cases h : 0 ≤ r ∧ r ≤ 0xFF
  · rw [if_pos h]
    simp only [Bool.decide_or, Bool.or_eq_true, decide_eq_true_eq]
    omega
  · rw [if_neg h]
    unfold unicode.isExcludingLatin_White_Space
    simp only [unicode.White_Space_R16, unicode.White_Space_LatinOffset, List.getLast?,
      List.getLast, List.length_cons, List.length_nil, List.drop_succ_cons, List.drop_zero]
    by_cases h0 : 0 ≤ r ∧ r ≤ 0x3000
    · rw [if_pos ⟨by decide, h0.1, h0.2⟩]
      rw [is16_step _ _ _ (by decide), is16_step _ _ _ (by decide), is16_step _ _ _ (by decide),
        is16_step _ _ _ (by decide), is16_step _ _ _ (by decide)]
      simp only [unicode.is16]
      omega
    · have : ¬ (7 > 2 ∧ 0 ≤ r ∧ r ≤ 0x3000) := fun hh => h0 hh.2
      rw [if_neg this]
      simp only [Bool.false_eq_true, false_iff]
      omega

theorem IsSpace_eq_false_iff (r : Int) : unicode.IsSpace r = false ↔ r ∉ unicode.spaces := by
  rw [← IsSpace_iff]; simp

/-! ## The binary search of `unicode.to` -/

/-- What a range does to a rune it holds. -/
theorem toScan_hit (r : Int) (cr : unicode.CaseRange) (rest : List unicode.CaseRange)
    (h : cr.Lo ≤ r ∧ r ≤ cr.Hi) :
    unicode.toScan r (cr :: rest) =
      if cr.Delta > unicode.MaxRune then (cr.Lo + (r - cr.Lo) / 2 * 2, true)
      else (r + cr.Delta, true) := by
  simp only [unicode.toScan]
  rw [if_pos h]

theorem toScan_miss (r : Int) (cr : unicode.CaseRange) (rest : List unicode.CaseRange)
    (h : ¬ (cr.Lo ≤ r ∧ r ≤ cr.Hi)) :
    unicode.toScan r (cr :: rest) = unicode.toScan r rest := by
  simp only [unicode.toScan]
  rw [if_neg h]

theorem toScan_none (r : Int) (tbl : List unicode.CaseRange)
    (h : ∀ cr ∈ tbl, ¬ (cr.Lo ≤ r ∧ r ≤ cr.Hi)) : unicode.toScan r tbl = (r, false) := by
  induction tbl with
  | nil => rfl
  | cons cr rest ih =>
    rw [toScan_miss r cr rest (h cr (List.mem_cons_self _ _))]
    exact ih (fun c hc => h c (List.mem_cons_of_mem _ hc))

theorem toScan_append (r : Int) (pre : List unicode.CaseRange) (tbl : List unicode.CaseRange)
    (h : ∀ cr ∈ pre, ¬ (cr.Lo ≤ r ∧ r ≤ cr.Hi)) :
    unicode.toScan r (pre ++ tbl) = unicode.toScan r tbl := by
  induction pre with
  | nil => rfl
  | cons cr rest ih =>
    rw [List.cons_append, toScan_miss r cr _ (h cr (List.mem_cons_self _ _))]
    exact ih (fun c hc => h c (List.mem_cons_of_mem _ hc))

/-- In a sorted table every range is non-empty and lies below the ranges that
come after it. -/
theorem sortedRanges_spec (tbl : List unicode.CaseRange) (h : unicode.sortedRanges tbl = true) :
    (∀ cr ∈ tbl, cr.Lo ≤ cr.Hi) ∧ tbl.Pairwise (fun a b => a.Hi < b.Lo) := by
  induction tbl with
  | nil => exact ⟨fun _ h => absurd h (List.not_mem_nil _), List.Pairwise.nil⟩
  | cons cr rest ih =>
    rcases rest with _ | ⟨next, rest⟩
    · simp only [unicode.sortedRanges, decide_eq_true_eq] at h
      exact ⟨fun c hc => by rw [List.mem_singleton.mp hc]; exact h, List.pairwise_singleton _ _⟩
    · simp only [unicode.sortedRanges, Bool.and_eq_true, decide_eq_true_eq] at h
      obtain ⟨⟨h1, h2⟩, h3⟩ := h
      obtain ⟨ih1, ih2⟩ := ih h3
      refine ⟨?_, ?_⟩
      · intro c hc
        rcases List.mem_cons.mp hc with rfl | hc
        · exact h1
        · exact ih1 c hc
      · rw [List.pairwise_cons]
        refine ⟨?_, ih2⟩
        intro c hc
        rcases List.mem_cons.mp hc with rfl | hc
        · exact h2
        · have := (List.pairwise_cons.mp ih2).1 c hc
          have := ih1 next (List.mem_cons_self _ _)
          omega

theorem pairwise_get (tbl : List unicode.CaseRange)
    (h : tbl.Pairwise (fun a b => a.Hi < b.Lo)) (i j : Nat) (a b : unicode.CaseRange)
    (hi : tbl[i]? = some a) (hj : tbl[j]? = some b) (hij : i < j) : a.Hi < b.Lo := by
  induction tbl generalizing i j with
  | nil => simp at hi
  | cons c rest ih =>
    rw [List.pairwise_cons] at h
    rcases j with _ | j
    · omega
    rcases i with _ | i
    · simp only [List.getElem?_cons_zero, Option.some.injEq] at hi
      subst hi
      simp only [List.getElem?_cons_succ] at hj
      exact h.1 b (List.getElem?_mem hj)
    · simp only [List.getElem?_cons_succ] at hi hj
      exact ih h.2 i j hi hj (by omega)

/-- The binary search of `unicode.to` finds what the scan from the front finds:
between the bounds `lo` and `hi`, with the ranges below `lo` lying under `r` and
the ranges from `hi` on lying above it. -/
theorem toLoop_eq_toScan (r : Int) (tbl : List unicode.CaseRange)
    (hs : unicode.sortedRanges tbl = true) :
    ∀ fuel lo hi, hi - lo ≤ fuel → hi ≤ tbl.length →
      (∀ (k : Nat) (c : unicode.CaseRange), k < lo → tbl[k]? = some c → c.Hi < r) →
      (∀ (k : Nat) (c : unicode.CaseRange), hi ≤ k → tbl[k]? = some c → r < c.Lo) →
      unicode.toLoop r tbl fuel lo hi = unicode.toScan r tbl := by
  obtain ⟨hne, hpw⟩ := sortedRanges_spec tbl hs
  have none_of : ∀ lo hi, hi ≤ lo →
      (∀ (k : Nat) (c : unicode.CaseRange), k < lo → tbl[k]? = some c → c.Hi < r) →
      (∀ (k : Nat) (c : unicode.CaseRange), hi ≤ k → tbl[k]? = some c → r < c.Lo) →
      unicode.toScan r tbl = (r, false) := by
    intro lo hi hle hlo hhi
    apply toScan_none
    intro c hc hin
    obtain ⟨k, hk⟩ := List.getElem?_of_mem hc
    by_cases hkl : k < lo
    · have := hlo k c hkl hk; omega
    · have := hhi k c (by omega) hk; omega
  intro fuel
  induction fuel with
  | zero =>
    intro lo hi hf _ hlo hhi
    rw [none_of lo hi (by omega) hlo hhi]
    rfl
  | succ n ih =>
    intro lo hi hf hlen hlo hhi
    rw [unicode.toLoop]
    by_cases hlt : lo < hi
    · rw [if_pos hlt]
      simp only
      have hm : (lo + hi) / 2 < tbl.length := by omega
      obtain ⟨cr, hcr⟩ : ∃ cr, tbl[(lo + hi) / 2]? = some cr :=
        ⟨tbl[(lo + hi) / 2], List.getElem?_eq_getElem hm⟩
      rw [hcr]
      simp only
      by_cases hin : cr.Lo ≤ r ∧ r ≤ cr.Hi
      · rw [if_pos hin]
        have hsplit : tbl = tbl.take ((lo + hi) / 2) ++ cr :: tbl.drop ((lo + hi) / 2 + 1) := by
          have := List.take_append_drop ((lo + hi) / 2) tbl
          rw [List.drop_eq_getElem_cons hm] at this
          rw [List.getElem?_eq_getElem hm] at hcr
          simp only [Option.some.injEq] at hcr
          rw [← hcr]
          exact this.symm
        have hpre : ∀ c ∈ tbl.take ((lo + hi) / 2), ¬ (c.Lo ≤ r ∧ r ≤ c.Hi) := by
          intro c hc hcin
          obtain ⟨k, hk⟩ := List.getElem?_of_mem hc
          have hk' : k < (lo + hi) / 2 := by
            by_contra hge
            rw [List.getElem?_take_eq_none (by omega)] at hk
            exact absurd hk (by simp)
          rw [List.getElem?_take_of_lt hk'] at hk
          have := pairwise_get tbl hpw k _ c cr hk hcr hk'
          omega
        rw [hsplit, toScan_append r _ _ hpre, toScan_hit r cr _ hin]
      · rw [if_neg hin]
        by_cases hl : r < cr.Lo
        · rw [if_pos hl]
          apply ih lo ((lo + hi) / 2) (by omega) (by omega) hlo
          intro k c hk hkc
          by_cases e : k = (lo + hi) / 2
          · subst e
            rw [hcr] at hkc
            simp only [Option.some.injEq] at hkc
            subst hkc
            exact hl
          · have := pairwise_get tbl hpw _ k cr c hcr hkc (by omega)
            have := hne cr (List.getElem?_mem hcr)
            omega
        · rw [if_neg hl]
          apply ih ((lo + hi) / 2 + 1) hi (by omega) hlen _ hhi
          intro k c hk hkc
          by_cases e : k = (lo + hi) / 2
          · subst e
            rw [hcr] at hkc
            simp only [Option.some.injEq] at hkc
            subst hkc
            omega
          · have := pairwise_get tbl hpw k _ c cr hkc hcr (by omega)
            omega
    · rw [if_neg hlt]
      rw [none_of lo hi (by omega) hlo hhi]

/-- On a sorted table of disjoint ranges, `unicode.to` returns what the first
range that holds the rune gives, and the rune itself when no range holds it. -/
theorem to_eq_toScan (r : Int) (tbl : List unicode.CaseRange)
    (hs : unicode.sortedRanges tbl = true) : unicode.to_ r tbl = unicode.toScan r tbl := by
  unfold unicode.to_
  apply toLoop_eq_toScan r tbl hs tbl.length 0 tbl.length (by omega) (le_refl _)
  · intro k c hk; omega
  · intro k c hk hkc
    have := List.getElem?_eq_some.mp hkc
    obtain ⟨h, _⟩ := this
    omega

/-- The function `unicode.To` on the case table is the scan of the table. -/
theorem To_eq_toScan (r : Int) : unicode.To r = (unicode.toScan r unicode.CaseRanges).1 := by
  unfold unicode.To
  rw [to_eq_toScan r _ CaseRanges_sorted]

/-! ## `unicode.ToUpper` -/

theorem to_cons (r : Int) (cr : unicode.CaseRange) (rest : List unicode.CaseRange) :
    (unicode.toScan r (cr :: rest)).1 =
      if cr.Lo ≤ r ∧ r ≤ cr.Hi then (unicode.toScan r [cr]).1 else (unicode.toScan r rest).1 := by
  simp only [unicode.toScan]
  by_cases h : cr.Lo ≤ r ∧ r ≤ cr.Hi
  · rw [if_pos h, if_pos h, if_pos h]
  · rw [if_neg h, if_neg h]

theorem to_single_out (r : Int) (cr : unicode.CaseRange) (h : ¬ (cr.Lo ≤ r ∧ r ≤ cr.Hi)) :
    (unicode.toScan r [cr]).1 = r := by
  simp only [unicode.toScan]
  rw [if_neg h]

theorem to_single_bounds (r : Int) (cr : unicode.CaseRange) (h : cr.Lo ≤ r ∧ r ≤ cr.Hi) :
    unicode.imgLo cr ≤ (unicode.toScan r [cr]).1 ∧ (unicode.toScan r [cr]).1 ≤ unicode.imgHi cr := by
  simp only [unicode.toScan, unicode.imgLo, unicode.imgHi]
  rw [if_pos h]
  by_cases d : cr.Delta > unicode.MaxRune
  · rw [if_pos d, if_pos d, if_pos d]
    simp only
    omega
  · rw [if_neg d, if_neg d, if_neg d]
    simp only
    omega

/-- The table either leaves a rune alone or maps it as one of its ranges that
contains the rune does. -/
theorem to_cases (r : Int) (tbl : List unicode.CaseRange) :
    (unicode.toScan r tbl).1 = r ∨
      ∃ cr ∈ tbl, (cr.Lo ≤ r ∧ r ≤ cr.Hi) ∧ (unicode.toScan r tbl).1 = (unicode.toScan r [cr]).1 := by
  induction tbl with
  | nil => exact Or.inl rfl
  | cons cr rest ih =>
    rw [to_cons]
    by_cases h : cr.Lo ≤ r ∧ r ≤ cr.Hi
    · rw [if_pos h]
      exact Or.inr ⟨cr, List.mem_cons_self _ _, h, rfl⟩
    · rw [if_neg h]
      rcases ih with ih | ⟨cr', hm, hc, he⟩
      · exact Or.inl ih
      · exact Or.inr ⟨cr', List.mem_cons_of_mem _ hm, hc, he⟩

/-- A rune that every range of the table leaves alone is left alone by the table. -/
theorem to_fixed (y : Int) (tbl : List unicode.CaseRange)
    (h : ∀ cr ∈ tbl, (unicode.toScan y [cr]).1 = y) : (unicode.toScan y tbl).1 = y := by
  induction tbl with
  | nil => rfl
  | cons cr rest ih =>
    rw [to_cons]
    by_cases hc : cr.Lo ≤ y ∧ y ≤ cr.Hi
    · rw [if_pos hc]; exact h cr (List.mem_cons_self _ _)
    · rw [if_neg hc]; exact ih (fun cr' hm => h cr' (List.mem_cons_of_mem _ hm))

theorem fixedBy_sound (cr next : unicode.CaseRange) (h : unicode.fixedBy cr next = true)
    (r : Int) (hr : cr.Lo ≤ r ∧ r ≤ cr.Hi) :
    (unicode.toScan (unicode.toScan r [cr]).1 [next]).1 = (unicode.toScan r [cr]).1 := by
  have hb := to_single_bounds r cr hr
  unfold unicode.fixedBy at h
  simp only [Bool.or_eq_true, decide_eq_true_eq, List.all_eq_true, List.mem_range, beq_iff_eq] at h
  rcases h with (h | h) | h
  · exact to_single_out _ _ (by omega)
  · exact to_single_out _ _ (by omega)
  · have := h (r - cr.Lo).toNat (by omega)
    have e : cr.Lo + ((r - cr.Lo).toNat : Int) = r := by omega
    rw [e] at this
    exact this

/-- What the check `rangeOK` gives for a rune `r` of a checked range and its
image `y`. -/
theorem rangeOK_sound (tbl : List unicode.CaseRange) (cr : unicode.CaseRange)
    (h : unicode.rangeOK tbl cr = true) (r : Int) (hr : cr.Lo ≤ r ∧ r ≤ cr.Hi) :
    0x7F < r ∧ ValidRune (unicode.toScan r [cr]).1 = true ∧
      ¬ (0x61 ≤ (unicode.toScan r [cr]).1 ∧ (unicode.toScan r [cr]).1 ≤ 0x7A) ∧
      r ∉ unicode.spaces ∧ (unicode.toScan r [cr]).1 ∉ unicode.spaces ∧
      (unicode.toScan (unicode.toScan r [cr]).1 tbl).1 = (unicode.toScan r [cr]).1 := by
  have hb := to_single_bounds r cr hr
  unfold unicode.rangeOK at h
  simp only [Bool.and_eq_true, Bool.or_eq_true, decide_eq_true_eq, List.all_eq_true,
    unicode.MaxASCII, utf8.surrogateMin, utf8.surrogateMax, utf8.MaxRune] at h
  obtain ⟨⟨⟨⟨h1, h2⟩, h3⟩, h4⟩, h5⟩ := h
  refine ⟨by omega, ?_, by omega, ?_, ?_, ?_⟩
  · rw [ValidRune_iff]; omega
  · intro hm
    have := h4 r hm
    omega
  · intro hm
    have := h4 _ hm
    omega
  · exact to_fixed _ _ (fun next hn => fixedBy_sound cr next (h5 next hn) r hr)

/-- What `unicode.ToUpper` does to a rune: nothing; or it is a lower-case ASCII
letter and 32 is taken off; or it is a rune of a checked range of the case table
and is mapped as that range says. -/
theorem ToUpper_cases (r : Int) :
    unicode.ToUpper r = r ∨ ((0x61 ≤ r ∧ r ≤ 0x7A) ∧ unicode.ToUpper r = r - 32) ∨
      ∃ cr ∈ unicode.CaseRanges, (cr.Lo ≤ r ∧ r ≤ cr.Hi) ∧
        unicode.ToUpper r = (unicode.toScan r [cr]).1 := by
  unfold unicode.ToUpper unicode.MaxASCII
  by_cases h : r ≤ 0x7F
  · rw [if_pos h]
    by_cases h' : 0x61 ≤ r ∧ r ≤ 0x7A
    · rw [if_pos h']; exact Or.inr (Or.inl ⟨h', by omega⟩)
    · rw [if_neg h']; exact Or.inl rfl
  · rw [if_neg h, To_eq_toScan]
    rcases to_cases r unicode.CaseRanges with h' | h'
    · exact Or.inl h'
    · exact Or.inr (Or.inr h')

theorem CaseRanges_rangeOK (cr : unicode.CaseRange) (h : cr ∈ unicode.CaseRanges) :
    unicode.rangeOK unicode.CaseRanges cr = true :=
  List.all_eq_true.mp CaseRanges_ok cr h

theorem ToUpper_of_fixed (y : Int) (h1 : ¬ (0x61 ≤ y ∧ y ≤ 0x7A))
    (h2 : (unicode.toScan y unicode.CaseRanges).1 = y) : unicode.ToUpper y = y := by
  unfold unicode.ToUpper unicode.MaxASCII
  by_cases h : y ≤ 0x7F
  · rw [if_pos h, if_neg h1]
  · rw [if_neg h, To_eq_toScan]; exact h2

/-- Upper-casing a rune twice is upper-casing it once. -/
theorem ToUpper_idem (r : Int) : unicode.ToUpper (unicode.ToUpper r) = unicode.ToUpper r := by
  rcases ToUpper_cases r with h | ⟨h, e⟩ | ⟨cr, hm, hr, e⟩
  · rw [h, h]
  · rw [e]
    unfold unicode.ToUpper unicode.MaxASCII
    rw [if_pos (by omega), if_neg (by omega)]
  · rw [e]
    have := rangeOK_sound _ cr (CaseRanges_rangeOK cr hm) r hr
    exact ToUpper_of_fixed _ this.2.2.1 this.2.2.2.2.2

/-- The upper-case image of a valid rune is a valid rune. -/
theorem ToUpper_valid (r : Int) (hv : ValidRune r = true) :
    ValidRune (unicode.ToUpper r) = true := by
  rcases ToUpper_cases r with h | ⟨h, e⟩ | ⟨cr, hm, hr, e⟩
  · rw [h]; exact hv
  · rw [e, ValidRune_iff]; omega
  · rw [e]
    exact (rangeOK_sound _ cr (CaseRanges_rangeOK cr hm) r hr).2.1

/-- A rune that upper-casing changes is not white space, and neither is its
image. -/
theorem ToUpper_moved (r : Int) (h : unicode.ToUpper r ≠ r) :
    unicode.IsSpace r = false ∧ unicode.IsSpace (unicode.ToUpper r) = false := by
  rw [IsSpace_eq_false_iff, IsSpace_eq_false_iff, mem_spaces_iff, mem_spaces_iff]
  rcases ToUpper_cases r with h' | ⟨h', e⟩ | ⟨cr, hm, hr, e⟩
  · exact absurd h' h
  · rw [e]; omega
  · rw [e]
    have := rangeOK_sound _ cr (CaseRanges_rangeOK cr hm) r hr
    rw [mem_spaces_iff, mem_spaces_iff] at this
    exact ⟨this.2.2.2.1, this.2.2.2.2.1⟩

/-- Upper-casing keeps white space white space and the rest not. -/
theorem IsSpace_ToUpper (r : Int) : unicode.IsSpace (unicode.ToUpper r) = unicode.IsSpace r := by
  by_cases h : unicode.ToUpper r = r
  · rw [h]
  · have := ToUpper_moved r h
    rw [this.1, this.2]

theorem ToUpper_nonneg (r : Int) (hv : ValidRune r = true) : 0 ≤ unicode.ToUpper r := by
  have := ToUpper_valid r hv
  rw [ValidRune_iff] at this
  omega

/-! ## `strings.ToUpper` -/

theorem runes_ascii (s : GoString) (h : ∀ c ∈ s, c < 0x80) :
    runes s = s.map fun c : Nat => (c : Int) := by
  induction s with
  | nil => rfl
  | cons b0 t ih =>
    have h0 : b0 < 0x80 := h b0 (List.mem_cons_self _ _)
    rw [runes_cons, Decode_ascii b0 t h0]
    simp only [List.drop_succ_cons, List.drop_zero, List.map_cons, List.cons.injEq, true_and]
    exact ih (fun c hc => h c (List.mem_cons_of_mem _ hc))

theorem AppendRune_ToUpper_ascii (c : Nat) (h : c < 0x80) :
    AppendRune (unicode.ToUpper (c : Int)) = [upperByte c] := by
  unfold unicode.ToUpper unicode.MaxASCII upperByte
  rw [if_pos (by omega)]
  by_cases hl : 0x61 ≤ c ∧ c ≤ 0x7A
  · rw [if_pos (by omega), if_pos hl, AppendRune_one (by omega)]
    simp only [List.cons.injEq, and_true]
    omega
  · rw [if_neg (by omega), if_neg hl, AppendRune_one (by omega)]
    simp

theorem encodeRunes_nil : encodeRunes [] = [] := rfl

theorem encodeRunes_cons (r : Int) (rs : List Int) :
    encodeRunes (r :: rs) = AppendRune r ++ encodeRunes rs := by
  simp [encodeRunes]

theorem encodeRunes_append (rs₁ rs₂ : List Int) :
    encodeRunes (rs₁ ++ rs₂) = encodeRunes rs₁ ++ encodeRunes rs₂ := by
  simp [encodeRunes]

theorem upper_ascii (s : GoString) (h : ∀ c ∈ s, c < 0x80) :
    encodeRunes ((runes s).map unicode.ToUpper) = s.map upperByte := by
  rw [runes_ascii s h]
  induction s with
  | nil => rfl
  | cons b0 t ih =>
    simp only [List.map_cons, encodeRunes_cons]
    rw [AppendRune_ToUpper_ascii b0 (h b0 (List.mem_cons_self _ _)),
      ih (fun c hc => h c (List.mem_cons_of_mem _ hc))]
    rfl

theorem map_upperByte_of_no_lower (s : GoString) (h : ∀ c ∈ s, ¬ (0x61 ≤ c ∧ c ≤ 0x7A)) :
    s.map upperByte = s := by
  induction s with
  | nil => rfl
  | cons b0 t ih =>
    simp only [List.map_cons]
    rw [ih (fun c hc => h c (List.mem_cons_of_mem _ hc))]
    unfold upperByte
    rw [if_neg (h b0 (List.mem_cons_self _ _))]

set_option maxRecDepth 100000 in
theorem ToUpper_RuneError : unicode.ToUpper RuneError = RuneError := by decide

theorem mapWrite_ToUpper (c : Int) (hv : ValidRune c = true) :
    strings.mapWrite unicode.ToUpper c = AppendRune (unicode.ToUpper c) := by
  have h0 := ToUpper_nonneg c hv
  unfold strings.mapWrite
  simp only
  rw [if_pos (by omega)]
  by_cases h : unicode.ToUpper c < (RuneSelf : Int)
  · rw [if_pos h]
    unfold RuneSelf at h
    rw [AppendRune_one ⟨h0, by omega⟩]
  · rw [if_neg h]

/-- The second loop of `strings.Map`, for `unicode.ToUpper`: it writes the
encoding of the upper-cased runes of the string. -/
theorem mapWrite_rangeString (s : GoString) :
    ((rangeString s).map fun p => strings.mapWrite unicode.ToUpper p.2).flatten =
      encodeRunes ((runes s).map unicode.ToUpper) := by
  have hv := runes_valid s
  unfold runes at hv ⊢
  unfold encodeRunes
  simp only [List.map_map]
  congr 1
  apply List.map_congr_left
  intro p hp
  simp only [Function.comp]
  exact mapWrite_ToUpper p.2 (hv p.2 (List.mem_map_of_mem _ hp))

theorem mapFirst_nil (s : GoString) : strings.mapFirst unicode.ToUpper s [] = none := rfl

theorem mapFirst_cons (s : GoString) (i : Nat) (c : Int) (rest : List (Nat × Int)) :
    strings.mapFirst unicode.ToUpper s ((i, c) :: rest) =
      if unicode.ToUpper c = c ∧ c ≠ RuneError then strings.mapFirst unicode.ToUpper s rest
      else if c = RuneError then
        if (DecodeRuneInString (s.drop i)).2 ≠ 1 ∧
            unicode.ToUpper c = (DecodeRuneInString (s.drop i)).1 then
          strings.mapFirst unicode.ToUpper s rest
        else some (i, unicode.ToUpper c, ((DecodeRuneInString (s.drop i)).2 : Int))
      else some (i, unicode.ToUpper c, strings.RuneLen c) := by
  rfl

theorem take_drop_split (s : GoString) (i w j : Nat) (h : i + w ≤ j) :
    (s.take j).drop i = (s.drop i).take w ++ (s.take j).drop (i + w) := by
  have e1 : (s.take j).drop i = (s.drop i).take (j - i) := by
    rw [List.drop_take]
  have e2 : (s.take j).drop (i + w) = ((s.drop i).drop w).take (j - i - w) := by
    rw [List.drop_take, List.drop_drop, Nat.sub_add_eq]
  rw [e1, e2]
  have : j - i = w + (j - i - w) := by omega
  rw [this, List.take_add]
  congr 2
  omega

/-- The first loop of `strings.Map` with `unicode.ToUpper`, started at offset `i`
of `s`: when it runs to the end, the rest `x` of `s` is the encoding of its own
upper-cased runes; when it stops at offset `j`, the bytes it has walked over,
the encoding of the image `r` and the encoding of the upper-cased runes behind
make up the encoding of the upper-cased runes of `x`. -/
theorem mapFirst_spec (s : GoString) (fuel : Nat) :
    ∀ (i : Nat) (x : GoString), x.length ≤ fuel → s.drop i = x →
      (strings.mapFirst unicode.ToUpper s (rangeFrom fuel i x) = none →
        encodeRunes ((runes x).map unicode.ToUpper) = x) ∧
      (∀ j r width, strings.mapFirst unicode.ToUpper s (rangeFrom fuel i x) = some (j, r, width) →
        i ≤ j ∧ 0 ≤ r ∧
        (s.take j).drop i ++ AppendRune r ++
            encodeRunes ((runes (s.drop ((j : Int) + width).toNat)).map unicode.ToUpper) =
          encodeRunes ((runes x).map unicode.ToUpper)) := by
  induction fuel with
  | zero =>
    intro i x hx _
    have : x = [] := List.eq_nil_of_length_eq_zero (by omega)
    subst this
    exact ⟨fun _ => rfl, fun j r width h => by simp [rangeFrom, mapFirst_nil] at h⟩
  | succ n ih =>
    intro i x hx hs
    rcases x with _ | ⟨b0, t⟩
    · exact ⟨fun _ => rfl, fun j r width h => by simp [rangeFrom_nil, mapFirst_nil] at h⟩
    have hw := Decode_width b0 t
    have hl := length_drop_Decode b0 t
    have hvc := Decode_ValidRune (b0 :: t)
    simp only [List.length_cons] at hx hw
    rw [rangeFrom_cons, mapFirst_cons, hs, runes_cons, List.map_cons, encodeRunes_cons]
    generalize hc : (DecodeRuneInString (b0 :: t)).1 = c at *
    generalize hwd : (DecodeRuneInString (b0 :: t)).2 = w at *
    have hD : DecodeRuneInString (b0 :: t) = (c, w) := by rw [← hc, ← hwd]
    have hs' : s.drop (i + w) = (b0 :: t).drop w := by rw [← hs, List.drop_drop, Nat.add_comm]
    have IH := ih (i + w) ((b0 :: t).drop w) (by omega) hs'
    -- the loop goes on over a rune that is kept
    have keep : DecodeRuneInString (b0 :: t) ≠ (RuneError, 1) → unicode.ToUpper c = c →
        (strings.mapFirst unicode.ToUpper s (rangeFrom n (i + w) ((b0 :: t).drop w)) = none →
          AppendRune (unicode.ToUpper c) ++
            encodeRunes ((runes ((b0 :: t).drop w)).map unicode.ToUpper) = b0 :: t) ∧
        (∀ j r width, strings.mapFirst unicode.ToUpper s
            (rangeFrom n (i + w) ((b0 :: t).drop w)) = some (j, r, width) →
          i ≤ j ∧ 0 ≤ r ∧
          (s.take j).drop i ++ AppendRune r ++
              encodeRunes ((runes (s.drop ((j : Int) + width).toNat)).map unicode.ToUpper) =
            AppendRune (unicode.ToUpper c) ++
              encodeRunes ((runes ((b0 :: t).drop w)).map unicode.ToUpper)) := by
      intro hv hfix
      have hA := AppendRune_Decode (b0 :: t) (by simp) hv
      rw [hc, hwd] at hA
      rw [hfix, hA]
      constructor
      · intro hn
        rw [IH.1 hn, List.take_append_drop]
      · intro j r width hsome
        obtain ⟨h1, h2, h3⟩ := IH.2 j r width hsome
        refine ⟨by omega, h2, ?_⟩
        rw [take_drop_split s i w j h1, hs, ← h3]
        simp only [List.append_assoc]
    -- the loop stops at this rune
    have stop : ∀ width : Int, width = (w : Int) →
        (some (i, unicode.ToUpper c, width) = none →
          AppendRune (unicode.ToUpper c) ++
            encodeRunes ((runes ((b0 :: t).drop w)).map unicode.ToUpper) = b0 :: t) ∧
        (∀ j r width', some (i, unicode.ToUpper c, width) = some (j, r, width') →
          i ≤ j ∧ 0 ≤ r ∧
          (s.take j).drop i ++ AppendRune r ++
              encodeRunes ((runes (s.drop ((j : Int) + width').toNat)).map unicode.ToUpper) =
            AppendRune (unicode.ToUpper c) ++
              encodeRunes ((runes ((b0 :: t).drop w)).map unicode.ToUpper)) := by
      intro width hwid
      constructor
      · intro h; exact absurd h (by simp)
      · intro j r width' h
        simp only [Option.some.injEq, Prod.mk.injEq] at h
        obtain ⟨rfl, rfl, rfl⟩ := h
        refine ⟨le_refl _, ToUpper_nonneg c hvc, ?_⟩
        have : ((i : Int) + width).toNat = i + w := by omega
        rw [this, hs']
        simp
    by_cases h1 : unicode.ToUpper c = c ∧ c ≠ RuneError
    · rw [if_pos h1]
      exact keep (by rw [hD]; intro h; simp only [Prod.mk.injEq] at h; exact h1.2 h.1) h1.1
    · rw [if_neg h1]
      by_cases h2 : c = RuneError
      · rw [if_pos h2]
        by_cases h3 : w ≠ 1 ∧ unicode.ToUpper c = c
        · rw [if_pos h3]
          exact keep (by rw [hD]; intro h; simp only [Prod.mk.injEq] at h; exact h3.1 h.2) h3.2
        · rw [if_neg h3]
          exact stop _ rfl
      · rw [if_neg h2]
        have hv : DecodeRuneInString (b0 :: t) ≠ (RuneError, 1) := by
          rw [hD]; intro h; simp only [Prod.mk.injEq] at h; exact h2 h.1
        have hR := RuneLen_Decode (b0 :: t) (by simp) hv
        rw [hc, hwd] at hR
        exact stop _ hR

/-- For `unicode.ToUpper`, `strings.Map` decodes the string, upper-cases every
rune and encodes the result (an invalid byte comes out as U+FFFD). -/
theorem Map_ToUpper (s : GoString) :
    strings.Map unicode.ToUpper s = encodeRunes ((runes s).map unicode.ToUpper) := by
  have spec := mapFirst_spec s s.length 0 s (le_refl _) rfl
  unfold strings.Map
  unfold rangeString at *
  rcases h : strings.mapFirst unicode.ToUpper s (rangeFrom s.length 0 s) with _ | ⟨j, r, width⟩
  · exact (spec.1 h).symm
  · obtain ⟨_, h2, h3⟩ := spec.2 j r width h
    simp only
    rw [if_pos h2, ← h3]
    have := mapWrite_rangeString (s.drop ((j : Int) + width).toNat)
    unfold rangeString at this
    rw [this]
    simp

/-- The function `strings.ToUpper` decodes the string, upper-cases every rune
with `unicode.ToUpper` and encodes the result. -/
theorem ToUpper_eq (s : GoString) :
    strings.ToUpper s = encodeRunes ((runes s).map unicode.ToUpper) := by
  unfold strings.ToUpper
  simp only
  by_cases ha : (s.all fun c => decide (c < RuneSelf)) = true
  · rw [if_pos ha]
    have ha' : ∀ c ∈ s, c < 0x80 := by
      intro c hc
      have := List.all_eq_true.mp ha c hc
      simpa [RuneSelf] using this
    rw [upper_ascii s ha']
    by_cases hl : (!s.any fun c => decide (0x61 ≤ c ∧ c ≤ 0x7A)) = true
    · rw [if_pos hl]
      symm
      apply map_upperByte_of_no_lower
      intro c hc hcl
      simp only [Bool.not_eq_true', List.any_eq_false, decide_eq_true_eq] at hl
      exact hl c hc hcl
    · rw [if_neg hl]
      rfl
  · rw [if_neg ha]
    exact Map_ToUpper s

/-- The runes of an upper-cased string are the upper-cased runes of the string. -/
theorem runes_ToUpper (s : GoString) :
    runes (strings.ToUpper s) = (runes s).map unicode.ToUpper := by
  rw [ToUpper_eq]
  apply runes_encodeRunes
  intro r hr
  obtain ⟨c, hc, rfl⟩ := List.mem_map.mp hr
  exact ToUpper_valid c (runes_valid s c hc)

/-- Upper-casing a string twice is upper-casing it once. -/
theorem strings_ToUpper_idem (s : GoString) :
    strings.ToUpper (strings.ToUpper s) = strings.ToUpper s := by
  rw [ToUpper_eq (strings.ToUpper s), runes_ToUpper, ToUpper_eq s, List.map_map]
  congr 1
  apply List.map_congr_left
  intro r _
  exact ToUpper_idem r

/-- A byte that is not a continuation byte ends the sequence before it: what
follows such a byte does not change how the bytes before it decode. -/
theorem Decode_append_start (b0 : Nat) (t : GoString) (b : Nat) (S : GoString)
    (hb : ¬ (0x80 ≤ b ∧ b ≤ 0xBF)) :
    DecodeRuneInString (b0 :: (t ++ b :: S)) = DecodeRuneInString (b0 :: t) := by
  have nb : ∀ b0', ¬ (lo2 b0' ≤ b ∧ b ≤ hi2 b0') := by
    intro b0' h
    have := lo2_hi2_bounds h.1 h.2
    omega
  by_cases h1 : b0 < 0x80
  · rw [Decode_ascii _ _ h1, Decode_ascii _ _ h1]
  by_cases h2 : b0 < 0xC2 ∨ 0xF5 ≤ b0
  · rw [Decode_bad_first _ _ (by omega), Decode_bad_first _ _ (by omega)]
  by_cases h3 : b0 < 0xE0
  · rw [Decode_two _ _ (by omega), Decode_two _ _ (by omega)]
    rcases t with _ | ⟨b1, t'⟩
    · simp only [List.nil_append]
      rw [if_neg hb]
    · rfl
  by_cases h4 : b0 < 0xF0
  · rw [Decode_three _ _ (by omega), Decode_three _ _ (by omega)]
    rcases t with _ | ⟨b1, _ | ⟨b2, t'⟩⟩
    · rcases S with _ | ⟨c, S'⟩
      · rfl
      · simp only [List.nil_append]
        rw [if_neg (fun h => nb b0 ⟨h.1, h.2.1⟩)]
    · simp only [List.cons_append, List.nil_append]
      rw [if_neg (fun h => hb ⟨h.2.2.1, h.2.2.2⟩)]
    · rfl
  · rw [Decode_four _ _ (by omega), Decode_four _ _ (by omega)]
    rcases t with _ | ⟨b1, _ | ⟨b2, _ | ⟨b3, t'⟩⟩⟩
    · rcases S with _ | ⟨c, _ | ⟨d, S'⟩⟩
      · rfl
      · rfl
      · simp only [List.nil_append]
        rw [if_neg (fun h => nb b0 ⟨h.1, h.2.1⟩)]
    · rcases S with _ | ⟨c, S'⟩
      · rfl
      · simp only [List.cons_append, List.nil_append]
        rw [if_neg (fun h => hb ⟨h.2.2.1, h.2.2.2.1⟩)]
    · simp only [List.cons_append, List.nil_append]
      rw [if_neg (fun h => hb ⟨h.2.2.2.2.1, h.2.2.2.2.2⟩)]
    · rfl

/-- The runes of a string that continues with a byte that is not a continuation
byte: the runes of the part before that byte, then the runes from it on. -/
theorem runes_append_start (a : GoString) (b : Nat) (S : GoString)
    (hb : ¬ (0x80 ≤ b ∧ b ≤ 0xBF)) :
    runes (a ++ b :: S) = runes a ++ runes (b :: S) := by
  induction a using decode_induction with
  | hnil => rfl
  | hcons b0 t ih =>
    have hw := Decode_width b0 t
    rw [List.cons_append, runes_cons, runes_cons, Decode_append_start b0 t b S hb,
      List.cons_append]
    congr 1
    rw [← ih, ← List.cons_append, List.drop_append_of_le_length hw.2]

/-! ## Decoding from the end -/

theorem scanBack_le (s : GoString) (lim : Nat) : ∀ p, lim ≤ p → scanBack s lim p ≤ p := by
  intro p
  induction p with
  | zero => intro h; simp only [scanBack]; exact h
  | succ p ih =>
    intro h
    rw [scanBack]
    by_cases h1 : p < lim
    · rw [if_pos h1]; exact h
    · rw [if_neg h1]
      by_cases h2 : RuneStart (s.getD p 0) = true
      · rw [if_pos h2]; omega
      · rw [if_neg h2]
        have := ih (by omega)
        omega

theorem scanBack_ge (s : GoString) (lim : Nat) : ∀ p, lim ≤ scanBack s lim p := by
  intro p
  induction p with
  | zero => simp only [scanBack]; exact le_refl _
  | succ p ih =>
    rw [scanBack]
    by_cases h1 : p < lim
    · rw [if_pos h1]
    · rw [if_neg h1]
      by_cases h2 : RuneStart (s.getD p 0) = true
      · rw [if_pos h2]; omega
      · rw [if_neg h2]; exact ih

/-- The width that `DecodeLastRuneInString` returns for a non-empty string is at
least one and at most the length of the string. -/
theorem DecodeLast_width (s : GoString) (hs : s ≠ []) :
    1 ≤ (DecodeLastRuneInString s).2 ∧ (DecodeLastRuneInString s).2 ≤ s.length := by
  have hl : 0 < s.length := List.length_pos.mpr hs
  unfold DecodeLastRuneInString
  simp only
  rw [if_neg (by omega)]
  by_cases h1 : s.getD (s.length - 1) 0 < RuneSelf
  · rw [if_pos h1]; simp only; omega
  · rw [if_neg h1]
    have hle := scanBack_le s (s.length - UTFMax) (s.length - 1) (by unfold UTFMax; omega)
    by_cases h2 : scanBack s (s.length - UTFMax) (s.length - 1) +
        (DecodeRuneInString (s.drop (scanBack s (s.length - UTFMax) (s.length - 1)))).2 ≠ s.length
    · simp only [h2, ne_eq, not_false_eq_true, if_true]; omega
    · simp only [h2, ne_eq, if_false]
      simp only [ne_eq, not_not] at h2
      omega

/-- The loop of `strings.lastIndexFunc` does not depend on the fuel, once there
is as much of it as the offset the loop starts from. -/
theorem lastIndexFuncLoop_fuel (s : GoString) (f : Int → Bool) (truth : Bool) :
    ∀ fuel₁ fuel₂ i, i ≤ s.length → i ≤ fuel₁ → i ≤ fuel₂ →
      strings.lastIndexFuncLoop s f truth fuel₁ i = strings.lastIndexFuncLoop s f truth fuel₂ i := by
  intro fuel₁
  induction fuel₁ with
  | zero =>
    intro fuel₂ i _ h1 _
    have : i = 0 := by omega
    subst this
    cases fuel₂ <;> simp [strings.lastIndexFuncLoop]
  | succ n ih =>
    intro fuel₂ i hi h1 h2
    by_cases h0 : i = 0
    · subst h0
      cases fuel₂ <;> simp [strings.lastIndexFuncLoop]
    · obtain ⟨m, rfl⟩ : ∃ m, fuel₂ = m + 1 := ⟨fuel₂ - 1, by omega⟩
      have hne : s.take i ≠ [] := by
        intro h
        have := congrArg List.length h
        simp only [List.length_take, List.length_nil] at this
        omega
      have hw := DecodeLast_width (s.take i) hne
      simp only [List.length_take] at hw
      rw [strings.lastIndexFuncLoop, strings.lastIndexFuncLoop]
      rw [if_pos (by omega), if_pos (by omega)]
      simp only
      by_cases hf : (f (DecodeLastRuneInString (s.take i)).1 == truth) = true
      · rw [if_pos hf, if_pos hf]
      · rw [if_neg hf, if_neg hf]
        exact ih m _ (by omega) (by omega) (by omega)

/-! ## `strings.TrimSpace` -/

theorem TrimRightFunc_nil (f : Int → Bool) : strings.TrimRightFunc [] f = [] := by
  simp [strings.TrimRightFunc, strings.lastIndexFunc, strings.lastIndexFuncLoop]

theorem indexFunc_none (s : GoString) (f : Int → Bool) (truth : Bool)
    (h : ∀ r ∈ runes s, f r ≠ truth) : strings.indexFunc s f truth = -1 := by
  unfold strings.indexFunc
  have : (rangeString s).find? (fun p => f p.2 == truth) = none := by
    rw [List.find?_eq_none]
    intro p hp
    have := h p.2 (by unfold runes; exact List.mem_map_of_mem _ hp)
    simpa using this
  rw [this]

theorem TrimLeftFunc_all (s : GoString) (f : Int → Bool)
    (h : ∀ r ∈ runes s, f r = true) : strings.TrimLeftFunc s f = [] := by
  unfold strings.TrimLeftFunc
  rw [indexFunc_none s f false (fun r hr => by rw [h r hr]; simp)]
  simp

theorem asciiSpace_of_IsSpace (c : Nat) (h : c < 0x80) (hs : unicode.IsSpace (c : Int) = true) :
    strings.asciiSpace c = true := by
  rw [IsSpace_iff, mem_spaces_iff] at hs
  unfold strings.asciiSpace
  simp only [Bool.decide_or, Bool.or_eq_true, decide_eq_true_eq]
  omega

/-- The function `strings.TrimSpace` returns the empty string for a string of
white space only. -/
theorem TrimSpace_whitespace (s : GoString) (h : isWhitespaceOnly s = true) :
    strings.TrimSpace s = [] := by
  unfold isWhitespaceOnly at h
  rw [List.all_eq_true] at h
  induction s with
  | nil => rfl
  | cons c rest ih =>
    rw [strings.TrimSpace]
    by_cases h1 : c ≥ RuneSelf
    · rw [if_pos h1]
      unfold strings.TrimFunc
      rw [TrimLeftFunc_all _ _ h, TrimRightFunc_nil]
    · rw [if_neg h1]
      have hc : c < 0x80 := by unfold RuneSelf at h1; omega
      have hr : runes (c :: rest) = (c : Int) :: runes rest := by
        rw [runes_cons, Decode_ascii c rest hc]; rfl
      rw [hr] at h
      rw [if_neg (by
        rw [asciiSpace_of_IsSpace c hc (h _ (List.mem_cons_self _ _))]; simp)]
      exact ih (fun r hr' => h r (List.mem_cons_of_mem _ hr'))

/-! ## Decoding the last rune -/

theorem RuneStart_iff (b : Nat) : RuneStart b = true ↔ ¬ (0x80 ≤ b ∧ b ≤ 0xBF) := by
  unfold RuneStart
  simp only [Bool.not_eq_true', Bool.and_eq_false_imp, decide_eq_true_eq, decide_eq_false_iff_not]
  constructor
  · intro h hb; exact h hb.1 hb.2
  · intro h h1 h2; exact h ⟨h1, h2⟩

theorem RuneStart_eq_false_iff (b : Nat) : RuneStart b = false ↔ (0x80 ≤ b ∧ b ≤ 0xBF) := by
  rw [← Bool.not_eq_true, RuneStart_iff]
  simp

/-- What `scanBack` returns: an index `q` from `lim` on, below `p` unless the scan
has nowhere to go, with no start byte between `q` and `p`, and with a start byte
at `q` unless `q` is `lim`. -/
theorem scanBack_spec (s : GoString) (lim : Nat) :
    ∀ p, lim ≤ scanBack s lim p ∧ (scanBack s lim p < p ∨ (p ≤ lim ∧ scanBack s lim p = lim)) ∧
      (∀ j, scanBack s lim p < j → j < p → RuneStart (s.getD j 0) = false) ∧
      (RuneStart (s.getD (scanBack s lim p) 0) = true ∨ scanBack s lim p = lim) := by
  intro p
  induction p with
  | zero =>
    have e : scanBack s lim 0 = lim := rfl
    rw [e]
    exact ⟨le_refl _, Or.inr ⟨Nat.zero_le _, rfl⟩, fun j _ h => absurd h (by omega), Or.inr rfl⟩
  | succ p ih =>
    rw [scanBack]
    by_cases h1 : p < lim
    · rw [if_pos h1]
      exact ⟨le_refl _, Or.inr ⟨by omega, rfl⟩, fun j h h' => absurd h' (by omega), Or.inr rfl⟩
    · rw [if_neg h1]
      by_cases h2 : RuneStart (s.getD p 0) = true
      · rw [if_pos h2]
        exact ⟨by omega, Or.inl (by omega), fun j h h' => absurd h' (by omega), Or.inl h2⟩
      · rw [if_neg h2]
        obtain ⟨a1, a2, a3, a4⟩ := ih
        refine ⟨a1, Or.inl ?_, ?_, a4⟩
        · rcases a2 with a2 | ⟨a2, a2'⟩ <;> omega
        · intro j hj hj'
          by_cases e : j = p
          · subst e; simpa using h2
          · exact a3 j hj (by omega)

/-- The index `scanBack` returns is the only one with the properties of
`scanBack_spec`. -/
theorem scanBack_unique (s : GoString) (lim p q : Nat) (h1 : lim ≤ q)
    (h2 : q < p ∨ (p ≤ lim ∧ q = lim))
    (h3 : ∀ j, q < j → j < p → RuneStart (s.getD j 0) = false)
    (h4 : RuneStart (s.getD q 0) = true ∨ q = lim) : scanBack s lim p = q := by
  obtain ⟨a1, a2, a3, a4⟩ := scanBack_spec s lim p
  rcases Nat.lt_trichotomy (scanBack s lim p) q with h | h | h
  · have hq : q < p := by rcases h2 with h2 | h2 <;> omega
    have := a3 q h hq
    rcases h4 with h4 | h4
    · rw [h4] at this; exact absurd this (by simp)
    · omega
  · exact h
  · have hq : scanBack s lim p < p := by rcases a2 with a2 | a2 <;> omega
    have := h3 _ h hq
    rcases a4 with a4 | a4
    · rw [a4] at this; exact absurd this (by simp)
    · omega

/-- A well-formed sequence decodes the same whatever follows it. -/
theorem Decode_valid_prefix (s : GoString) (hs : s ≠ [])
    (hv : DecodeRuneInString s ≠ (RuneError, 1)) (x : GoString) :
    DecodeRuneInString (s.take (DecodeRuneInString s).2 ++ x) = DecodeRuneInString s := by
  obtain ⟨b0, t, rfl⟩ := List.exists_cons_of_ne_nil hs
  have hw := Decode_width b0 t
  have hA := AppendRune_Decode (b0 :: t) hs hv
  have hD := Decode_AppendRune (DecodeRuneInString (b0 :: t)).1 x (Decode_ValidRune _)
  rw [hA] at hD
  rw [hD, List.length_take, Nat.min_eq_left hw.2]

/-- Decoding looks at no byte behind the sequence it returns: a string decodes
like a longer one whose first sequence lies within it. -/
theorem Decode_prefix (p q : GoString) (hp : p ≠ [])
    (h : (DecodeRuneInString (p ++ q)).2 ≤ p.length) :
    DecodeRuneInString p = DecodeRuneInString (p ++ q) := by
  by_cases hv : DecodeRuneInString p = (RuneError, 1)
  · by_cases hv' : DecodeRuneInString (p ++ q) = (RuneError, 1)
    · rw [hv, hv']
    · have := Decode_valid_prefix (p ++ q) (by simp [hp]) hv'
        (p.drop (DecodeRuneInString (p ++ q)).2)
      rw [List.take_append_of_le_length h, List.take_append_drop] at this
      exact this
  · have := Decode_valid_prefix p hp hv (p.drop (DecodeRuneInString p).2 ++ q)
    rw [← List.append_assoc, List.take_append_drop] at this
    exact this.symm

/-- The bytes of a decoded sequence after its first byte are continuation bytes. -/
theorem Decode_tail_cont (b0 : Nat) (t : GoString) (j : Nat) (h1 : 1 ≤ j)
    (h2 : j < (DecodeRuneInString (b0 :: t)).2) :
    RuneStart ((b0 :: t).getD j 0) = false := by
  rw [RuneStart_eq_false_iff]
  rcases Decode_outcome b0 t with ⟨_, h⟩ | h | ⟨b1, t', rfl, _, _, _, _, h⟩ |
    ⟨b1, b2, t', rfl, _, _, hl, hh, _, _, h⟩ | ⟨b1, b2, b3, t', rfl, _, _, hl, hh, _, _, _, _, h⟩
  · rw [h] at h2; simp only at h2; omega
  · rw [h] at h2; simp only at h2; omega
  · rw [h] at h2; simp only at h2
    have : j = 1 := by omega
    subst this
    simp only [List.getD_cons_succ, List.getD_cons_zero]
    omega
  · rw [h] at h2; simp only at h2
    have := lo2_hi2_bounds hl hh
    have : j = 1 ∨ j = 2 := by omega
    rcases this with rfl | rfl <;> simp only [List.getD_cons_succ, List.getD_cons_zero] <;> omega
  · rw [h] at h2; simp only at h2
    have := lo2_hi2_bounds hl hh
    have : j = 1 ∨ j = 2 ∨ j = 3 := by omega
    rcases this with rfl | rfl | rfl <;>
      simp only [List.getD_cons_succ, List.getD_cons_zero] <;> omega

theorem Decode_width_le_four (b0 : Nat) (t : GoString) :
    (DecodeRuneInString (b0 :: t)).2 ≤ 4 := by
  rcases Decode_outcome b0 t with ⟨_, h⟩ | h | ⟨b1, t', rfl, _, _, _, _, h⟩ |
    ⟨b1, b2, t', rfl, _, _, hl, hh, _, _, h⟩ | ⟨b1, b2, b3, t', rfl, _, _, hl, hh, _, _, _, _, h⟩ <;>
  · simp only [h]; omega

/-- A single byte from `0x80` on is not a well-formed sequence. -/
theorem Decode_single_high (b : Nat) (h : 0x80 ≤ b) : DecodeRuneInString [b] = (RuneError, 1) := by
  rcases Decode_outcome b [] with ⟨h', _⟩ | h' | ⟨b1, t', e, _⟩ | ⟨b1, b2, t', e, _⟩ |
    ⟨b1, b2, b3, t', e, _⟩
  · omega
  · exact h'
  · exact absurd e (by simp)
  · exact absurd e (by simp)
  · exact absurd e (by simp)

/-- A continuation byte does not begin a well-formed sequence. -/
theorem Decode_cont_first (b0 : Nat) (t : GoString) (h : RuneStart b0 = false) :
    DecodeRuneInString (b0 :: t) = (RuneError, 1) := by
  rw [RuneStart_eq_false_iff] at h
  exact Decode_bad_first b0 t (Or.inl (by omega))

/-- The function `DecodeLastRuneInString` on a non-empty string, step by step. -/
theorem DecodeLast_eq (s : GoString) (hs : s ≠ []) :
    DecodeLastRuneInString s =
      if s.getD (s.length - 1) 0 < 0x80 then (((s.getD (s.length - 1) 0 : Nat) : Int), 1)
      else if scanBack s (s.length - 4) (s.length - 1) +
          (DecodeRuneInString (s.drop (scanBack s (s.length - 4) (s.length - 1)))).2 ≠ s.length
        then (RuneError, 1)
      else DecodeRuneInString (s.drop (scanBack s (s.length - 4) (s.length - 1))) := by
  have hl : 0 < s.length := List.length_pos.mpr hs
  unfold DecodeLastRuneInString
  simp only [UTFMax, RuneSelf]
  rw [if_neg (by omega)]

/-- A string that is one decoded sequence decodes from the end as it does from
the front. -/
theorem DecodeLast_unit (b0 : Nat) (t : GoString)
    (h : (DecodeRuneInString (b0 :: t)).2 = (b0 :: t).length) :
    DecodeLastRuneInString (b0 :: t) = DecodeRuneInString (b0 :: t) := by
  have h4 := Decode_width_le_four b0 t
  rw [DecodeLast_eq _ (by simp)]
  by_cases ha : (b0 :: t).getD ((b0 :: t).length - 1) 0 < 0x80
  · rw [if_pos ha]
    -- the last byte is ASCII, so it is the first byte
    have hlen : (b0 :: t).length = 1 := by
      by_contra hne
      have := Decode_tail_cont b0 t ((b0 :: t).length - 1)
        (by simp only [List.length_cons] at hne ⊢; omega) (by rw [h]; simp)
      rw [RuneStart_eq_false_iff] at this
      omega
    have ht : t = [] := by
      simp only [List.length_cons] at hlen
      exact List.eq_nil_of_length_eq_zero (by omega)
    subst ht
    have ha' : b0 < 0x80 := by simpa using ha
    rw [Decode_ascii b0 [] ha']
    simp
  · rw [if_neg ha]
    have hq : scanBack (b0 :: t) ((b0 :: t).length - 4) ((b0 :: t).length - 1) = 0 := by
      apply scanBack_unique
      · rw [← h]; omega
      · by_cases e : (b0 :: t).length - 1 = 0
        · exact Or.inr ⟨by omega, by rw [← h]; omega⟩
        · exact Or.inl (by omega)
      · intro j hj hj'
        exact Decode_tail_cont b0 t j hj (by rw [h]; omega)
      · exact Or.inr (by rw [← h]; omega)
    rw [hq]
    simp only [List.drop_zero, Nat.zero_add]
    rw [if_neg (by simp [h])]

/-- Decoding from the end does not see a sequence that lies wholly before the
last one: taking the first sequence off a longer string leaves the last rune and
its width as they are. -/
theorem DecodeLast_drop_unit (b0 : Nat) (t : GoString)
    (h : (DecodeRuneInString (b0 :: t)).2 < (b0 :: t).length) :
    DecodeLastRuneInString (b0 :: t) =
      DecodeLastRuneInString ((b0 :: t).drop (DecodeRuneInString (b0 :: t)).2) := by
  have hw := Decode_width b0 t
  generalize hs : b0 :: t = s at *
  generalize hwd : (DecodeRuneInString s).2 = w at *
  have hsne : s ≠ [] := by rw [← hs]; simp
  have hrne : s.drop w ≠ [] := by
    intro e
    have := congrArg List.length e
    simp only [List.length_drop, List.length_nil] at this
    omega
  have hlen : (s.drop w).length = s.length - w := List.length_drop _ _
  have hget : ∀ j, (s.drop w).getD j 0 = s.getD (w + j) 0 := by
    intro j
    simp only [List.getD_eq_getElem?_getD, List.getElem?_drop]
  have hdd : ∀ j, (s.drop w).drop j = s.drop (w + j) := by
    intro j; rw [List.drop_drop, Nat.add_comm]
  rw [DecodeLast_eq s hsne, DecodeLast_eq (s.drop w) hrne, hlen, hget]
  have e1 : w + (s.length - w - 1) = s.length - 1 := by omega
  rw [e1]
  by_cases ha : s.getD (s.length - 1) 0 < 0x80
  · rw [if_pos ha, if_pos ha]
  rw [if_neg ha, if_neg ha]
  obtain ⟨a1, a2, a3, a4⟩ := scanBack_spec s (s.length - 4) (s.length - 1)
  generalize hq : scanBack s (s.length - 4) (s.length - 1) = q at *
  obtain ⟨c1, c2, c3, c4⟩ := scanBack_spec (s.drop w) (s.length - w - 4) (s.length - w - 1)
  generalize hq' : scanBack (s.drop w) (s.length - w - 4) (s.length - w - 1) = q' at *
  rw [hdd]
  by_cases hqw : w ≤ q
  · -- the scan stops behind the first sequence: it is the scan of the rest
    have : q' = q - w := by
      rw [← hq']
      apply scanBack_unique
      · omega
      · rcases a2 with a2 | a2
        · exact Or.inl (by omega)
        · omega
      · intro j hj hj'
        rw [hget]
        exact a3 (w + j) (by omega) (by omega)
      · rcases a4 with a4 | a4
        · left
          rw [hget]
          have : w + (q - w) = q := by omega
          rw [this]; exact a4
        · right; omega
    subst this
    have e2 : w + (q - w) = q := by omega
    rw [e2]
    by_cases hne : q + (DecodeRuneInString (s.drop q)).2 ≠ s.length
    · rw [if_pos hne, if_pos (by omega)]
    · rw [if_neg hne, if_neg (by omega)]
  · -- the scan runs into the first sequence: both sides are `(RuneError, 1)`
    have hq_lt : q < w := by omega
    have lhs : q + (DecodeRuneInString (s.drop q)).2 ≠ s.length := by
      by_cases e : q = 0
      · subst e
        simp only [List.drop_zero, Nat.zero_add]
        omega
      · have hc : RuneStart (s.getD q 0) = false := by
          rw [← hs]
          apply Decode_tail_cont b0 t q (by omega)
          rw [hs, hwd]; exact hq_lt
        have hd : s.drop q = s.getD q 0 :: s.drop (q + 1) := by
          have hql : q < s.length := by omega
          rw [List.drop_eq_getElem_cons hql]
          congr 1
          simp [List.getD_eq_getElem?_getD, List.getElem?_eq_getElem hql]
        rw [hd, Decode_cont_first _ _ hc]
        simp only
        omega
    rw [if_pos lhs]
    -- no start byte in the rest before its last byte
    have hnost : ∀ j, j < s.length - w - 1 → RuneStart ((s.drop w).getD j 0) = false := by
      intro j hj
      rw [hget]
      exact a3 (w + j) (by omega) (by omega)
    have rhs : q' + (DecodeRuneInString (s.drop (w + q'))).2 ≠ s.length - w ∨
        DecodeRuneInString (s.drop (w + q')) = (RuneError, 1) := by
      by_cases e : q' < s.length - w - 1
      · left
        have hc := hnost q' e
        rw [hget] at hc
        have hd : s.drop (w + q') = s.getD (w + q') 0 :: s.drop (w + q' + 1) := by
          have hql : w + q' < s.length := by omega
          rw [List.drop_eq_getElem_cons hql]
          congr 1
          simp [List.getD_eq_getElem?_getD, List.getElem?_eq_getElem hql]
        rw [hd, Decode_cont_first _ _ hc]
        simp only
        omega
      · right
        have e' : w + q' = s.length - 1 := by
          rcases c2 with c2 | c2 <;> omega
        rw [e']
        have hd : s.drop (s.length - 1) = [s.getD (s.length - 1) 0] := by
          have hql : s.length - 1 < s.length := by omega
          rw [List.drop_eq_getElem_cons hql]
          have : s.length - 1 + 1 = s.length := by omega
          rw [this, List.drop_length]
          simp [List.getD_eq_getElem?_getD, List.getElem?_eq_getElem hql]
        rw [hd]
        exact Decode_single_high _ (by omega)
    rcases rhs with rhs | rhs
    · rw [if_pos rhs]
    · by_cases hne : q' + (DecodeRuneInString (s.drop (w + q'))).2 ≠ s.length - w
      · rw [if_pos hne]
      · rw [if_neg hne, rhs]

/-- Decoding from the end agrees with decoding from the front: the rune that
`DecodeLastRuneInString` returns is the last rune of the string, and the bytes
before its width hold the runes before it. -/
theorem runes_DecodeLast (s : GoString) (hs : s ≠ []) :
    runes s = runes (s.take (s.length - (DecodeLastRuneInString s).2)) ++
      [(DecodeLastRuneInString s).1] := by
  induction s using decode_induction with
  | hnil => exact absurd rfl hs
  | hcons b0 t ih =>
    have hw := Decode_width b0 t
    by_cases hfull : (DecodeRuneInString (b0 :: t)).2 = (b0 :: t).length
    · rw [DecodeLast_unit b0 t hfull, hfull, Nat.sub_self, List.take_zero, runes_nil,
        runes_cons, hfull, List.drop_length, runes_nil]
      rfl
    · have hlt : (DecodeRuneInString (b0 :: t)).2 < (b0 :: t).length := by omega
      have hrne : (b0 :: t).drop (DecodeRuneInString (b0 :: t)).2 ≠ [] := by
        intro e
        have := congrArg List.length e
        simp only [List.length_drop, List.length_nil] at this
        omega
      have IH := ih hrne
      have hk := DecodeLast_width _ hrne
      rw [← DecodeLast_drop_unit b0 t hlt] at IH hk
      generalize DecodeLastRuneInString (b0 :: t) = rk at *
      generalize hwd : (DecodeRuneInString (b0 :: t)).2 = w at *
      rw [List.length_drop] at IH hk
      -- the string without its last rune still begins with the first sequence
      have hp : (b0 :: t).take ((b0 :: t).length - rk.2) ≠ [] := by
        intro e
        have := congrArg List.length e
        simp only [List.length_take, List.length_nil] at this
        omega
      have hsplit : (b0 :: t).take ((b0 :: t).length - rk.2) ++
          (b0 :: t).drop ((b0 :: t).length - rk.2) = b0 :: t := List.take_append_drop _ _
      have hD := Decode_prefix _ ((b0 :: t).drop ((b0 :: t).length - rk.2)) hp
        (by rw [hsplit, hwd, List.length_take]; omega)
      rw [hsplit] at hD
      obtain ⟨c0, t0, e0⟩ := List.exists_cons_of_ne_nil hp
      rw [runes_cons, hwd, IH, e0, runes_cons, ← e0, hD, hwd, List.drop_take]
      have : (b0 :: t).length - rk.2 - w = (b0 :: t).length - w - rk.2 := by omega
      rw [this]
      rfl

/-! ## `strings.TrimLeftFunc` and `strings.TrimRightFunc` -/

/-- The last sequence of a string, decoded from its first byte on, is what
`DecodeLastRuneInString` returns. -/
theorem Decode_drop_DecodeLast (s : GoString) (hs : s ≠ []) :
    DecodeRuneInString (s.drop (s.length - (DecodeLastRuneInString s).2)) =
      DecodeLastRuneInString s := by
  have hl : 0 < s.length := List.length_pos.mpr hs
  have hlast : s.drop (s.length - 1) = [s.getD (s.length - 1) 0] := by
    have hql : s.length - 1 < s.length := by omega
    rw [List.drop_eq_getElem_cons hql]
    have : s.length - 1 + 1 = s.length := by omega
    rw [this, List.drop_length]
    simp [List.getD_eq_getElem?_getD, List.getElem?_eq_getElem hql]
  rw [DecodeLast_eq s hs]
  by_cases ha : s.getD (s.length - 1) 0 < 0x80
  · rw [if_pos ha]
    simp only
    rw [hlast, Decode_ascii _ _ ha]
  · rw [if_neg ha]
    by_cases hne : scanBack s (s.length - 4) (s.length - 1) +
        (DecodeRuneInString (s.drop (scanBack s (s.length - 4) (s.length - 1)))).2 ≠ s.length
    · rw [if_pos hne]
      simp only
      rw [hlast, Decode_single_high _ (by omega)]
    · rw [if_neg hne]
      simp only [ne_eq, not_not] at hne
      congr 2
      omega

/-- A sequence that is not `(RuneError, 1)` begins with a start byte. -/
theorem RuneStart_of_valid (b0 : Nat) (t : GoString)
    (h : DecodeRuneInString (b0 :: t) ≠ (RuneError, 1)) : RuneStart b0 = true := by
  by_contra hc
  rw [Bool.not_eq_true] at hc
  exact h (Decode_cont_first b0 t hc)

/-- The offsets of a `range` loop started at `i` are those of the loop started
at `0`, moved by `i`. -/
theorem rangeFrom_shift (fuel i : Nat) (s : GoString) :
    rangeFrom fuel i s = (rangeFrom fuel 0 s).map fun p => (p.1 + i, p.2) := by
  induction fuel generalizing i s with
  | zero => rfl
  | succ n ih =>
    rcases s with _ | ⟨b0, t⟩
    · rfl
    · rw [rangeFrom_cons, rangeFrom_cons, List.map_cons, ih (i + _), ih (0 + _)]
      simp only [Nat.zero_add, List.map_map, List.cons.injEq, true_and]
      apply List.map_congr_left
      intro p _
      simp only [Function.comp, Prod.mk.injEq, and_true]
      omega

theorem indexFunc_nil (f : Int → Bool) (truth : Bool) : strings.indexFunc [] f truth = -1 := rfl

/-- The function `strings.indexFunc` on a non-empty string: offset 0 when the
first rune fits, otherwise the offset found behind the first sequence, moved by
its width. -/
theorem indexFunc_cons (b0 : Nat) (t : GoString) (f : Int → Bool) (truth : Bool) :
    strings.indexFunc (b0 :: t) f truth =
      if f (DecodeRuneInString (b0 :: t)).1 = truth then 0
      else if strings.indexFunc ((b0 :: t).drop (DecodeRuneInString (b0 :: t)).2) f truth = -1
        then -1
      else strings.indexFunc ((b0 :: t).drop (DecodeRuneInString (b0 :: t)).2) f truth +
        ((DecodeRuneInString (b0 :: t)).2 : Int) := by
  have hl := length_drop_Decode b0 t
  unfold strings.indexFunc rangeString
  rw [List.length_cons, rangeFrom_cons, List.find?_cons]
  simp only [Nat.zero_add]
  by_cases h : f (DecodeRuneInString (b0 :: t)).1 = truth
  · simp [h]
  · have hb : (f (DecodeRuneInString (b0 :: t)).1 == truth) = false := by simpa using h
    rw [hb, if_neg h]
    simp only
    rw [rangeFrom_fuel t.length _ _ _ hl (le_refl _), rangeFrom_shift, List.find?_map]
    rcases hfind : List.find? ((fun p => f p.2 == truth) ∘ fun p : Nat × Int =>
        (p.1 + (DecodeRuneInString (b0 :: t)).2, p.2))
        (rangeFrom ((b0 :: t).drop (DecodeRuneInString (b0 :: t)).2).length 0
          ((b0 :: t).drop (DecodeRuneInString (b0 :: t)).2)) with _ | p
    · have hfind' : List.find? (fun p => f p.2 == truth)
          (rangeFrom ((b0 :: t).drop (DecodeRuneInString (b0 :: t)).2).length 0
            ((b0 :: t).drop (DecodeRuneInString (b0 :: t)).2)) = none := hfind
      rw [hfind']
      simp
    · have hfind' : List.find? (fun p => f p.2 == truth)
          (rangeFrom ((b0 :: t).drop (DecodeRuneInString (b0 :: t)).2).length 0
            ((b0 :: t).drop (DecodeRuneInString (b0 :: t)).2)) = some p := hfind
      rw [hfind']
      simp only [Option.map_some', Nat.cast_add]
      rw [if_neg (by omega)]

theorem indexFunc_ge (s : GoString) (f : Int → Bool) (truth : Bool) :
    strings.indexFunc s f truth = -1 ∨ 0 ≤ strings.indexFunc s f truth := by
  unfold strings.indexFunc
  split
  · exact Or.inr (Int.ofNat_nonneg _)
  · exact Or.inl rfl

/-- The function `strings.TrimLeftFunc` on a non-empty string: it drops the
first sequence and goes on when `f` holds of the first rune, and it returns the
string when not. -/
theorem TrimLeftFunc_cons (b0 : Nat) (t : GoString) (f : Int → Bool) :
    strings.TrimLeftFunc (b0 :: t) f =
      if f (DecodeRuneInString (b0 :: t)).1 = true then
        strings.TrimLeftFunc ((b0 :: t).drop (DecodeRuneInString (b0 :: t)).2) f
      else b0 :: t := by
  unfold strings.TrimLeftFunc
  simp only
  rw [indexFunc_cons]
  by_cases h : f (DecodeRuneInString (b0 :: t)).1 = true
  · have hf : ¬ f (DecodeRuneInString (b0 :: t)).1 = false := by simp [h]
    rw [if_neg hf, if_pos h]
    by_cases h1 : strings.indexFunc ((b0 :: t).drop (DecodeRuneInString (b0 :: t)).2) f false = -1
    · rw [if_pos h1, if_pos rfl, if_pos h1]
    · rw [if_neg h1, if_neg h1]
      have hnn := indexFunc_ge ((b0 :: t).drop (DecodeRuneInString (b0 :: t)).2) f false
      rw [if_neg (by omega), List.drop_drop]
      congr 1
      omega
  · have hf : f (DecodeRuneInString (b0 :: t)).1 = false := by simpa using h
    rw [if_pos hf, if_neg h, if_neg (by decide)]
    rfl

theorem TrimLeftFunc_nil (f : Int → Bool) : strings.TrimLeftFunc [] f = [] := rfl

theorem lastIndexFuncLoop_take (s : GoString) (f : Int → Bool) (truth : Bool) (e : Nat) :
    ∀ fuel i, i ≤ e →
      strings.lastIndexFuncLoop s f truth fuel i =
        strings.lastIndexFuncLoop (s.take e) f truth fuel i := by
  intro fuel
  induction fuel with
  | zero => intro i _; rfl
  | succ n ih =>
    intro i hi
    rw [strings.lastIndexFuncLoop, strings.lastIndexFuncLoop]
    have ht : (s.take e).take i = s.take i := by
      rw [List.take_take, Nat.min_eq_left hi]
    rw [ht]
    by_cases h0 : i > 0
    · rw [if_pos h0, if_pos h0]
      simp only
      by_cases hf : (f (DecodeLastRuneInString (s.take i)).1 == truth) = true
      · rw [if_pos hf, if_pos hf]
      · rw [if_neg hf, if_neg hf]
        exact ih _ (by omega)
    · rw [if_neg h0, if_neg h0]

/-- The loop of `strings.lastIndexFunc` returns -1 or an offset below the one it
starts from. -/
theorem lastIndexFuncLoop_range (s : GoString) (f : Int → Bool) (truth : Bool) :
    ∀ fuel i, i ≤ s.length →
      strings.lastIndexFuncLoop s f truth fuel i = -1 ∨
        (0 ≤ strings.lastIndexFuncLoop s f truth fuel i ∧
          strings.lastIndexFuncLoop s f truth fuel i < (i : Int)) := by
  intro fuel
  induction fuel with
  | zero => intro i _; exact Or.inl rfl
  | succ n ih =>
    intro i hi
    rw [strings.lastIndexFuncLoop]
    by_cases h0 : i > 0
    · rw [if_pos h0]
      simp only
      have hne : s.take i ≠ [] := by
        intro h
        have := congrArg List.length h
        simp only [List.length_take, List.length_nil] at this
        omega
      have hw := DecodeLast_width (s.take i) hne
      simp only [List.length_take] at hw
      by_cases hf : (f (DecodeLastRuneInString (s.take i)).1 == truth) = true
      · rw [if_pos hf]
        right
        omega
      · rw [if_neg hf]
        rcases ih (i - (DecodeLastRuneInString (s.take i)).2) (by omega) with h | h
        · exact Or.inl h
        · right; omega
    · rw [if_neg h0]; exact Or.inl rfl

theorem lastIndexFunc_range (s : GoString) (f : Int → Bool) (truth : Bool) :
    strings.lastIndexFunc s f truth = -1 ∨
      (0 ≤ strings.lastIndexFunc s f truth ∧ strings.lastIndexFunc s f truth < (s.length : Int)) :=
  lastIndexFuncLoop_range s f truth s.length s.length (le_refl _)

/-- The function `strings.lastIndexFunc` on a non-empty string: the offset of
the last rune when it fits, otherwise what is found before the last rune. -/
theorem lastIndexFunc_step (s : GoString) (hs : s ≠ []) (f : Int → Bool) (truth : Bool) :
    strings.lastIndexFunc s f truth =
      if f (DecodeLastRuneInString s).1 = truth then
        ((s.length - (DecodeLastRuneInString s).2 : Nat) : Int)
      else strings.lastIndexFunc (s.take (s.length - (DecodeLastRuneInString s).2)) f truth := by
  have hl : 0 < s.length := List.length_pos.mpr hs
  have hw := DecodeLast_width s hs
  unfold strings.lastIndexFunc
  obtain ⟨n, hn⟩ : ∃ n, s.length = n + 1 := ⟨s.length - 1, by omega⟩
  rw [hn, strings.lastIndexFuncLoop, ← hn, List.take_length, if_pos hl]
  simp only
  by_cases hf : f (DecodeLastRuneInString s).1 = truth
  · rw [if_pos (by simpa using hf), if_pos hf]
  · rw [if_neg (by simpa using hf), if_neg hf]
    rw [lastIndexFuncLoop_fuel s f truth n (s.length - (DecodeLastRuneInString s).2) _
      (by omega) (by omega) (le_refl _)]
    rw [lastIndexFuncLoop_take s f truth (s.length - (DecodeLastRuneInString s).2) _ _ (le_refl _)]
    rw [List.length_take, Nat.min_eq_left (by omega)]

theorem getD_take (s : GoString) (e j : Nat) (h : j < e) : (s.take e).getD j 0 = s.getD j 0 := by
  simp only [List.getD_eq_getElem?_getD, List.getElem?_take_of_lt h]

/-- The function `strings.TrimRightFunc` on a non-empty string, for a predicate
that rejects `RuneError`: it drops the last rune and goes on when `f` holds of
it, and it returns the string when not. -/
theorem TrimRightFunc_step (s : GoString) (hs : s ≠ []) (f : Int → Bool)
    (hf : f RuneError = false) :
    strings.TrimRightFunc s f =
      if f (DecodeLastRuneInString s).1 = true then
        strings.TrimRightFunc (s.take (s.length - (DecodeLastRuneInString s).2)) f
      else s := by
  have hl : 0 < s.length := List.length_pos.mpr hs
  have hw := DecodeLast_width s hs
  have hD := Decode_drop_DecodeLast s hs
  have hdne : s.drop (s.length - (DecodeLastRuneInString s).2) ≠ [] := by
    intro e
    have := congrArg List.length e
    simp only [List.length_drop, List.length_nil] at this
    omega
  obtain ⟨b, q, hbq⟩ := List.exists_cons_of_ne_nil hdne
  have hb : s.getD (s.length - (DecodeLastRuneInString s).2) 0 = b := by
    have := congrArg (fun l => l.getD 0 0) hbq
    simp only [List.getD_cons_zero, List.getD_eq_getElem?_getD, List.getElem?_drop,
      Nat.add_zero] at this
    simp only [List.getD_eq_getElem?_getD]
    simpa using this
  unfold strings.TrimRightFunc
  simp only
  rw [lastIndexFunc_step s hs]
  by_cases h : f (DecodeLastRuneInString s).1 = true
  · have hfalse : ¬ f (DecodeLastRuneInString s).1 = false := by simp [h]
    rw [if_neg hfalse, if_pos h]
    generalize hk : (DecodeLastRuneInString s).2 = k at *
    -- the last rune is valid, so the sequence that holds it begins with a start byte
    have hstart : RuneStart b = true := by
      apply RuneStart_of_valid b q
      rw [← hbq, hD]
      intro e
      rw [e] at h
      simp only at h
      rw [hf] at h
      exact absurd h (by simp)
    have hlen' : (s.take (s.length - k)).length = s.length - k := by
      rw [List.length_take]; omega
    rcases lastIndexFunc_range (s.take (s.length - k)) f false with hj | ⟨hj0, hj1⟩
    · rw [hj]
      simp
    · generalize strings.lastIndexFunc (s.take (s.length - k)) f false = j at *
      obtain ⟨m, rfl⟩ := Int.eq_ofNat_of_zero_le hj0
      simp only [Int.toNat_ofNat]
      rw [hlen'] at hj1
      have hm : m < s.length - k := by omega
      rw [getD_take s _ m hm]
      have hsplit : s.drop m = (s.take (s.length - k)).drop m ++ b :: q := by
        rw [← hbq, List.drop_take]
        have : s.length - k = m + (s.length - k - m) := by omega
        conv_lhs => rw [← List.take_append_drop (s.length - k - m) (s.drop m)]
        rw [List.drop_drop]
        congr 2
        omega
      have hpne : (s.take (s.length - k)).drop m ≠ [] := by
        intro e
        have := congrArg List.length e
        simp only [List.length_drop, List.length_nil, hlen'] at this
        omega
      obtain ⟨c0, t0, e0⟩ := List.exists_cons_of_ne_nil hpne
      have hdec : DecodeRuneInString (s.drop m) =
          DecodeRuneInString ((s.take (s.length - k)).drop m) := by
        rw [hsplit, e0, List.cons_append]
        exact Decode_append_start c0 t0 b q (by rw [← RuneStart_iff]; exact hstart)
      have hwm := Decode_width c0 t0
      rw [← e0] at hwm
      rw [List.length_drop, hlen'] at hwm
      rw [hdec]
      by_cases hge : ((m : Int) ≥ 0 ∧ s.getD m 0 ≥ RuneSelf)
      · rw [if_pos hge]
        have e1 : ((m : Int) + ((DecodeRuneInString ((s.take (s.length - k)).drop m)).2 : Int)).toNat
            = m + (DecodeRuneInString ((s.take (s.length - k)).drop m)).2 := by omega
        rw [e1, List.take_take, Nat.min_eq_left (by omega)]
      · rw [if_neg hge]
        have e1 : ((m : Int) + 1).toNat = m + 1 := by omega
        rw [e1, List.take_take, Nat.min_eq_left (by omega)]
  · have hfalse : f (DecodeLastRuneInString s).1 = false := by simpa using h
    rw [if_pos hfalse, if_neg h]
    simp only [Int.toNat_ofNat, Nat.cast_nonneg, true_and]
    rw [hb]
    by_cases hge : b ≥ RuneSelf
    · rw [if_pos hge, hD]
      have : ((s.length - (DecodeLastRuneInString s).2 : Nat) : Int) +
          ((DecodeLastRuneInString s).2 : Int) = (s.length : Int) := by omega
      rw [this, Int.toNat_ofNat, List.take_length]
    · rw [if_neg hge]
      have hk1 : (DecodeLastRuneInString s).2 = 1 := by
        rw [← hD, hbq, Decode_ascii b q (by unfold RuneSelf at hge; omega)]
      have : ((s.length - (DecodeLastRuneInString s).2 : Nat) : Int) + 1 = (s.length : Int) := by
        omega
      rw [this, Int.toNat_ofNat, List.take_length]

/-- Induction along the decoding of a string from its end: a property that holds
for the empty string, and for a string whenever it holds for what is before its
last rune, holds for every string. -/
theorem decodeLast_induction {P : GoString → Prop} (hnil : P [])
    (hstep : ∀ s, s ≠ [] → P (s.take (s.length - (DecodeLastRuneInString s).2)) → P s)
    (s : GoString) : P s := by
  have key : ∀ n, ∀ s : GoString, s.length ≤ n → P s := by
    intro n
    induction n with
    | zero =>
      intro s hs
      have : s = [] := List.eq_nil_of_length_eq_zero (by omega)
      subst this
      exact hnil
    | succ n ih =>
      intro s hs
      by_cases hne : s = []
      · subst hne; exact hnil
      · have hw := DecodeLast_width s hne
        apply hstep s hne
        apply ih
        rw [List.length_take]
        omega
  exact key s.length s (le_refl _)

/-- The bytes of the first sequence of a string whose first rune is not
`RuneError` are the encoding of that rune. -/
theorem take_eq_AppendRune (b0 : Nat) (t : GoString)
    (h : (DecodeRuneInString (b0 :: t)).1 ≠ RuneError) :
    (b0 :: t).take (DecodeRuneInString (b0 :: t)).2 =
      AppendRune (DecodeRuneInString (b0 :: t)).1 := by
  symm
  apply AppendRune_Decode _ (by simp)
  intro e
  rw [e] at h
  exact h rfl

/-- What `strings.TrimLeftFunc` takes off, for a predicate that rejects
`RuneError`: the encoding of runes of which `f` holds; the first rune of what
is left is one of which `f` does not hold. -/
theorem TrimLeftFunc_spec (s : GoString) (f : Int → Bool) (hf : f RuneError = false) :
    ∃ A : List Int, (∀ r ∈ A, f r = true) ∧
      s = encodeRunes A ++ strings.TrimLeftFunc s f ∧
      runes s = A ++ runes (strings.TrimLeftFunc s f) ∧
      (∀ r, (runes (strings.TrimLeftFunc s f)).head? = some r → f r = false) := by
  induction s using decode_induction with
  | hnil =>
    exact ⟨[], fun r h => absurd h (List.not_mem_nil _), rfl, rfl,
      fun r h => absurd h (by simp [TrimLeftFunc_nil, runes_nil])⟩
  | hcons b0 t ih =>
    rw [TrimLeftFunc_cons]
    by_cases h : f (DecodeRuneInString (b0 :: t)).1 = true
    · rw [if_pos h]
      obtain ⟨A, hA, hs, hr, hh⟩ := ih
      have hne : (DecodeRuneInString (b0 :: t)).1 ≠ RuneError := by
        intro e; rw [e, hf] at h; exact absurd h (by simp)
      refine ⟨(DecodeRuneInString (b0 :: t)).1 :: A, ?_, ?_, ?_, hh⟩
      · intro r hr'
        rcases List.mem_cons.mp hr' with rfl | hr'
        · exact h
        · exact hA r hr'
      · rw [encodeRunes_cons, ← take_eq_AppendRune b0 t hne, List.append_assoc, ← hs,
          List.take_append_drop]
      · rw [runes_cons, hr]; rfl
    · rw [if_neg h]
      refine ⟨[], fun r h => absurd h (List.not_mem_nil _), rfl, rfl, ?_⟩
      intro r hr
      rw [runes_cons] at hr
      simp only [List.head?_cons, Option.some.injEq] at hr
      rw [← hr]
      simpa using h

/-- What `strings.TrimRightFunc` takes off, for a predicate that rejects
`RuneError`: the encoding of runes of which `f` holds; the last rune of what is
left is one of which `f` does not hold. -/
theorem TrimRightFunc_spec (s : GoString) (f : Int → Bool) (hf : f RuneError = false) :
    ∃ B : List Int, (∀ r ∈ B, f r = true) ∧
      s = strings.TrimRightFunc s f ++ encodeRunes B ∧
      runes s = runes (strings.TrimRightFunc s f) ++ B ∧
      (∀ r, (runes (strings.TrimRightFunc s f)).getLast? = some r → f r = false) := by
  induction s using decodeLast_induction with
  | hnil =>
    exact ⟨[], fun r h => absurd h (List.not_mem_nil _), by simp [TrimRightFunc_nil, encodeRunes],
      by simp [TrimRightFunc_nil], fun r h => absurd h (by simp [TrimRightFunc_nil, runes_nil])⟩
  | hstep s hs ih =>
    have hw := DecodeLast_width s hs
    have hL := runes_DecodeLast s hs
    have hD := Decode_drop_DecodeLast s hs
    rw [TrimRightFunc_step s hs f hf]
    by_cases h : f (DecodeLastRuneInString s).1 = true
    · rw [if_pos h]
      obtain ⟨B, hB, hsB, hr, hh⟩ := ih
      have hne : (DecodeLastRuneInString s).1 ≠ RuneError := by
        intro e; rw [e, hf] at h; exact absurd h (by simp)
      have hdne : s.drop (s.length - (DecodeLastRuneInString s).2) ≠ [] := by
        intro e
        have := congrArg List.length e
        simp only [List.length_drop, List.length_nil] at this
        omega
      obtain ⟨b, q, hbq⟩ := List.exists_cons_of_ne_nil hdne
      have henc : s.drop (s.length - (DecodeLastRuneInString s).2) =
          AppendRune (DecodeLastRuneInString s).1 := by
        have := take_eq_AppendRune b q (by rw [← hbq, hD]; exact hne)
        rw [← hbq, hD] at this
        rw [← this, List.take_of_length_le]
        rw [List.length_drop]
        omega
      refine ⟨B ++ [(DecodeLastRuneInString s).1], ?_, ?_, ?_, hh⟩
      · intro r hr'
        rcases List.mem_append.mp hr' with hr' | hr'
        · exact hB r hr'
        · rw [List.mem_singleton.mp hr']; exact h
      · rw [encodeRunes_append, ← List.append_assoc, ← hsB]
        have : encodeRunes [(DecodeLastRuneInString s).1] =
            AppendRune (DecodeLastRuneInString s).1 := by simp [encodeRunes]
        rw [this, ← henc, List.take_append_drop]
      · rw [hL, hr, List.append_assoc]
    · rw [if_neg h]
      refine ⟨[], fun r h => absurd h (List.not_mem_nil _), by simp [encodeRunes], by simp, ?_⟩
      intro r hr
      rw [hL, List.getLast?_append] at hr
      simp only [List.getLast?_singleton, Option.or, Option.some.injEq] at hr
      rw [← hr]
      simpa using h

/-! ## What `strings.TrimSpace` returns -/

theorem IsSpace_RuneError : unicode.IsSpace RuneError = false := by decide

theorem asciiSpace_eq_IsSpace (c : Nat) (h : c < 0x80) :
    strings.asciiSpace c = unicode.IsSpace (c : Int) := by
  by_cases hs : unicode.IsSpace (c : Int) = true
  · rw [hs, asciiSpace_of_IsSpace c h hs]
  · rw [Bool.not_eq_true] at hs
    rw [hs]
    rw [IsSpace_eq_false_iff, mem_spaces_iff] at hs
    unfold strings.asciiSpace
    simp only [Bool.decide_or, Bool.or_eq_false_iff, decide_eq_false_iff_not]
    omega

theorem DecodeLast_ascii (t : GoString) (c : Nat) (h : c < 0x80) :
    DecodeLastRuneInString (t ++ [c]) = ((c : Int), 1) := by
  rw [DecodeLast_eq _ (by simp)]
  have : (t ++ [c]).getD ((t ++ [c]).length - 1) 0 = c := by
    simp [List.getD_eq_getElem?_getD]
  rw [this, if_pos h]

/-- The second loop of `strings.TrimSpace` does what `TrimRightFunc` does with
`unicode.IsSpace`. -/
theorem trimSpaceStop_eq (rev : List Nat) :
    strings.trimSpaceStop rev = strings.TrimRightFunc rev.reverse unicode.IsSpace := by
  induction rev with
  | nil => rw [strings.trimSpaceStop, List.reverse_nil, TrimRightFunc_nil]
  | cons c rev ih =>
    rw [strings.trimSpaceStop]
    by_cases h1 : c ≥ RuneSelf
    · rw [if_pos h1]
    · rw [if_neg h1]
      have hc : c < 0x80 := by unfold RuneSelf at h1; omega
      have hne : (c :: rev).reverse ≠ [] := by simp
      have hlast : DecodeLastRuneInString (c :: rev).reverse = ((c : Int), 1) := by
        rw [List.reverse_cons]; exact DecodeLast_ascii _ c hc
      rw [TrimRightFunc_step _ hne _ IsSpace_RuneError, hlast]
      simp only
      rw [asciiSpace_eq_IsSpace c hc]
      by_cases h2 : unicode.IsSpace (c : Int) = true
      · rw [if_neg (by simp [h2]), if_pos h2, ih]
        congr 1
        rw [List.reverse_cons, List.length_append, List.length_singleton, Nat.add_sub_cancel,
          List.take_left']
        rfl
      · rw [if_pos (by simpa using h2), if_neg h2]

/-- The function `strings.TrimSpace` is `strings.TrimFunc` with
`unicode.IsSpace`: its two loops over ASCII white space are short cuts. -/
theorem TrimSpace_eq_TrimFunc (s : GoString) :
    strings.TrimSpace s = strings.TrimFunc s unicode.IsSpace := by
  induction s with
  | nil =>
    unfold strings.TrimFunc
    rw [TrimLeftFunc_nil, TrimRightFunc_nil]
    rfl
  | cons c rest ih =>
    rw [strings.TrimSpace]
    by_cases h1 : c ≥ RuneSelf
    · rw [if_pos h1]
    · rw [if_neg h1]
      have hc : c < 0x80 := by unfold RuneSelf at h1; omega
      unfold strings.TrimFunc
      rw [TrimLeftFunc_cons, Decode_ascii c rest hc, asciiSpace_eq_IsSpace c hc]
      simp only [List.drop_succ_cons, List.drop_zero]
      by_cases h2 : unicode.IsSpace (c : Int) = true
      · rw [if_neg (by simp [h2]), if_pos h2, ih]
        rfl
      · rw [if_pos (by simpa using h2), if_neg h2, trimSpaceStop_eq, List.reverse_reverse]

/-- What `strings.TrimSpace` takes off a string: white space in front and white
space behind, each the encoding of its runes; what is left neither begins nor
ends with a white-space rune. -/
theorem TrimSpace_spec (s : GoString) :
    ∃ A B : List Int, (∀ r ∈ A, unicode.IsSpace r = true) ∧ (∀ r ∈ B, unicode.IsSpace r = true) ∧
      s = encodeRunes A ++ strings.TrimSpace s ++ encodeRunes B ∧
      runes s = A ++ runes (strings.TrimSpace s) ++ B ∧
      (∀ r, (runes (strings.TrimSpace s)).head? = some r → unicode.IsSpace r = false) ∧
      (∀ r, (runes (strings.TrimSpace s)).getLast? = some r → unicode.IsSpace r = false) := by
  rw [TrimSpace_eq_TrimFunc]
  unfold strings.TrimFunc
  obtain ⟨A, hA, hs, hr, hh⟩ := TrimLeftFunc_spec s unicode.IsSpace IsSpace_RuneError
  obtain ⟨B, hB, hs', hr', hl⟩ :=
    TrimRightFunc_spec (strings.TrimLeftFunc s unicode.IsSpace) unicode.IsSpace IsSpace_RuneError
  refine ⟨A, B, hA, hB, ?_, ?_, ?_, hl⟩
  · rw [List.append_assoc, ← hs', ← hs]
  · rw [List.append_assoc, ← hr', ← hr]
  · intro r hr0
    -- the first rune of what is left is the first rune after the left trim
    rcases hR : runes (strings.TrimRightFunc (strings.TrimLeftFunc s unicode.IsSpace)
        unicode.IsSpace) with _ | ⟨r0, R⟩
    · rw [hR] at hr0; exact absurd hr0 (by simp)
    · rw [hR] at hr0 hr'
      simp only [List.head?_cons, Option.some.injEq] at hr0
      subst hr0
      apply hh
      rw [hr']
      rfl

/-- Decoding from the end inverts encoding: a string that ends with the encoding
of a valid rune has that rune as its last rune, with the length of the encoding
as its width. -/
theorem DecodeLast_AppendRune (y : GoString) (r : Int) (hr : ValidRune r = true) :
    DecodeLastRuneInString (y ++ AppendRune r) = (r, (AppendRune r).length) := by
  have hD := Decode_AppendRune r [] hr
  rw [List.append_nil] at hD
  obtain ⟨e0, q, he⟩ := List.exists_cons_of_ne_nil (AppendRune_ne_nil r)
  have hlen : (AppendRune r).length = q.length + 1 := by rw [he]; rfl
  have hw4 := Decode_width_le_four e0 q
  rw [← he, hD] at hw4
  simp only at hw4
  by_cases hq : q = []
  · -- one byte: it is ASCII
    have h1 : (AppendRune r).length = 1 := by rw [hlen, hq]; rfl
    have ha : e0 < 0x80 := by
      by_contra hc
      have := Decode_single_high e0 (by omega)
      rw [hq] at he
      rw [he, this] at hD
      simp only [Prod.mk.injEq] at hD
      rw [ValidRune_iff] at hr
      rw [AppendRune_three (by rw [← hD.1]; unfold RuneError; omega)
        (by rw [← hD.1]; unfold RuneError; omega)] at he
      exact absurd (congrArg List.length he) (by simp)
    rw [he, hq] at hD ⊢
    rw [Decode_ascii e0 [] ha] at hD
    simp only [Prod.mk.injEq] at hD
    rw [DecodeLast_ascii y e0 ha, hD.1]
    rfl
  · have hL2 : 2 ≤ (AppendRune r).length := by
      rw [hlen]
      have := List.length_pos.mpr hq
      omega
    have hne : y ++ AppendRune r ≠ [] := by simp [AppendRune_ne_nil]
    have hn : (y ++ AppendRune r).length = y.length + (AppendRune r).length :=
      List.length_append _ _
    have hget : ∀ j, j < (AppendRune r).length →
        (y ++ AppendRune r).getD (y.length + j) 0 = (AppendRune r).getD j 0 := by
      intro j hj
      simp only [List.getD_eq_getElem?_getD]
      rw [List.getElem?_append_right (by omega)]
      congr 2
      omega
    have hcont : ∀ j, 1 ≤ j → j < (AppendRune r).length →
        RuneStart ((AppendRune r).getD j 0) = false := by
      intro j h1 h2
      rw [he]
      apply Decode_tail_cont e0 q j h1
      rw [← he, hD]
      exact h2
    have hstart : RuneStart e0 = true := by
      apply RuneStart_of_valid e0 q
      rw [← he, hD]
      intro e
      simp only [Prod.mk.injEq] at e
      omega
    have hscan : scanBack (y ++ AppendRune r) ((y ++ AppendRune r).length - 4)
        ((y ++ AppendRune r).length - 1) = y.length := by
      apply scanBack_unique
      · omega
      · exact Or.inl (by omega)
      · intro j hj hj'
        have : j = y.length + (j - y.length) := by omega
        rw [this, hget _ (by omega)]
        exact hcont _ (by omega) (by omega)
      · left
        have := hget 0 (by omega)
        rw [Nat.add_zero] at this
        rw [this, he]
        exact hstart
    rw [DecodeLast_eq _ hne]
    have hlastb : RuneStart ((y ++ AppendRune r).getD ((y ++ AppendRune r).length - 1) 0)
        = false := by
      have : (y ++ AppendRune r).length - 1 = y.length + ((AppendRune r).length - 1) := by omega
      rw [this, hget _ (by omega)]
      exact hcont _ (by omega) (by omega)
    rw [RuneStart_eq_false_iff] at hlastb
    rw [if_neg (by omega), hscan, List.drop_left, hD]
    simp only
    rw [if_neg (by simp [hn])]

/-- The first byte of an encoded rune is a start byte. -/
theorem AppendRune_head_start (r : Int) (b : Nat) (q : GoString) (h : AppendRune r = b :: q) :
    ¬ (0x80 ≤ b ∧ b ≤ 0xBF) := by
  by_cases hv : r < 0 ∨ 0x10FFFF < r ∨ (0xD800 ≤ r ∧ r ≤ 0xDFFF)
  · rw [AppendRune_invalid hv] at h
    simp only [List.cons.injEq] at h
    omega
  · have hr : ValidRune r = true := by rw [ValidRune_iff]; omega
    have hD := Decode_AppendRune r [] hr
    rw [List.append_nil, h] at hD
    rw [← RuneStart_iff]
    by_cases h1 : q = []
    · subst h1
      by_contra hc
      rw [Bool.not_eq_true, RuneStart_eq_false_iff] at hc
      have := Decode_single_high b hc.1
      rw [this] at hD
      simp only [Prod.mk.injEq] at hD
      rw [ValidRune_iff] at hr
      rw [AppendRune_three (by rw [← hD.1]; unfold RuneError; omega)
        (by rw [← hD.1]; unfold RuneError; omega)] at h
      exact absurd (congrArg List.length h) (by simp)
    · apply RuneStart_of_valid b q
      rw [hD]
      intro e
      simp only [Prod.mk.injEq] at e
      have := List.length_pos.mpr h1
      simp only [List.length_cons] at e
      omega

/-- The runes of a string followed by the encoding of valid runes. -/
theorem runes_append_encodeRunes (a : GoString) (rs : List Int)
    (h : ∀ r ∈ rs, ValidRune r = true) : runes (a ++ encodeRunes rs) = runes a ++ rs := by
  rcases rs with _ | ⟨r, rs⟩
  · simp [encodeRunes]
  · obtain ⟨b, q, he⟩ := List.exists_cons_of_ne_nil (AppendRune_ne_nil r)
    have hb := AppendRune_head_start r b q he
    rw [encodeRunes_cons, he, List.cons_append, runes_append_start a b _ hb, ← List.cons_append,
      ← he, ← encodeRunes_cons, runes_encodeRunes _ h]

theorem ValidRune_of_IsSpace (r : Int) (h : unicode.IsSpace r = true) : ValidRune r = true := by
  rw [IsSpace_iff, mem_spaces_iff] at h
  rw [ValidRune_iff]
  omega

/-- Leading runes of which `f` holds, encoded, are dropped by `TrimLeftFunc`. -/
theorem TrimLeftFunc_encodeRunes_append (A : List Int) (x : GoString) (f : Int → Bool)
    (hA : ∀ r ∈ A, f r = true) (hv : ∀ r ∈ A, ValidRune r = true) :
    strings.TrimLeftFunc (encodeRunes A ++ x) f = strings.TrimLeftFunc x f := by
  induction A with
  | nil => rfl
  | cons r A ih =>
    have hD := Decode_AppendRune r (encodeRunes A ++ x) (hv r (List.mem_cons_self _ _))
    rw [encodeRunes_cons, List.append_assoc]
    obtain ⟨b, q, he⟩ := List.exists_cons_of_ne_nil (AppendRune_ne_nil r)
    have hform : AppendRune r ++ (encodeRunes A ++ x) = b :: (q ++ (encodeRunes A ++ x)) := by
      rw [he]; rfl
    rw [hform, TrimLeftFunc_cons, ← hform, hD]
    simp only
    rw [if_pos (hA r (List.mem_cons_self _ _)), List.drop_left]
    exact ih (fun r' h' => hA r' (List.mem_cons_of_mem _ h'))
      (fun r' h' => hv r' (List.mem_cons_of_mem _ h'))

/-- Trailing runes of which `f` holds, encoded, are dropped by `TrimRightFunc`. -/
theorem TrimRightFunc_append_encodeRunes (y : GoString) (B : List Int) (f : Int → Bool)
    (hf : f RuneError = false) (hB : ∀ r ∈ B, f r = true) (hv : ∀ r ∈ B, ValidRune r = true) :
    strings.TrimRightFunc (y ++ encodeRunes B) f = strings.TrimRightFunc y f := by
  induction B using List.reverseRecOn with
  | nil => simp [encodeRunes]
  | append_singleton B r ih =>
    have hr := hv r (by simp)
    have hD := DecodeLast_AppendRune (y ++ encodeRunes B) r hr
    have e : y ++ encodeRunes (B ++ [r]) = (y ++ encodeRunes B) ++ AppendRune r := by
      rw [encodeRunes_append, ← List.append_assoc]
      simp [encodeRunes]
    rw [e, TrimRightFunc_step _ (by simp [AppendRune_ne_nil]) f hf, hD]
    simp only
    rw [if_pos (hB r (by simp)), List.length_append, Nat.add_sub_cancel, List.take_left']
    · exact ih (fun r' h' => hB r' (by simp [h'])) (fun r' h' => hv r' (by simp [h']))
    · rfl

/-- A string whose last rune is not one of which `f` holds is left as it is by
`TrimRightFunc`. -/
theorem TrimRightFunc_of_last (m : GoString) (f : Int → Bool) (hf : f RuneError = false)
    (hl : ∀ r, (runes m).getLast? = some r → f r = false) : strings.TrimRightFunc m f = m := by
  by_cases hm : m = []
  · subst hm; exact TrimRightFunc_nil f
  · rw [TrimRightFunc_step m hm f hf]
    have := hl (DecodeLastRuneInString m).1 (by
      rw [runes_DecodeLast m hm, List.getLast?_append]; simp)
    rw [if_neg (by simp [this])]

/-- The function `strings.TrimSpace` returns the middle part of a string that is
white space, a part that neither begins nor ends with a white-space rune, and
white space again. -/
theorem TrimSpace_of_parts (A B : List Int) (m : GoString)
    (hA : ∀ r ∈ A, unicode.IsSpace r = true) (hB : ∀ r ∈ B, unicode.IsSpace r = true)
    (hh : ∀ r, (runes m).head? = some r → unicode.IsSpace r = false)
    (hl : ∀ r, (runes m).getLast? = some r → unicode.IsSpace r = false) :
    strings.TrimSpace (encodeRunes A ++ m ++ encodeRunes B) = m := by
  have hvA : ∀ r ∈ A, ValidRune r = true := fun r h => ValidRune_of_IsSpace r (hA r h)
  have hvB : ∀ r ∈ B, ValidRune r = true := fun r h => ValidRune_of_IsSpace r (hB r h)
  rw [TrimSpace_eq_TrimFunc]
  unfold strings.TrimFunc
  rw [List.append_assoc, TrimLeftFunc_encodeRunes_append A _ _ hA hvA]
  rcases m with _ | ⟨b0, t⟩
  · rw [List.nil_append, TrimLeftFunc_all _ _ (by rw [runes_encodeRunes B hvB]; exact hB),
      TrimRightFunc_nil]
  · have hr := runes_append_encodeRunes (b0 :: t) B hvB
    have hfirst : unicode.IsSpace (DecodeRuneInString (b0 :: t ++ encodeRunes B)).1 = false := by
      apply hh
      have : (runes (b0 :: t ++ encodeRunes B)).head? = (runes (b0 :: t)).head? := by
        rw [hr, runes_cons]; rfl
      rw [← this, List.cons_append, runes_cons]
      rfl
    rw [List.cons_append, TrimLeftFunc_cons,
      if_neg (by rw [← List.cons_append, hfirst]; simp),
      ← List.cons_append, TrimRightFunc_append_encodeRunes _ B _ IsSpace_RuneError hB hvB]
    exact TrimRightFunc_of_last _ _ IsSpace_RuneError hl

/-- A white-space-only string is the encoding of its runes. -/
theorem whitespace_eq_encodeRunes (w : GoString) (h : isWhitespaceOnly w = true) :
    w = encodeRunes (runes w) := by
  obtain ⟨A, B, hA, hB, hs, hr, _, _⟩ := TrimSpace_spec w
  rw [TrimSpace_whitespace w h] at hs hr
  rw [runes_nil] at hr
  rw [hr]
  simp only [List.append_nil] at hs ⊢
  rw [encodeRunes_append]
  exact hs

theorem dropWhile_append_of_all {p : Int → Bool} (A T : List Int) (hA : ∀ r ∈ A, p r = true) :
    (A ++ T).dropWhile p = T.dropWhile p := by
  induction A with
  | nil => rfl
  | cons a A ih =>
    rw [List.cons_append, List.dropWhile_cons, if_pos (hA a (List.mem_cons_self _ _))]
    exact ih (fun r h => hA r (List.mem_cons_of_mem _ h))

theorem dropWhile_of_head {p : Int → Bool} (T : List Int)
    (h : ∀ r, T.head? = some r → p r = false) : T.dropWhile p = T := by
  rcases T with _ | ⟨a, T⟩
  · rfl
  · rw [List.dropWhile_cons, if_neg (by rw [h a rfl]; simp)]

/-- The runes of a trimmed string are the runes of the string without the
white space in front and behind. -/
theorem runes_TrimSpace (s : GoString) :
    runes (strings.TrimSpace s) =
      (((runes s).dropWhile unicode.IsSpace).reverse.dropWhile unicode.IsSpace).reverse := by
  obtain ⟨A, B, hA, hB, _, hr, hh, hl⟩ := TrimSpace_spec s
  rw [hr, List.append_assoc, dropWhile_append_of_all A _ hA]
  by_cases hT : runes (strings.TrimSpace s) = []
  · rw [hT, List.nil_append]
    have e1 : B.dropWhile unicode.IsSpace = [] := by
      have := dropWhile_append_of_all B [] hB
      rw [List.append_nil] at this
      rw [this]; rfl
    rw [e1]; rfl
  · have e1 : (runes (strings.TrimSpace s) ++ B).dropWhile unicode.IsSpace =
        runes (strings.TrimSpace s) ++ B := by
      apply dropWhile_of_head
      intro r hr0
      apply hh
      rcases hR : runes (strings.TrimSpace s) with _ | ⟨r0, R⟩
      · exact absurd hR hT
      · rw [hR] at hr0; exact hr0
    rw [e1, List.reverse_append,
      dropWhile_append_of_all B.reverse _ (fun r h => hB r (List.mem_reverse.mp h)),
      dropWhile_of_head _ (by
        intro r hr0
        rw [List.head?_reverse] at hr0
        exact hl r hr0),
      List.reverse_reverse]

/-- Trimming gives the empty string exactly for the white-space-only strings. -/
theorem TrimSpace_eq_nil_iff (s : GoString) :
    strings.TrimSpace s = [] ↔ isWhitespaceOnly s = true := by
  constructor
  · intro h
    obtain ⟨A, B, hA, hB, _, hr, _, _⟩ := TrimSpace_spec s
    rw [h, runes_nil] at hr
    unfold isWhitespaceOnly
    rw [hr, List.all_eq_true]
    intro r hr'
    simp only [List.append_nil, List.mem_append] at hr'
    rcases hr' with h' | h'
    · exact hA r h'
    · exact hB r h'
  · exact TrimSpace_whitespace s

/-! ## The greeting -/

/-- The name `greet` puts into the message: the trimmed name, or `"stranger"`
when nothing is left of it. -/
theorem greet_unfold (name : GoString) (shout : Bool) :
    greet name shout =
      if shout then
        strings.ToUpper (lit "Hello, " ++
          (if strings.TrimSpace name = [] then lit "stranger" else strings.TrimSpace name) ++
          lit "! Welcome to Go ðŸŽ‰")
      else
        lit "Hello, " ++
          (if strings.TrimSpace name = [] then lit "stranger" else strings.TrimSpace name) ++
          lit "! Welcome to Go ðŸŽ‰" := by
  unfold greet
  cases shout <;> simp

/-- Without `shout`, the greeting of a name that trimming does not empty is the
template around the trimmed name, with the suffix that the source file has. -/
theorem greet_plain (s : GoString) (h : strings.TrimSpace s ≠ []) :
    greet s false = lit "Hello, " ++ strings.TrimSpace s ++ lit "! Welcome to Go ðŸŽ‰" := by
  rw [greet_unfold]
  simp [h]

/-- Without `shout`, the greeting of a white-space-only name is the greeting of
`"stranger"`, with the suffix that the source file has. -/
theorem greet_whitespace (s : GoString) (h : isWhitespaceOnly s = true) :
    greet s false = lit "Hello, stranger! Welcome to Go ðŸŽ‰" := by
  rw [greet_unfold, TrimSpace_whitespace s h]
  decide

/-- The greeting of a white-space-only name is the greeting of the empty name. -/
theorem greet_whitespace_eq (s : GoString) (shout : Bool) (h : isWhitespaceOnly s = true) :
    greet s shout = greet [] shout := by
  rw [greet_unfold, greet_unfold, TrimSpace_whitespace s h]
  rfl

/-- With `shout`, the greeting is the upper-cased greeting without `shout`. -/
theorem greet_shout (s : GoString) : greet s true = strings.ToUpper (greet s false) := by
  rw [greet_unfold, greet_unfold]
  rfl

set_option maxRecDepth 100000 in
/-- The message without `shout` ends with the suffix of the template, and the
message with `shout` with that suffix upper-cased. -/
theorem upper_suffix :
    lit "! Welcome to Go ðŸŽ‰" = 0x21 :: lit " Welcome to Go ðŸŽ‰" ∧
      strings.ToUpper (lit "! Welcome to Go ðŸŽ‰") = lit "! WELCOME TO GO ÐŸŽ‰" ∧
      (lit "! WELCOME TO GO ÐŸŽ‰").getLast? = some 0xB0 ∧
      (lit "! Welcome to Go ðŸŽ‰").getLast? = some 0xB0 := by
  decide

/-- Upper-casing a string that continues with `!`: the part before it and the
part from it on are upper-cased separately. -/
theorem ToUpper_append_bang (a S : GoString) :
    strings.ToUpper (a ++ 0x21 :: S) = strings.ToUpper a ++ strings.ToUpper (0x21 :: S) := by
  rw [ToUpper_eq, ToUpper_eq a, ToUpper_eq (0x21 :: S),
    runes_append_start a 0x21 S (by omega), List.map_append, encodeRunes_append]

/-- The greeting ends with the suffix of the template, upper-cased when `shout`
is set. -/
theorem greet_suffix (name : GoString) (shout : Bool) :
    (if shout then lit "! WELCOME TO GO ÐŸŽ‰" else lit "! Welcome to Go ðŸŽ‰") <:+
      greet name shout := by
  rw [greet_unfold]
  cases shout
  · simp only [Bool.false_eq_true, if_false]
    exact List.suffix_append _ _
  · simp only [if_true]
    rw [upper_suffix.1, ToUpper_append_bang, ← upper_suffix.1, upper_suffix.2.1]
    exact List.suffix_append _ _

/-- Upper-casing keeps an upper-case ASCII letter at the front of a string
where it is. -/
theorem ToUpper_cons_H (y : GoString) :
    strings.ToUpper (0x48 :: y) = 0x48 :: strings.ToUpper y := by
  rw [ToUpper_eq, ToUpper_eq, runes_cons, Decode_ascii 0x48 y (by decide), List.map_cons,
    encodeRunes_cons]
  have h := AppendRune_ToUpper_ascii 0x48 (by decide)
  simp only [Nat.cast_ofNat] at h
  show AppendRune (unicode.ToUpper 72) ++ _ = _
  rw [h]
  rfl

/-- Every greeting begins with the byte `H`. -/
theorem greet_head (name : GoString) (shout : Bool) :
    ∃ rest, greet name shout = 0x48 :: rest := by
  have hH : lit "Hello, " = 0x48 :: lit "ello, " := by decide
  rw [greet_unfold, hH]
  cases shout
  · simp only [Bool.false_eq_true, if_false, List.cons_append]
    exact ⟨_, rfl⟩
  · simp only [if_true, List.cons_append]
    exact ⟨_, ToUpper_cons_H _⟩

/-- White space put before and after a string does not change what trimming
returns. -/
theorem TrimSpace_append_whitespace (s w1 w2 : GoString)
    (h1 : isWhitespaceOnly w1 = true) (h2 : isWhitespaceOnly w2 = true) :
    strings.TrimSpace (w1 ++ s ++ w2) = strings.TrimSpace s := by
  obtain ⟨A, B, hA, hB, hs, _, hh, hl⟩ := TrimSpace_spec s
  have e1 := whitespace_eq_encodeRunes w1 h1
  have e2 := whitespace_eq_encodeRunes w2 h2
  unfold isWhitespaceOnly at h1 h2
  rw [List.all_eq_true] at h1 h2
  have key : w1 ++ s ++ w2 =
      encodeRunes (runes w1 ++ A) ++ strings.TrimSpace s ++ encodeRunes (B ++ runes w2) := by
    rw [encodeRunes_append, encodeRunes_append, ← e1, ← e2]
    nth_rewrite 1 [hs]
    simp only [List.append_assoc]
  rw [key]
  apply TrimSpace_of_parts _ _ _ _ _ hh hl
  · intro r hr
    rcases List.mem_append.mp hr with h | h
    · exact h1 r h
    · exact hA r h
  · intro r hr
    rcases List.mem_append.mp hr with h | h
    · exact hB r h
    · exact h2 r h

/-- Trimming a trimmed string changes nothing. -/
theorem TrimSpace_idem (s : GoString) :
    strings.TrimSpace (strings.TrimSpace s) = strings.TrimSpace s := by
  obtain ⟨_, _, _, _, _, _, hh, hl⟩ := TrimSpace_spec s
  have h := TrimSpace_of_parts [] [] (strings.TrimSpace s)
    (fun r h => absurd h (List.not_mem_nil _)) (fun r h => absurd h (List.not_mem_nil _)) hh hl
  rw [encodeRunes_nil, List.nil_append, List.append_nil] at h
  exact h

/-- The runes of a string that begins with ASCII bytes: those bytes, then the
runes of the rest. -/
theorem runes_ascii_append (a x : GoString) (h : ∀ c ∈ a, c < 0x80) :
    runes (a ++ x) = runes a ++ runes x := by
  induction a with
  | nil => rw [runes_nil]; rfl
  | cons c a ih =>
    have hc : c < 0x80 := h c (List.mem_cons_self _ _)
    rw [List.cons_append, runes_cons, runes_cons c a, Decode_ascii c (a ++ x) hc,
      Decode_ascii c a hc]
    show _ :: runes (a ++ x) = (_ :: runes a) ++ runes x
    rw [ih (fun d hd => h d (List.mem_cons_of_mem _ hd))]
    rfl

/-- Upper-casing a string that begins with ASCII bytes: that beginning and the
rest are upper-cased separately. -/
theorem ToUpper_ascii_append (a x : GoString) (h : ∀ c ∈ a, c < 0x80) :
    strings.ToUpper (a ++ x) = strings.ToUpper a ++ strings.ToUpper x := by
  rw [ToUpper_eq, ToUpper_eq a, ToUpper_eq x, runes_ascii_append a x h, List.map_append,
    encodeRunes_append]

/-- Upper-casing leaves a white-space rune alone. -/
theorem ToUpper_of_IsSpace (r : Int) (h : unicode.IsSpace r = true) : unicode.ToUpper r = r := by
  by_contra hne
  have := (ToUpper_moved r hne).1
  rw [h] at this
  exact absurd this (by decide)

/-- Upper-casing a list of white-space runes changes nothing. -/
theorem map_ToUpper_of_IsSpace (A : List Int) (h : ∀ r ∈ A, unicode.IsSpace r = true) :
    A.map unicode.ToUpper = A := by
  induction A with
  | nil => rfl
  | cons a A ih =>
    rw [List.map_cons, ToUpper_of_IsSpace a (h a (List.mem_cons_self _ _)),
      ih (fun r hr => h r (List.mem_cons_of_mem _ hr))]

/-- Only the empty string is upper-cased to the empty string. -/
theorem ToUpper_eq_nil_iff (s : GoString) : strings.ToUpper s = [] ↔ s = [] := by
  constructor
  · intro h
    rcases s with _ | ⟨b0, t⟩
    · rfl
    · rw [ToUpper_eq, runes_cons, List.map_cons, encodeRunes_cons] at h
      exact absurd (List.append_eq_nil.mp h).1 (AppendRune_ne_nil _)
  · intro h
    rw [h, ToUpper_eq, runes_nil]
    rfl

/-- Trimming commutes with upper-casing. -/
theorem TrimSpace_ToUpper (s : GoString) :
    strings.TrimSpace (strings.ToUpper s) = strings.ToUpper (strings.TrimSpace s) := by
  obtain ⟨A, B, hA, hB, _, hr, hh, hl⟩ := TrimSpace_spec s
  have key : strings.ToUpper s =
      encodeRunes A ++ strings.ToUpper (strings.TrimSpace s) ++ encodeRunes B := by
    rw [ToUpper_eq s, hr, List.map_append, List.map_append, encodeRunes_append,
      encodeRunes_append, map_ToUpper_of_IsSpace A hA, map_ToUpper_of_IsSpace B hB,
      ← ToUpper_eq]
  rw [key]
  apply TrimSpace_of_parts A B _ hA hB
  · intro r h
    rw [runes_ToUpper, List.head?_map] at h
    rcases h0 : (runes (strings.TrimSpace s)).head? with _ | r0
    · rw [h0] at h; exact absurd h (by simp)
    · rw [h0] at h
      simp only [Option.map_some', Option.some.injEq] at h
      rw [← h, IsSpace_ToUpper]
      exact hh r0 h0
  · intro r h
    rw [runes_ToUpper, List.getLast?_map] at h
    rcases h0 : (runes (strings.TrimSpace s)).getLast? with _ | r0
    · rw [h0] at h; exact absurd h (by simp)
    · rw [h0] at h
      simp only [Option.map_some', Option.some.injEq] at h
      rw [← h, IsSpace_ToUpper]
      exact hl r0 h0

/-- Upper-casing distributes over the concatenation of the template with a
name. -/
theorem ToUpper_template (n : GoString) :
    strings.ToUpper (lit "Hello, " ++ n ++ lit "! Welcome to Go ðŸŽ‰") =
      strings.ToUpper (lit "Hello, ") ++ strings.ToUpper n ++
        strings.ToUpper (lit "! Welcome to Go ðŸŽ‰") := by
  rw [upper_suffix.1, ToUpper_append_bang, ToUpper_ascii_append _ _ (by decide)]

/-- An ASCII byte occurs in the encoding of a rune only as the encoding of
itself. -/
theorem mem_AppendRune_ascii (r : Int) (c : Nat) (hc : c < 0x80) (h : c ∈ AppendRune r) :
    r = (c : Int) := by
  by_cases h1 : 0 ≤ r ∧ r ≤ 0x7F
  · rw [AppendRune_one h1, List.mem_singleton] at h
    omega
  by_cases h2 : 0x80 ≤ r ∧ r ≤ 0x7FF
  · rw [AppendRune_two h2] at h
    simp only [List.mem_cons, List.mem_nil_iff, or_false] at h
    omega
  by_cases h4 : 0x10000 ≤ r ∧ r ≤ 0x10FFFF
  · rw [AppendRune_four h4] at h
    simp only [List.mem_cons, List.mem_nil_iff, or_false] at h
    omega
  by_cases hs : 0xD800 ≤ r ∧ r ≤ 0xDFFF
  · rw [AppendRune_invalid (Or.inr (Or.inr hs))] at h
    simp only [List.mem_cons, List.mem_nil_iff, or_false] at h
    omega
  by_cases h3 : 0x800 ≤ r ∧ r ≤ 0xFFFF
  · rw [AppendRune_three h3 hs] at h
    simp only [List.mem_cons, List.mem_nil_iff, or_false] at h
    omega
  · rw [AppendRune_invalid (by omega)] at h
    simp only [List.mem_cons, List.mem_nil_iff, or_false] at h
    omega

/-- An ASCII rune of a string is a byte of the string. -/
theorem mem_of_mem_runes_ascii (c : Nat) (hc : c < 0x80) (s : GoString) :
    (c : Int) ∈ runes s → c ∈ s := by
  induction s using decode_induction with
  | hnil => intro h; rw [runes_nil] at h; exact absurd h (List.not_mem_nil _)
  | hcons b0 t ih =>
    intro h
    rw [runes_cons, List.mem_cons] at h
    rcases h with h | h
    · by_cases hv : DecodeRuneInString (b0 :: t) = (RuneError, 1)
      · rw [hv] at h
        simp only [RuneError] at h
        omega
      · have ha := AppendRune_Decode (b0 :: t) (List.cons_ne_nil _ _) hv
        rw [← h, AppendRune_one (by omega)] at ha
        have hw := (Decode_width b0 t).1
        obtain ⟨k, hk⟩ : ∃ k, (DecodeRuneInString (b0 :: t)).2 = k + 1 :=
          ⟨(DecodeRuneInString (b0 :: t)).2 - 1, by omega⟩
        rw [hk, List.take_succ_cons] at ha
        have := (List.cons.inj ha).1
        simp only [Int.toNat_ofNat] at this
        rw [this]
        exact List.mem_cons_self _ _
    · exact List.mem_of_mem_drop (ih h)

/-- Upper-casing brings no newline into a string. -/
theorem newline_of_ToUpper (m : GoString) (h : 0x0A ∈ strings.ToUpper m) : 0x0A ∈ m := by
  rw [ToUpper_eq, encodeRunes, List.mem_flatten] at h
  obtain ⟨l, hl, hmem⟩ := h
  rw [List.map_map] at hl
  obtain ⟨r, hr, rfl⟩ := List.mem_map.mp hl
  have hu : unicode.ToUpper r = ((0x0A : Nat) : Int) :=
    mem_AppendRune_ascii _ 0x0A (by decide) hmem
  have hsp : unicode.IsSpace r = true := by
    rw [← IsSpace_ToUpper, hu]
    decide
  rw [ToUpper_of_IsSpace r hsp] at hu
  rw [hu] at hr
  exact mem_of_mem_runes_ascii 0x0A (by decide) m hr

/-- When a string with a last byte is cut in two and the second part is not
empty, the first part is a part of the string before that byte. -/
theorem prefix_of_append_eq_concat (X Y body : GoString) (c : Nat)
    (h : X ++ Y = body ++ [c]) (hY : Y ≠ []) : ∃ Y0, body = X ++ Y0 ∧ Y = Y0 ++ [c] := by
  rcases List.eq_nil_or_concat Y with hn | ⟨Y0, y, hy⟩
  · exact absurd hn hY
  · rw [List.concat_eq_append] at hy
    subst hy
    rw [← List.append_assoc] at h
    have h' := List.append_inj' h rfl
    have hyc : y = c := (List.cons.inj h'.2).1
    exact ⟨Y0, h'.1.symm, by rw [hyc]⟩

/-- Trimming a line leaves no newline when the only newline of the line is its
last byte. -/
theorem TrimSpace_line (body : GoString) (h : 0x0A ∉ body) :
    0x0A ∉ strings.TrimSpace (body ++ [0x0A]) := by
  intro hmem
  obtain ⟨A, B, _, _, hs, _, _, hl⟩ := TrimSpace_spec (body ++ [0x0A])
  by_cases hB : encodeRunes B = []
  · rw [hB, List.append_nil] at hs
    have hT : strings.TrimSpace (body ++ [0x0A]) ≠ [] := List.ne_nil_of_mem hmem
    obtain ⟨T0, hb, hT0⟩ := prefix_of_append_eq_concat _ _ _ _ hs.symm hT
    have hr : (runes (strings.TrimSpace (body ++ [0x0A]))).getLast? = some 0x0A := by
      rw [hT0, runes_append_start T0 0x0A [] (by omega), runes_cons,
        Decode_ascii 0x0A [] (by decide)]
      show (runes T0 ++ (10 : Int) :: runes []).getLast? = some 10
      rw [runes_nil, List.getLast?_append]
      rfl
    exact absurd (hl _ hr) (by decide)
  · obtain ⟨Y0, hb, _⟩ := prefix_of_append_eq_concat _ _ _ _ hs.symm hB
    apply h
    rw [hb]
    exact List.mem_append_left _ (List.mem_append_right _ hmem)

/-- The greeting of a line has no newline when the only newline of the line is
its last byte. -/
theorem greet_line (body : GoString) (shout : Bool) (h : 0x0A ∉ body) :
    0x0A ∉ greet (body ++ [0x0A]) shout := by
  have hplain : 0x0A ∉ greet (body ++ [0x0A]) false := by
    rw [greet_unfold]
    simp only [Bool.false_eq_true, if_false, List.mem_append, not_or]
    refine ⟨⟨by decide, ?_⟩, by decide⟩
    by_cases hT : strings.TrimSpace (body ++ [0x0A]) = []
    · rw [if_pos hT]; decide
    · rw [if_neg hT]; exact TrimSpace_line body h
  cases shout
  · exact hplain
  · rw [greet_shout]
    exact fun hm => hplain (newline_of_ToUpper _ hm)

set_option maxRecDepth 100000 in
/-- C1 (code at the claim's own witness): `greet("  Alice  ", false)` is
`"Hello, Alice! Welcome to Go "` followed by the four characters `ðŸŽ‰` that the
source file has after `Go `, not by the party-popper emoji U+1F389 of the claim. -/
theorem C1_greet_alice :
    greet (lit "  Alice  ") false = lit "Hello, Alice! Welcome to Go ðŸŽ‰" ∧
      greet (lit "  Alice  ") false ≠ lit "Hello, Alice! Welcome to Go 🎉" := by
  decide

set_option maxRecDepth 100000 in
/-- C2 (code at the empty name): `greet("", false)` is
`"Hello, stranger! Welcome to Go "` followed by the four characters `ðŸŽ‰` of
the source file, not by the emoji U+1F389 of the claim. -/
theorem C2_greet_empty :
    greet [] false = lit "Hello, stranger! Welcome to Go ðŸŽ‰" ∧
      greet [] false ≠ lit "Hello, stranger! Welcome to Go 🎉" := by
  decide

/-- C3: for every name, the greeting with `shout` is `strings.ToUpper` applied
to the whole greeting without `shout`. -/
theorem C3_shout_is_upper (s : GoString) :
    greet s true = strings.ToUpper (greet s false) :=
  greet_shout s

set_option maxRecDepth 100000 in
/-- C4 (code at the empty name, with `shout`): `greet("", true)` is
`"HELLO, STRANGER! WELCOME TO GO "` followed by `ÐŸŽ‰`: the suffix of the
source file is `ðŸŽ‰`, whose first letter the case conversion turns into `Ð`; the
result is not the text of the claim, which ends in the emoji U+1F389. -/
theorem C4_greet_empty_shout :
    greet [] true = lit "HELLO, STRANGER! WELCOME TO GO ÐŸŽ‰" ∧
      greet [] true ≠ lit "HELLO, STRANGER! WELCOME TO GO 🎉" ∧
      strings.ToUpper (lit "ðŸŽ‰") ≠ lit "ðŸŽ‰" := by
  decide

/-- C5: upper-casing is idempotent on greetings: `strings.ToUpper` leaves
`greet(s, true)` unchanged, that is, applying it twice to `greet(s, false)` is
applying it once. -/
theorem C5_upper_idempotent (s : GoString) :
    strings.ToUpper (greet s true) = greet s true ∧
      strings.ToUpper (strings.ToUpper (greet s false)) = strings.ToUpper (greet s false) := by
  rw [greet_shout]
  exact ⟨strings_ToUpper_idem _, strings_ToUpper_idem _⟩

/-- C8: for every name and every value of `shout`, the greeting does not end
with a newline: it ends with the suffix of the template (upper-cased when
`shout` is set), whose last byte is the last byte `0xB0` of the sign `‰`. -/
theorem C8_no_trailing_newline (name : GoString) (shout : Bool) :
    (greet name shout).getLast? ≠ some 0x0A ∧
      (greet name shout).getLast? = some 0xB0 ∧
      (if shout then lit "! WELCOME TO GO ÐŸŽ‰" else lit "! Welcome to Go ðŸŽ‰") <:+
        greet name shout := by
  have hs := greet_suffix name shout
  have hl : (greet name shout).getLast? = some 0xB0 := by
    obtain ⟨pre, hp⟩ := hs
    rw [← hp]
    cases shout
    · simp only [Bool.false_eq_true, if_false]
      rw [List.getLast?_append, upper_suffix.2.2.2]
      rfl
    · simp only [if_true]
      rw [List.getLast?_append, upper_suffix.2.2.1]
      rfl
  refine ⟨?_, hl, hs⟩
  rw [hl]
  decide

/-! ## The run of `main` -/

/-- C6: when the read fails with an error whose text is `e`, the run of `main`
is: the prompt, the read, and one line `Error reading input: ` followed by `e`;
nothing else is written, whatever the partial name and the flag. -/
theorem C6_read_error (shout : Bool) (name e now : GoString) :
    main shout (name, some e) now =
        [Event.write (lit "Enter your name: "), Event.read,
         Event.write (lit "Error reading input: " ++ e ++ lit "\n")] ∧
      stdout (main shout (name, some e) now) =
        lit "Enter your name: " ++ (lit "Error reading input: " ++ e ++ lit "\n") := by
  have h1 : lit "Error reading input:" ++ lit " " = lit "Error reading input: " := by decide
  constructor
  · simp [main, fmt.Print, fmt.Println, List.intersperse, ← h1]
  · simp [main, fmt.Print, fmt.Println, List.intersperse, stdout, ← h1]

/-- C7: when the read succeeds with the line `L`, the run of `main` is: the
prompt, the read, then exactly two lines, the greeting `greet(L, shout)` and
`Generated at: ` followed by the time stamp; no error line is written. -/
theorem C7_read_ok (shout : Bool) (L now : GoString) :
    main shout (L, none) now =
        [Event.write (lit "Enter your name: "), Event.read,
         Event.write (greet L shout ++ lit "\n"),
         Event.write (lit "Generated at: " ++ now ++ lit "\n")] ∧
      writes (main shout (L, none) now) =
        [lit "Enter your name: ", greet L shout ++ lit "\n",
         lit "Generated at: " ++ now ++ lit "\n"] := by
  have h1 : lit "Generated at:" ++ lit " " = lit "Generated at: " := by decide
  constructor
  · simp [main, fmt.Print, fmt.Println, List.intersperse, ← h1]
  · simp [main, fmt.Print, fmt.Println, List.intersperse, writes, ← h1]

set_option maxRecDepth 100000 in
/-- C9 (counterexample): a run whose read succeeds, here with the line
`"Bob\n"`, makes three writes to standard output, not two, and its first
event is the write of the prompt, before the read. -/
theorem C9_three_writes :
    (writes (main false (lit "Bob\n", none) (lit "Sun, 01 Nov 2026 10:00:00 UTC"))).length = 3 ∧
      (writes (main false (lit "Bob\n", none) (lit "Sun, 01 Nov 2026 10:00:00 UTC"))).length ≠ 2 ∧
      (main false (lit "Bob\n", none) (lit "Sun, 01 Nov 2026 10:00:00 UTC")).head? =
        some (Event.write (lit "Enter your name: ")) := by
  decide

/-- C9 (amended): every run of `main` makes exactly one read.  A run whose read
succeeds is, in this order: the write of the prompt `Enter your name: `, the
read, the write of the greeting line, the write of the time-stamp line; so it
makes exactly three writes, one before the read and two after it.  A run whose
read fails is the write of the prompt, the read, and the write of the error
line. -/
theorem C9_one_read (shout : Bool) (name : GoString) (err : Option GoString) (now : GoString) :
    reads (main shout (name, err) now) = 1 ∧
      main shout (name, none) now =
        [Event.write (lit "Enter your name: "), Event.read,
         Event.write (greet name shout ++ lit "\n"),
         Event.write (lit "Generated at: " ++ now ++ lit "\n")] ∧
      writes (main shout (name, none) now) =
        [lit "Enter your name: ", greet name shout ++ lit "\n",
         lit "Generated at: " ++ now ++ lit "\n"] ∧
      (writes (main shout (name, none) now)).length = 3 ∧
      writes ((main shout (name, none) now).take 1) = [lit "Enter your name: "] ∧
      (main shout (name, none) now).get? 1 = some Event.read ∧
      writes ((main shout (name, none) now).drop 2) =
        [greet name shout ++ lit "\n", lit "Generated at: " ++ now ++ lit "\n"] ∧
      (∀ e, main shout (name, some e) now =
        [Event.write (lit "Enter your name: "), Event.read,
         Event.write (lit "Error reading input: " ++ e ++ lit "\n")]) := by
  have h1 : lit "Generated at:" ++ lit " " = lit "Generated at: " := by decide
  have h2 : lit "Error reading input:" ++ lit " " = lit "Error reading input: " := by decide
  have hok : main shout (name, none) now =
      [Event.write (lit "Enter your name: "), Event.read,
       Event.write (greet name shout ++ lit "\n"),
       Event.write (lit "Generated at: " ++ now ++ lit "\n")] := by
    simp [main, fmt.Print, fmt.Println, List.intersperse, ← h1]
  refine ⟨?_, hok, ?_, rfl, ?_, ?_, ?_, ?_⟩
  · cases err <;> rfl
  · rw [hok]; rfl
  · rw [hok]; rfl
  · rw [hok]; rfl
  · rw [hok]; rfl
  · intro e
    simp [main, fmt.Print, fmt.Println, List.intersperse, ← h2]

/-- C10: a line that is empty or white space only is accepted: the read having
succeeded with such a line `L`, `main` writes the prompt, the fallback greeting
(the greeting of the empty name, built on `"stranger"`) and the time-stamp
line, and no error line. -/
theorem C10_blank_line (shout : Bool) (L now : GoString) (h : isWhitespaceOnly L = true) :
    main shout (L, none) now =
        [Event.write (lit "Enter your name: "), Event.read,
         Event.write (greet [] shout ++ lit "\n"),
         Event.write (lit "Generated at: " ++ now ++ lit "\n")] ∧
      greet L shout = greet [] shout ∧
      greet [] shout =
        (if shout then strings.ToUpper (lit "Hello, " ++ lit "stranger" ++ lit "! Welcome to Go ðŸŽ‰")
         else lit "Hello, " ++ lit "stranger" ++ lit "! Welcome to Go ðŸŽ‰") := by
  have hg := greet_whitespace_eq L shout h
  have h1 : lit "Generated at:" ++ lit " " = lit "Generated at: " := by decide
  refine ⟨?_, hg, ?_⟩
  · simp [main, fmt.Print, fmt.Println, List.intersperse, ← h1, hg]
  · rw [greet_unfold]
    rfl

set_option maxRecDepth 100000 in
/-- C10, at the line `"\r\n"` without `shout`. -/
theorem C10_blank_line_witness :
    isWhitespaceOnly (lit "\r\n") = true ∧
      (main false (lit "\r\n", none) (lit "Sun, 01 Nov 2026 10:00:00 UTC") =
        [Event.write (lit "Enter your name: "), Event.read,
         Event.write (greet [] false ++ lit "\n"),
         Event.write (lit "Generated at: " ++ lit "Sun, 01 Nov 2026 10:00:00 UTC" ++ lit "\n")] ∧
      greet (lit "\r\n") false = greet [] false ∧
      greet [] false =
        (if false = true then
          strings.ToUpper (lit "Hello, " ++ lit "stranger" ++ lit "! Welcome to Go ðŸŽ‰")
         else lit "Hello, " ++ lit "stranger" ++ lit "! Welcome to Go ðŸŽ‰")) :=
  ⟨by decide, C10_blank_line false (lit "\r\n") (lit "Sun, 01 Nov 2026 10:00:00 UTC") (by decide)⟩

/-- C11: when the read returns a text together with an error, `main` makes no
use of the text: the run is the one of an empty text, its writes are the prompt
and the error line, and no write of it is the greeting line of any name,
shouted or not. -/
theorem C11_partial_line_discarded (shout : Bool) (text e now : GoString) :
    main shout (text, some e) now = main shout ([], some e) now ∧
    writes (main shout (text, some e) now) =
      [lit "Enter your name: ", lit "Error reading input: " ++ e ++ lit "\n"] ∧
    ∀ (n : GoString) (sh : Bool),
      greet n sh ++ lit "\n" ∉ writes (main shout (text, some e) now) := by
  have hw : writes (main shout (text, some e) now) =
      [lit "Enter your name: ", lit "Error reading input: " ++ e ++ lit "\n"] := by
    simp only [main, fmt.Print, fmt.Println, writes, List.cons_append, List.nil_append,
      List.intersperse, List.flatten, List.append_nil]
    have : lit "Error reading input: " = lit "Error reading input:" ++ lit " " := by decide
    rw [this]
    simp only [List.append_assoc]
  refine ⟨rfl, hw, ?_⟩
  intro n sh hmem
  obtain ⟨rest, hg⟩ := greet_head n sh
  have hp : lit "Enter your name: " = 0x45 :: lit "nter your name: " := by decide
  have he : lit "Error reading input: " = 0x45 :: lit "rror reading input: " := by decide
  rw [hw, hg, hp, he] at hmem
  simp only [List.cons_append, List.mem_cons, List.cons.injEq, List.mem_nil_iff, or_false] at hmem
  rcases hmem with h | h
  · exact absurd h.1 (by decide)
  · exact absurd h.1 (by decide)

/-! ## The greeting as a function of the name -/

/-- C12: for a line `body ++ "\n"` whose `body` has no newline, and both values
of `shout`, the greeting has no newline.  The greeting line that `main` writes,
the greeting followed by the newline of `Println`, has one newline: it is one
line of the output. -/
theorem C12_greeting_is_one_line (body : GoString) (shout : Bool) (h : 0x0A ∉ body) :
    0x0A ∉ greet (body ++ lit "\n") shout ∧
    (greet (body ++ lit "\n") shout ++ lit "\n").count 0x0A = 1 ∧
    ∀ now : GoString, ∃ g : GoString, 0x0A ∉ g ∧
      writes (main shout (body ++ lit "\n", none) now) =
        [lit "Enter your name: ", g ++ lit "\n", lit "Generated at: " ++ now ++ lit "\n"] := by
  have hn : lit "\n" = [0x0A] := by decide
  rw [hn]
  have hg := greet_line body shout h
  refine ⟨hg, ?_, ?_⟩
  · rw [List.count_append, List.count_eq_zero.mpr hg]
    rfl
  · intro now
    refine ⟨greet (body ++ [0x0A]) shout, hg, ?_⟩
    simp only [main, fmt.Print, fmt.Println, writes, List.cons_append, List.nil_append,
      List.intersperse, List.flatten, List.append_nil]
    have : lit "Generated at: " = lit "Generated at:" ++ lit " " := by decide
    rw [this, hn]
    simp only [List.append_assoc]

set_option maxRecDepth 100000 in
theorem C12_greeting_is_one_line_witness :
    0x0A ∉ lit "Bob\r" ∧
    (0x0A ∉ greet (lit "Bob\r" ++ lit "\n") true ∧
     (greet (lit "Bob\r" ++ lit "\n") true ++ lit "\n").count 0x0A = 1 ∧
     ∀ now : GoString, ∃ g : GoString, 0x0A ∉ g ∧
       writes (main true (lit "Bob\r" ++ lit "\n", none) now) =
         [lit "Enter your name: ", g ++ lit "\n", lit "Generated at: " ++ now ++ lit "\n"]) :=
  ⟨by decide, C12_greeting_is_one_line (lit "Bob\r") true (by decide)⟩

/-- C13: `greet` ignores the white space around the name: with white-space-only
strings `w1` and `w2` put before and after `s` the greeting is the one of `s`,
and the greeting of the trimmed `s` is the greeting of `s`, for both values of
`shout`. -/
theorem C13_surrounding_whitespace (s w1 w2 : GoString) (shout : Bool)
    (h1 : isWhitespaceOnly w1 = true) (h2 : isWhitespaceOnly w2 = true) :
    greet (w1 ++ s ++ w2) shout = greet s shout ∧
    greet (strings.TrimSpace s) shout = greet s shout := by
  constructor
  · rw [greet_unfold, greet_unfold, TrimSpace_append_whitespace s w1 w2 h1 h2]
  · rw [greet_unfold, greet_unfold, TrimSpace_idem]

set_option maxRecDepth 100000 in
theorem C13_surrounding_whitespace_witness :
    isWhitespaceOnly (lit "\t\u00a0") = true ∧ isWhitespaceOnly (lit "\u3000\r\n") = true ∧
    (greet (lit "\t\u00a0" ++ lit "Bob" ++ lit "\u3000\r\n") true = greet (lit "Bob") true ∧
     greet (strings.TrimSpace (lit "Bob")) true = greet (lit "Bob") true) :=
  ⟨by decide, by decide,
    C13_surrounding_whitespace (lit "Bob") (lit "\t\u00a0") (lit "\u3000\r\n") true
      (by decide) (by decide)⟩

/-- C14: with `shout` the greeting does not depend on the case of the name: the
greeting of the upper-cased `s` is the greeting of `s`.  On the way: trimming
commutes with upper-casing, and upper-casing distributes over the concatenation
of the template with a name. -/
theorem C14_shout_ignores_case (s : GoString) :
    greet (strings.ToUpper s) true = greet s true ∧
    strings.TrimSpace (strings.ToUpper s) = strings.ToUpper (strings.TrimSpace s) ∧
    ∀ n : GoString,
      strings.ToUpper (lit "Hello, " ++ n ++ lit "! Welcome to Go ðŸŽ‰") =
        strings.ToUpper (lit "Hello, ") ++ strings.ToUpper n ++
          strings.ToUpper (lit "! Welcome to Go ðŸŽ‰") := by
  refine ⟨?_, TrimSpace_ToUpper s, ToUpper_template⟩
  rw [greet_unfold, greet_unfold, TrimSpace_ToUpper]
  simp only [if_true]
  by_cases hT : strings.TrimSpace s = []
  · rw [if_pos ((ToUpper_eq_nil_iff _).mpr hT), if_pos hT]
  · rw [if_neg (fun h => hT ((ToUpper_eq_nil_iff _).mp h)), if_neg hT, ToUpper_template,
      ToUpper_template, strings_ToUpper_idem]

/-- C15: without `shout` the greeting determines the trimmed name.  For `s1` and
`s2` whose trimmed forms are not empty, the greetings are equal exactly when the
trimmed forms are; and the greeting of `s1` is the one of the empty input
exactly when the trimmed `s1` is `"stranger"`. -/
theorem C15_greeting_determines_name (s1 s2 : GoString)
    (h1 : strings.TrimSpace s1 ≠ []) (h2 : strings.TrimSpace s2 ≠ []) :
    (greet s1 false = greet s2 false → strings.TrimSpace s1 = strings.TrimSpace s2) ∧
    (strings.TrimSpace s1 = strings.TrimSpace s2 → greet s1 false = greet s2 false) ∧
    (greet s1 false = greet [] false ↔ strings.TrimSpace s1 = lit "stranger") := by
  have h0 : greet [] false = lit "Hello, " ++ lit "stranger" ++ lit "! Welcome to Go ðŸŽ‰" := by
    rw [greet_unfold]
    rfl
  rw [greet_plain s1 h1, greet_plain s2 h2, h0]
  refine ⟨?_, ?_, ?_, ?_⟩
  · intro h
    exact List.append_cancel_left (List.append_cancel_right h)
  · intro h
    rw [h]
  · intro h
    exact List.append_cancel_left (List.append_cancel_right h)
  · intro h
    rw [h]

set_option maxRecDepth 100000 in
theorem C15_greeting_determines_name_witness :
    strings.TrimSpace (lit " stranger\n") ≠ [] ∧ strings.TrimSpace (lit "\tstranger") ≠ [] ∧
    ((greet (lit " stranger\n") false = greet (lit "\tstranger") false →
        strings.TrimSpace (lit " stranger\n") = strings.TrimSpace (lit "\tstranger")) ∧
     (strings.TrimSpace (lit " stranger\n") = strings.TrimSpace (lit "\tstranger") →
        greet (lit " stranger\n") false = greet (lit "\tstranger") false) ∧
     (greet (lit " stranger\n") false = greet [] false ↔
        strings.TrimSpace (lit " stranger\n") = lit "stranger")) :=
  ⟨by decide, by decide,
    C15_greeting_determines_name (lit " stranger\n") (lit "\tstranger") (by decide) (by decide)⟩

end GreetMe
